import Mathlib

/-!
# gotorrent-client: wire codec, piece bitmap, peer session and coordinator

A shallow embedding of the packages `message`, `handshake`, `bitfields`,
`client` and `download` of the Go sources, followed by theorems about them.

Conventions of the embedding

* a Go `byte` / `uint8` is a `Byte` (`Fin 256`); a `[]byte` and a `string` are
  a `List Byte`; a `[20]byte` is a list of bytes of length 20 (`Hash20`);
* a Go `uint32` is a `Nat` that every operation reduces `% 2 ^ 32`;
* a Go `int` is an `Int` (64-bit platform; `int(x)` of a `uint32` is `x`
  itself). The arithmetic on the fields of the torrent record that fills the
  work queue runs before anything is allocated, and its results are reduced to
  the 64-bit range (`wrapInt`); the other `int` values are lengths of buffers
  in memory, offsets into them and counts of bytes received, which stay within
  that range;
* a run-time panic (index or slice bounds out of range) is the result `none`,
  or the fault `panic` in the session layer;
* a Go `error` is a value of `Err` or `Fault`; a function that mutates a buffer
  or a client returns the buffer or the client it leaves behind;
* an `io.Reader` is the list of the bytes it will still deliver, after which
  it reports end of file; a read returns the reader that is left;
* what a channel delivers is a list, in the order of delivery; each loop of the
  session layer is a function of its own, with fuel where the number of its
  iterations is not a number of list elements.
-/

namespace GoTorrent

/-- A Go `byte`. -/
abbrev Byte := Fin 256

/-- The conversion `byte(n)` of an unsigned integer: the low eight bits. -/
def byte (n : Nat) : Byte := ⟨n % 256, Nat.mod_lt n (by decide)⟩

/-- The conversion `uint32(x)` of an `int`. -/
def uint32 (x : Int) : Nat := (x % 4294967296).toNat

/-- The value a Go `int` (64 bits, two's complement) holds after an operation
whose exact result is `x`: the number of `[-2 ^ 63, 2 ^ 63)` congruent to `x`
modulo `2 ^ 64`. -/
def wrapInt (x : Int) : Int :=
  (x + 9223372036854775808) % 18446744073709551616 - 9223372036854775808

/-- A Go array `[20]byte`. -/
abbrev Hash20 := { l : List Byte // l.length = 20 }

/-- The errors the codec reports. -/
inductive Err where
  /-- `io.EOF`: the reader ended before the first byte of a read. -/
  | EOF
  /-- `io.ErrUnexpectedEOF`: the reader ended in the middle of a read. -/
  | UnexpectedEOF
  /-- A message with another ID than the one expected. -/
  | wrongID
  /-- `ParseHave`: the payload is not 4 bytes long. -/
  | havePayloadLength
  /-- `ParsePiece`: the payload is shorter than 8 bytes. -/
  | payloadTooShort
  /-- `ParsePiece`: the index of the message is not the expected one. -/
  | indexMismatch
  /-- `ParsePiece`: the begin offset is not inside the buffer. -/
  | beginTooBig
  /-- `ParsePiece`: the data reaches past the end of the buffer. -/
  | dataTooLong
  /-- `handshake.Read`: the length byte is zero. -/
  | pstrLenZero
  deriving DecidableEq, Repr

/-- The builtin `make([]byte, n)`. -/
def makeBytes (n : Nat) : List Byte := List.replicate n 0

/-- The builtin `copy(dst, src)`: the contents of `dst` afterwards. It
overwrites the first `min (len dst) (len src)` bytes of `dst`. -/
def copy (dst src : List Byte) : List Byte :=
  src.take dst.length ++ dst.drop src.length

/-- The number `copy(dst, src)` returns. -/
def copyCount (dst src : List Byte) : Nat := min dst.length src.length

/-- The statement `copy(buf[off:], src)` for `off ≤ len buf`: the contents of
`buf` afterwards. -/
def copyAt (buf : List Byte) (off : Nat) (src : List Byte) : List Byte :=
  buf.take off ++ copy (buf.drop off) src

/-- The slice expression `b[lo:hi]`, for `lo ≤ hi ≤ len b`. -/
def slice (b : List Byte) (lo hi : Nat) : List Byte := (b.take hi).drop lo

/-- The bytes `binary.BigEndian.PutUint32(b, v)` stores in `b[0..4)`. -/
def PutUint32 (v : Nat) : List Byte :=
  [byte (v >>> 24), byte (v >>> 16), byte (v >>> 8), byte v]

/-- The function `binary.BigEndian.Uint32(b)`; every call of the modelled code
passes at least four bytes. -/
def Uint32 (b : List Byte) : Nat :=
  (b.getD 3 0).val ||| ((b.getD 2 0).val <<< 8) ||| ((b.getD 1 0).val <<< 16) |||
    ((b.getD 0 0).val <<< 24)

/-- The function `io.ReadFull(r, buf)` with `len buf = n`: the error or the
bytes read, and the reader left. A short reader is read to its end. -/
def ReadFull (r : List Byte) (n : Nat) : Except Err (List Byte) × List Byte :=
  if n ≤ r.length then (.ok (r.take n), r.drop n)
  else if r.length = 0 then (.error .EOF, [])
  else (.error .UnexpectedEOF, [])

/-- The value of a byte string read as a big-endian number (most significant
byte first). -/
def beNat (b : List Byte) : Nat := b.foldl (fun acc x => acc * 256 + x.val) 0

/-! ## Package `bitfields` -/

namespace bitfields

/-- The type `Bitfield`. -/
abbrev Bitfield := List Byte

/-- The method `Bitfield.HasPiece`; `none` when `bf[byteIndex]` is out of range. -/
def HasPiece (bf : Bitfield) (index : Int) : Option Bool :=
  let byteIndex := Int.tdiv index 8
  let offset := Int.tmod index 8
  if 0 ≤ byteIndex ∧ byteIndex.toNat < bf.length then
    some (((bf.getD byteIndex.toNat 0).val >>> (7 - offset).toNat) &&& 1 == 1)
  else none

/-- The method `Bitfield.SetPiece`: the bitfield afterwards; `none` when
`bf[byteIndex]` is out of range. The constant `1` is a `byte`, so the shift is
reduced to eight bits. -/
def SetPiece (bf : Bitfield) (index : Int) : Option Bitfield :=
  let byteIndex := Int.tdiv index 8
  let offset := Int.tmod index 8
  if 0 ≤ byteIndex ∧ byteIndex.toNat < bf.length then
    some (bf.set byteIndex.toNat
      (byte ((bf.getD byteIndex.toNat 0).val ||| (byte (1 <<< (7 - offset).toNat)).val)))
  else none

end bitfields

/-! ## Package `message` -/

namespace message

/-- The constant `MsgChoke`. -/
def MsgChoke : Byte := 0
/-- The constant `MsgUnchoke`. -/
def MsgUnchoke : Byte := 1
/-- The constant `MsgInterested`. -/
def MsgInterested : Byte := 2
/-- The constant `MsgNotInterested`. -/
def MsgNotInterested : Byte := 3
/-- The constant `MsgHave`. -/
def MsgHave : Byte := 4
/-- The constant `MsgBitfield`. -/
def MsgBitfield : Byte := 5
/-- The constant `MsgRequest`. -/
def MsgRequest : Byte := 6
/-- The constant `MsgPiece`. -/
def MsgPiece : Byte := 7
/-- The constant `MsgCancel`. -/
def MsgCancel : Byte := 8

/-- The struct `Message`. -/
structure Message where
  ID : Byte
  Payload : List Byte
  deriving DecidableEq, Repr

/-- The method `Message.Serialize` on a `*Message` (`none` is the nil pointer).
The result is `none` when the function panics: `4+length` is computed in
`uint32`, and `buf[0:4]`, `buf[4]` and `buf[5:]` need a buffer that long. -/
def Serialize : Option Message → Option (List Byte)
  | none => some (makeBytes 4)
  | some m =>
    let length := (m.Payload.length + 1) % 4294967296
    let buf := makeBytes ((4 + length) % 4294967296)
    if buf.length < 4 then none
    else
      let buf := copyAt buf 0 (PutUint32 length)
      if buf.length ≤ 4 then none
      else
        let buf := buf.set 4 m.ID
        some (copyAt buf 5 m.Payload)

/-- The function `Read`: the error, the keep-alive (`none`) or the message, and
the reader left. -/
def Read (r : List Byte) : Except Err (Option Message) × List Byte :=
  match ReadFull r 4 with
  | (.error e, r) => (.error e, r)
  | (.ok bufLen, r) =>
    let length := Uint32 bufLen
    if length = 0 then (.ok none, r)
    else
      match ReadFull r length with
      | (.error e, r) => (.error e, r)
      | (.ok msgBuf, r) => (.ok (some { ID := msgBuf.getD 0 0, Payload := msgBuf.drop 1 }), r)

/-- The function `FormatRequest`. -/
def FormatRequest (index begin length : Int) : Message :=
  let payload := makeBytes 12
  let payload := copyAt payload 0 (PutUint32 (uint32 index))
  let payload := copyAt payload 4 (PutUint32 (uint32 begin))
  let payload := copyAt payload 8 (PutUint32 (uint32 length))
  { ID := MsgRequest, Payload := payload }

/-- The function `FormatHave`. -/
def FormatHave (index : Int) : Message :=
  let payload := makeBytes 4
  let payload := copyAt payload 0 (PutUint32 (uint32 index))
  { ID := MsgHave, Payload := payload }

/-- The function `ParseHave`. -/
def ParseHave (msg : Message) : Except Err Int :=
  if msg.ID ≠ MsgHave then .error .wrongID
  else if msg.Payload.length ≠ 4 then .error .havePayloadLength
  else .ok (Int.ofNat (Uint32 msg.Payload))

/-- The function `ParsePiece`: the result and the contents of `buf` afterwards. -/
def ParsePiece (index : Int) (buf : List Byte) (msg : Message) :
    Except Err Int × List Byte :=
  if msg.ID ≠ MsgPiece then (.error .wrongID, buf)
  else if msg.Payload.length < 8 then (.error .payloadTooShort, buf)
  else
    let parsedIndex := Int.ofNat (Uint32 (slice msg.Payload 0 4))
    if parsedIndex ≠ index then (.error .indexMismatch, buf)
    else
      let begin := Uint32 (slice msg.Payload 4 8)
      if begin ≥ buf.length then (.error .beginTooBig, buf)
      else
        let data := msg.Payload.drop 8
        if begin + data.length > buf.length then (.error .dataTooLong, buf)
        else (.ok (Int.ofNat data.length), copyAt buf begin data)

end message

/-! ## Package `handshake` -/

/-- The bytes of a string constant of the source (ASCII). -/
def bytesOfString (s : String) : List Byte := s.toList.map (fun c => byte c.toNat)

namespace handshake

/-- The struct `Handshake`. -/
structure Handshake where
  Pstr : List Byte
  Infohash : Hash20
  PeerID : Hash20
  deriving DecidableEq

/-- The method `Handshake.Serialize`. The buffer has `len(h.Pstr)+49` bytes, so
`buf[0]` and the slices `buf[curr:]` are in range at every step. -/
def Serialize (h : Handshake) : List Byte :=
  let buf := makeBytes (h.Pstr.length + 49)
  let buf := buf.set 0 (byte h.Pstr.length)
  let curr := 1
  let n := copyCount (buf.drop curr) h.Pstr
  let buf := copyAt buf curr h.Pstr
  let curr := curr + n
  let n := copyCount (buf.drop curr) (makeBytes 8)
  let buf := copyAt buf curr (makeBytes 8)
  let curr := curr + n
  let n := copyCount (buf.drop curr) h.Infohash.val
  let buf := copyAt buf curr h.Infohash.val
  let curr := curr + n
  let buf := copyAt buf curr h.PeerID.val
  buf

/-- A statement `copy(a[:], src)` on a zero `[20]byte` array `a`. -/
def copy20 (src : List Byte) : Hash20 :=
  ⟨copy (makeBytes 20) src, by simp [copy, makeBytes]; omega⟩

/-- The function `Read`: the error or the handshake, and the reader left. -/
def Read (r : List Byte) : Except Err Handshake × List Byte :=
  match ReadFull r 1 with
  | (.error e, r) => (.error e, r)
  | (.ok bufLen, r) =>
    let pstrLen := (bufLen.getD 0 0).val
    if pstrLen = 0 then (.error .pstrLenZero, r)
    else
      match ReadFull r (48 + pstrLen) with
      | (.error e, r) => (.error e, r)
      | (.ok handshakeBuf, r) =>
        let infoHash := copy20 (slice handshakeBuf (pstrLen + 8) (pstrLen + 8 + 20))
        let peerID := copy20 (handshakeBuf.drop (pstrLen + 8 + 20))
        (.ok { Pstr := slice handshakeBuf 0 pstrLen, Infohash := infoHash, PeerID := peerID }, r)

/-- The function `New`. -/
def New (infohash peerID : Hash20) : Handshake :=
  { Pstr := bytesOfString "BitTorrent protocol", Infohash := infohash, PeerID := peerID }

end handshake

/-! ## The acceptance rule of the specification and the example inputs -/

/-- The acceptance rule for a Piece message as the specification words it:
the ID is 7, the payload has at least 8 bytes, the big-endian number in
`payload[0:4]` is the expected index, the big-endian number `begin` in
`payload[4:8]` is below `len(buf)`, and `begin + len(payload[8:]) ≤ len(buf)`. -/
def pieceAccepted (index : Int) (buf : List Byte) (msg : message.Message) : Prop :=
  msg.ID = 7 ∧ 8 ≤ msg.Payload.length ∧ (beNat (slice msg.Payload 0 4) : Int) = index ∧
    beNat (slice msg.Payload 4 8) < buf.length ∧
    beNat (slice msg.Payload 4 8) + (msg.Payload.drop 8).length ≤ buf.length

instance (index : Int) (buf : List Byte) (msg : message.Message) :
    Decidable (pieceAccepted index buf msg) := by
  unfold pieceAccepted
  exact inferInstance

/-- A Choke message whose payload is `2 ^ 32 - 5` zero bytes. -/
def maxPayloadMessage : message.Message :=
  { ID := message.MsgChoke, Payload := makeBytes 4294967291 }

/-- A handshake whose protocol string is 256 zero bytes. -/
def longPstrHandshake : handshake.Handshake :=
  { Pstr := makeBytes 256, Infohash := ⟨makeBytes 20, rfl⟩, PeerID := ⟨makeBytes 20, rfl⟩ }

/-- The handshake of scenario S2: info digest 20 bytes `0xAA`, peer identity
20 bytes `0xBB`. -/
def exampleHandshake : handshake.Handshake :=
  handshake.New ⟨List.replicate 20 0xAA, rfl⟩ ⟨List.replicate 20 0xBB, rfl⟩

/-- The 16 data bytes of the Piece message of scenario S5. -/
def exampleBlock : List Byte := [1, 2, 3, 4, 5, 6, 7, 8, 9, 10, 11, 12, 13, 14, 15, 16]

/-- The Piece message of scenario S5: index 0, begin 16, then `exampleBlock`. -/
def examplePiece : message.Message :=
  { ID := message.MsgPiece, Payload := [0, 0, 0, 0, 0, 0, 0, 16] ++ exampleBlock }

/-- The bitmap of scenario S1. -/
def exampleBitfield : bitfields.Bitfield := [0b10110100, 0b00000001]

/-! ## Package `peers` -/

namespace peers

/-- The struct `Peer`: an IP address (`net.IP`, a byte slice) and a port. -/
structure Peer where
  IP : List Byte
  Port : Nat
  deriving DecidableEq

end peers

/-! ## Package `client` -/

/-- How a call of the session layer ends when it does not return normally: a
Go `error` (the first five), a run-time panic, a receive on a channel that
nothing will send on, or the model's fuel running out. -/
inductive Fault where
  /-- An error of the codec (`message`, `handshake`, the reader). -/
  | err (e : Err)
  /-- `net.DialTimeout` failed. -/
  | dialError
  /-- `Conn.Write` returned an error. -/
  | writeError
  /-- `completeHandshake`: the peer answered with another info digest. -/
  | infoHashMismatch
  /-- `getBitfield`: the first message is a keep-alive or not a Bitfield. -/
  | noBitfield
  /-- `checkIntegrity`: the SHA-1 digest of the piece is not the expected one. -/
  | integrity
  /-- A run-time panic. -/
  | panic
  /-- A receive that blocks for ever. -/
  | blocked
  /-- The fuel of a loop of the model ran out. -/
  | outOfFuel
  deriving DecidableEq

namespace client

/-- A `net.Conn`: the bytes the peer will still deliver (then end of file, which
also stands for an expired deadline), the writes made so far, in order, and the
outcomes of the coming writes (`false`: the write returns an error; when the
list is used up every write succeeds). `SetDeadline` has no other effect in the
model. -/
structure Conn where
  incoming : List Byte
  sent : List (List Byte)
  writeOK : List Bool
  deriving DecidableEq

/-- The method `Conn.Write`: whether it succeeded, and the connection left. -/
def Conn.Write (conn : Conn) (b : List Byte) : Bool × Conn :=
  match conn.writeOK with
  | [] => (true, { conn with sent := conn.sent ++ [b] })
  | ok :: rest =>
    if ok then (true, { conn with sent := conn.sent ++ [b], writeOK := rest })
    else (false, { conn with writeOK := rest })

/-- The struct `Client` (without the field `peer`, which only names the address
that was dialled). -/
structure Client where
  Conn : Conn
  Choked : Bool
  Bitfield : bitfields.Bitfield
  InfoHash : Hash20
  PeerID : Hash20
  deriving DecidableEq

/-- The function `completeHandshake`: the result and the connection left. -/
def completeHandshake (conn : Conn) (infohash peerID : Hash20) :
    Except Fault handshake.Handshake × Conn :=
  let req := handshake.New infohash peerID
  match conn.Write (handshake.Serialize req) with
  | (false, conn) => (.error .writeError, conn)
  | (true, conn) =>
    match handshake.Read conn.incoming with
    | (.error e, r) => (.error (.err e), { conn with incoming := r })
    | (.ok res, r) =>
      if infohash.val ≠ res.Infohash.val then
        (.error .infoHashMismatch, { conn with incoming := r })
      else (.ok res, { conn with incoming := r })

/-- The function `getBitfield`: the result and the connection left. -/
def getBitfield (conn : Conn) : Except Fault bitfields.Bitfield × Conn :=
  match message.Read conn.incoming with
  | (.error e, r) => (.error (.err e), { conn with incoming := r })
  | (.ok none, r) => (.error .noBitfield, { conn with incoming := r })
  | (.ok (some msg), r) =>
    if msg.ID ≠ message.MsgBitfield then (.error .noBitfield, { conn with incoming := r })
    else (.ok msg.Payload, { conn with incoming := r })

/-- The function `New`; `dial` is what `net.DialTimeout` returns for the peer
(`none`: an error). -/
def New (dial : Option Conn) (peerID infoHash : Hash20) : Except Fault Client :=
  match dial with
  | none => .error .dialError
  | some conn =>
    match completeHandshake conn infoHash peerID with
    | (.error f, _) => .error f
    | (.ok _, conn) =>
      match getBitfield conn with
      | (.error f, _) => .error f
      | (.ok bf, conn) =>
        .ok { Conn := conn, Choked := true, Bitfield := bf, InfoHash := infoHash,
              PeerID := peerID }

/-- The method `Client.Read`: the result of `message.Read` and the client left. -/
def Read (c : Client) : Except Err (Option message.Message) × Client :=
  match message.Read c.Conn.incoming with
  | (res, r) => (res, { c with Conn := { c.Conn with incoming := r } })

/-- The statement `c.Conn.Write(msg.Serialize())` that every `Send` method ends
with: the error it returns, if any, and the client left. -/
def send (c : Client) (msg : message.Message) : Except Fault Unit × Client :=
  match message.Serialize (some msg) with
  | none => (.error .panic, c)
  | some b =>
    match c.Conn.Write b with
    | (true, conn) => (.ok (), { c with Conn := conn })
    | (false, conn) => (.error .writeError, { c with Conn := conn })

/-- The method `Client.SendRequest`. -/
def SendRequest (c : Client) (index begin length : Int) : Except Fault Unit × Client :=
  send c (message.FormatRequest index begin length)

/-- The method `Client.SendUnchoke`. -/
def SendUnchoke (c : Client) : Except Fault Unit × Client :=
  send c { ID := message.MsgUnchoke, Payload := [] }

/-- The method `Client.SendInterested`. -/
def SendInterested (c : Client) : Except Fault Unit × Client :=
  send c { ID := message.MsgInterested, Payload := [] }

/-- The method `Client.SendNotInterested`. -/
def SendNotInterested (c : Client) : Except Fault Unit × Client :=
  send c { ID := message.MsgNotInterested, Payload := [] }

/-- The method `Client.SendHave`. -/
def SendHave (c : Client) (index : Int) : Except Fault Unit × Client :=
  send c (message.FormatHave index)

end client

/-! ## Package `download` -/

namespace download

/-- The struct `Torrent`. -/
structure Torrent where
  Peers : List peers.Peer
  PeerID : Hash20
  InfoHash : Hash20
  PieceHashes : List Hash20
  PieceLength : Int
  Length : Int
  Name : String
  deriving DecidableEq

/-- The struct `pieceWork`. -/
structure pieceWork where
  index : Int
  hash : Hash20
  length : Int
  deriving DecidableEq

/-- The struct `pieceResult`. -/
structure pieceResult where
  index : Int
  buf : List Byte
  deriving DecidableEq

/-- The struct `pieceProgress`; `client` is the client the pointer refers to. -/
structure pieceProgress where
  index : Int
  client : client.Client
  buf : List Byte
  downloaded : Int
  requested : Int
  backlog : Int
  deriving DecidableEq

/-- The constant `MaxBacklog`. -/
def MaxBacklog : Int := 5

/-- The constant `MaxBlockSize`. -/
def MaxBlockSize : Int := 16384

/-- The method `pieceProgress.readMessage`: the error, or the state left. -/
def readMessage (state : pieceProgress) : Except Fault pieceProgress :=
  match client.Read state.client with
  | (.error e, _) => .error (.err e)
  | (.ok none, c) => .ok { state with client := c }
  | (.ok (some msg), c) =>
    if msg.ID = message.MsgUnchoke then
      .ok { state with client := { c with Choked := false } }
    else if msg.ID = message.MsgChoke then
      .ok { state with client := { c with Choked := true } }
    else if msg.ID = message.MsgHave then
      match message.ParseHave msg with
      | .error e => .error (.err e)
      | .ok index =>
        match bitfields.SetPiece c.Bitfield index with
        | none => .error .panic
        | some bf => .ok { state with client := { c with Bitfield := bf } }
    else if msg.ID = message.MsgPiece then
      match message.ParsePiece state.index state.buf msg with
      | (.error e, _) => .error (.err e)
      | (.ok n, buf) =>
        .ok { state with client := c, buf := buf, downloaded := state.downloaded + n,
                         backlog := state.backlog - 1 }
    else .ok { state with client := c }

/-- The state `tryDownloadPiece` starts with, for `pw.length ≥ 0`. -/
def initialProgress (c : client.Client) (pw : pieceWork) : pieceProgress :=
  { index := pw.index, client := c, buf := makeBytes pw.length.toNat,
    downloaded := 0, requested := 0, backlog := 0 }

/-- The body of the inner loop of `tryDownloadPiece`: one request. -/
def requestStep (pw : pieceWork) (state : pieceProgress) : Except Fault pieceProgress :=
  let blockSize :=
    if pw.length - state.requested < MaxBlockSize then pw.length - state.requested
    else MaxBlockSize
  match client.SendRequest state.client state.index state.requested blockSize with
  | (.error f, _) => .error f
  | (.ok _, c) =>
    .ok { state with client := c, backlog := state.backlog + 1,
                     requested := state.requested + blockSize }

/-- The inner loop of `tryDownloadPiece`, with fuel. -/
def requestLoop : Nat → pieceWork → pieceProgress → Except Fault pieceProgress
  | 0, pw, state =>
    if state.backlog < MaxBacklog ∧ state.requested < pw.length then .error .outOfFuel
    else .ok state
  | fuel + 1, pw, state =>
    if state.backlog < MaxBacklog ∧ state.requested < pw.length then
      match requestStep pw state with
      | .error f => .error f
      | .ok state => requestLoop fuel pw state
    else .ok state

/-- The first half of an iteration of the outer loop of `tryDownloadPiece`: the
inner loop, entered when the client is not choked. Its fuel is the number of
requests the backlog leaves room for. -/
def requestPhase (pw : pieceWork) (state : pieceProgress) : Except Fault pieceProgress :=
  if !state.client.Choked then requestLoop (MaxBacklog - state.backlog).toNat pw state
  else .ok state

/-- The outer loop of `tryDownloadPiece`, with fuel. -/
def downloadLoop : Nat → pieceWork → pieceProgress → Except Fault pieceProgress
  | 0, pw, state =>
    if state.downloaded < pw.length then .error .outOfFuel else .ok state
  | fuel + 1, pw, state =>
    if state.downloaded < pw.length then
      match requestPhase pw state with
      | .error f => .error f
      | .ok state =>
        match readMessage state with
        | .error f => .error f
        | .ok state => downloadLoop fuel pw state
    else .ok state

/-- The function `tryDownloadPiece`: the error, or the final state, whose `buf`
is the slice the function returns. `make([]byte, pw.length)` panics for a
negative length; every iteration reads at least four bytes or ends the loop
with an error, so the bytes the peer will still deliver bound the number of
iterations. -/
def tryDownloadPiece (c : client.Client) (pw : pieceWork) : Except Fault pieceProgress :=
  if pw.length < 0 then .error .panic
  else downloadLoop (c.Conn.incoming.length + 1) pw (initialProgress c pw)

/-- The function `checkIntegrity`; `sha1` is `crypto/sha1.Sum`. -/
def checkIntegrity (sha1 : List Byte → Hash20) (pw : pieceWork) (buf : List Byte) :
    Except Fault Unit :=
  if sha1 buf ≠ pw.hash then .error .integrity else .ok ()

/-- What one pass through the body of the loop `for pw := range workQueue` of
`startDownloadWorker` does: the client left, the jobs sent on `workQueue`, the
results sent on `results`, and whether the worker returns. -/
structure workerPass where
  client : client.Client
  requeued : List pieceWork
  results : List pieceResult
  exit : Bool
  deriving DecidableEq

/-- The body of the loop `for pw := range workQueue` of `startDownloadWorker`.
When the worker returns after a failed attempt it closes the connection, and
the pass keeps the client as it was before the attempt. -/
def workerBody (sha1 : List Byte → Hash20) (c : client.Client) (pw : pieceWork) :
    Except Fault workerPass :=
  match bitfields.HasPiece c.Bitfield pw.index with
  | none => .error .panic
  | some false => .ok { client := c, requeued := [pw], results := [], exit := false }
  | some true =>
    match tryDownloadPiece c pw with
    | .error .panic => .error .panic
    | .error .outOfFuel => .error .outOfFuel
    | .error _ => .ok { client := c, requeued := [pw], results := [], exit := true }
    | .ok state =>
      match checkIntegrity sha1 pw state.buf with
      | .error _ =>
        .ok { client := state.client, requeued := [pw], results := [], exit := true }
      | .ok _ =>
        match client.SendHave state.client pw.index with
        | (.error .panic, _) => .error .panic
        | (_, c) =>
          .ok { client := c, requeued := [], results := [{ index := pw.index, buf := state.buf }],
                exit := false }

/-- The loop of `Download` that fills the work queue, from index `index` on.
The queue has the capacity `len(t.PieceHashes)`, so no send blocks. The
product, the sum and the difference are those of Go's `int`: they wrap around
at 64 bits. -/
def seedLoop (t : Torrent) : Nat → List Hash20 → List pieceWork
  | _, [] => []
  | index, hash :: rest =>
    let begin := wrapInt ((index : Int) * t.PieceLength)
    let end_ := wrapInt (begin + t.PieceLength)
    let end_ := if end_ > t.Length then t.Length else end_
    let length := wrapInt (end_ - begin)
    { index := (index : Int), hash := hash, length := length } :: seedLoop t (index + 1) rest

/-- The jobs `Download` sends on the work queue, in the order it sends them. -/
def seedQueue (t : Torrent) : List pieceWork := seedLoop t 0 t.PieceHashes

/-- The statement `copy(buf[begin:end], res.buf)` of the collection loop: the
buffer left; `none` when the slice bounds are out of range. -/
def collectStep (t : Torrent) (buf : List Byte) (res : pieceResult) : Option (List Byte) :=
  let begin := res.index * t.PieceLength
  let end_ := begin + t.PieceLength
  let end_ := if end_ > t.Length then t.Length else end_
  if 0 ≤ begin ∧ begin ≤ end_ ∧ end_ ≤ (buf.length : Int) then
    some (buf.take begin.toNat ++ copy (slice buf begin.toNat end_.toNat) res.buf ++
      buf.drop end_.toNat)
  else none

/-- The collection loop of `Download`; the list holds the results in the order
the channel `results` delivers them. -/
def collectLoop (t : Torrent) : List Byte → Nat → List pieceResult → Except Fault (List Byte)
  | buf, donePieces, [] =>
    if donePieces < t.PieceHashes.length then .error .blocked else .ok buf
  | buf, donePieces, res :: rest =>
    if donePieces < t.PieceHashes.length then
      match collectStep t buf res with
      | none => .error .panic
      | some buf => collectLoop t buf (donePieces + 1) rest
    else .ok buf

/-- The second half of `Download`: the output buffer is allocated
(`make([]byte, t.Length)` panics for a negative length) and filled from the
results the workers deliver. -/
def collect (t : Torrent) (results : List pieceResult) : Except Fault (List Byte) :=
  if t.Length < 0 then .error .panic
  else collectLoop t (makeBytes t.Length.toNat) 0 results

end download

/-! ## Definitions of the specification for the session and the coordinator -/

/-- The jobs the specification expects for a torrent: job `i` has the index
`i`, the hash `piece_hashes[i]`, and the nominal piece length, except for the
last one, whose length is `total − (N − 1) · nominal`. -/
def expectedJob (t : download.Torrent) (i : Nat) (hash : Hash20) : download.pieceWork :=
  { index := (i : Int), hash := hash,
    length := if i + 1 < t.PieceHashes.length then t.PieceLength
      else t.Length - ((t.PieceHashes.length : Int) - 1) * t.PieceLength }

/-- The torrent of scenario S6: four pieces, nominal length 1024, total 4000. -/
def exampleTorrent : download.Torrent :=
  { Peers := [], PeerID := ⟨makeBytes 20, rfl⟩, InfoHash := ⟨makeBytes 20, rfl⟩,
    PieceHashes := [⟨List.replicate 20 1, rfl⟩, ⟨List.replicate 20 2, rfl⟩,
      ⟨List.replicate 20 3, rfl⟩, ⟨List.replicate 20 4, rfl⟩],
    PieceLength := 1024, Length := 4000, Name := "example" }

/-- A record with two piece hashes, the nominal piece length `2 ^ 62 + 1` and
the total length `2 ^ 62 + 2`: the second piece has one byte. -/
def hugePieceTorrent : download.Torrent :=
  { Peers := [], PeerID := ⟨makeBytes 20, rfl⟩, InfoHash := ⟨makeBytes 20, rfl⟩,
    PieceHashes := [⟨List.replicate 20 1, rfl⟩, ⟨List.replicate 20 2, rfl⟩],
    PieceLength := 4611686018427387905, Length := 4611686018427387906, Name := "huge" }

/-- The state of a piece attempt after a frame was read off the connection:
only the reader has moved on to `rest`. -/
def afterRead (s : download.pieceProgress) (rest : List Byte) : download.pieceProgress :=
  { s with client := { s.client with Conn := { s.client.Conn with incoming := rest } } }

/-- The state of a piece attempt with the flag `choked` set to `b`. -/
def withChoked (s : download.pieceProgress) (b : Bool) : download.pieceProgress :=
  { s with client := { s.client with Choked := b } }

/-- A session whose peer has a bitmap of one byte (pieces 0 to 7) and sends a
Have message for the piece 8. -/
def haveBeyondBitmap : download.pieceProgress :=
  { index := 0,
    client := { Conn := { incoming := [0, 0, 0, 5, 4, 0, 0, 0, 8], sent := [], writeOK := [] },
                Choked := true, Bitfield := [0xFF],
                InfoHash := ⟨makeBytes 20, rfl⟩, PeerID := ⟨makeBytes 20, rfl⟩ },
    buf := makeBytes 4, downloaded := 0, requested := 0, backlog := 0 }

/-- A session that is not choked, in the middle of a piece of 4 bytes, whose
peer sends a Choke frame, a keep-alive, an Unchoke frame and an Interested frame. -/
def dispatchExample : download.pieceProgress :=
  { index := 0,
    client := { Conn := { incoming := [0, 0, 0, 1, 0, 0, 0, 0, 0, 0, 0, 0, 1, 1, 0, 0, 0, 1, 2],
                          sent := [], writeOK := [] },
                Choked := false, Bitfield := [0xFF],
                InfoHash := ⟨makeBytes 20, rfl⟩, PeerID := ⟨makeBytes 20, rfl⟩ },
    buf := makeBytes 4, downloaded := 0, requested := 0, backlog := 0 }

/-- The frame `SendRequest(index, begin, length)` writes. -/
def requestFrame (index begin length : Int) : List Byte :=
  (message.Serialize (some (message.FormatRequest index begin length))).getD []

/-- The three fields of a Request frame as the specification lays the frame
out: a byte string of 17 bytes that starts with the big-endian length 13 and
the ID 6 carries the big-endian numbers `index`, `begin` and `length`, four
bytes each; any other byte string is not a Request frame. -/
def requestFields (frame : List Byte) : Option (Int × Int × Int) :=
  if frame.length = 17 ∧ frame.take 5 = [0, 0, 0, 13, 6] then
    some ((beNat (slice frame 5 9) : Int), (beNat (slice frame 9 13) : Int),
      (beNat (slice frame 13 17) : Int))
  else none

/-- The flag `choked` as the last Choke or Unchoke message among the frames
`hist` leaves it (a keep-alive is `none`), `choked` being its value before
them. -/
def chokedAfter (choked : Bool) (hist : List (Option message.Message)) : Bool :=
  hist.foldl (fun ch m =>
    match m with
    | some msg =>
      if msg.ID = message.MsgUnchoke then false
      else if msg.ID = message.MsgChoke then true
      else ch
    | none => ch) choked

/-- The states a piece attempt for the job `pw`, started with the client `c`,
can be in, each with the frames read from the peer so far: the initial state;
the state after one more request of the inner loop, whose guards hold; the
state after one more call of `readMessage`. The loops of `tryDownloadPiece`
stay within these states (`requestLoop_Reach`, `downloadLoop_Reach`,
`tryDownloadPiece_Reach`). -/
inductive Reach (pw : download.pieceWork) (c : client.Client) :
    List (Option message.Message) → download.pieceProgress → Prop where
  | init : 0 ≤ pw.length → Reach pw c [] (download.initialProgress c pw)
  | request {hist : List (Option message.Message)} {s s' : download.pieceProgress} :
      Reach pw c hist s → s.downloaded < pw.length → s.client.Choked = false →
      s.backlog < download.MaxBacklog → s.requested < pw.length →
      download.requestStep pw s = .ok s' → Reach pw c hist s'
  | read {hist : List (Option message.Message)} {s s' : download.pieceProgress}
      {msg : Option message.Message} :
      Reach pw c hist s → s.downloaded < pw.length →
      (client.Read s.client).1 = .ok msg →
      download.readMessage s = .ok s' → Reach pw c (hist ++ [msg]) s'

/-- A job for the piece 3, of 20000 bytes. -/
def exampleJob : download.pieceWork :=
  { index := 3, hash := ⟨makeBytes 20, rfl⟩, length := 20000 }

/-- A client that is not choked, whose peer has the pieces 0 to 7 and sends
nothing more. -/
def unchokedClient : client.Client :=
  { Conn := { incoming := [], sent := [], writeOK := [] }, Choked := false, Bitfield := [0xFF],
    InfoHash := ⟨makeBytes 20, rfl⟩, PeerID := ⟨makeBytes 20, rfl⟩ }

/-- The attempt for `exampleJob` with `unchokedClient` after the first request. -/
def afterOneRequest : download.pieceProgress :=
  { download.initialProgress unchokedClient exampleJob with
    client := { unchokedClient with
      Conn := { incoming := [], sent := [requestFrame 3 0 16384], writeOK := [] } },
    backlog := 1, requested := 16384 }

/-- The attempt for `exampleJob` with `unchokedClient` after the second request. -/
def afterTwoRequests : download.pieceProgress :=
  { download.initialProgress unchokedClient exampleJob with
    client := { unchokedClient with
      Conn := { incoming := [],
                sent := [requestFrame 3 0 16384, requestFrame 3 16384 3616], writeOK := [] } },
    backlog := 2, requested := 20000 }

/-- A Piece message for the piece 0 with the six bytes 1 to 6 at offset 0. -/
def sixBytePiece : message.Message :=
  { ID := message.MsgPiece, Payload := [0, 0, 0, 0, 0, 0, 0, 0, 1, 2, 3, 4, 5, 6] }

/-- The frame of `sixBytePiece`. -/
def sixBytePieceFrame : List Byte :=
  [0, 0, 0, 15, 7, 0, 0, 0, 0, 0, 0, 0, 0, 1, 2, 3, 4, 5, 6]

/-- A job for the piece 0, of 10 bytes. -/
def tenByteJob : download.pieceWork :=
  { index := 0, hash := ⟨makeBytes 20, rfl⟩, length := 10 }

/-- A choked client whose peer sends the frame of `sixBytePiece` twice,
without having been asked for anything. -/
def chokedClient : client.Client :=
  { Conn := { incoming := sixBytePieceFrame ++ sixBytePieceFrame, sent := [], writeOK := [] },
    Choked := true, Bitfield := [0xFF],
    InfoHash := ⟨makeBytes 20, rfl⟩, PeerID := ⟨makeBytes 20, rfl⟩ }

/-- The attempt for `tenByteJob` with `chokedClient` after the first frame. -/
def afterOnePiece : download.pieceProgress :=
  { index := 0,
    client := { chokedClient with
      Conn := { incoming := sixBytePieceFrame, sent := [], writeOK := [] } },
    buf := [1, 2, 3, 4, 5, 6, 0, 0, 0, 0], downloaded := 6, requested := 0, backlog := -1 }

/-- The attempt for `tenByteJob` with `chokedClient` after the second frame. -/
def afterTwoPieces : download.pieceProgress :=
  { index := 0,
    client := { chokedClient with Conn := { incoming := [], sent := [], writeOK := [] } },
    buf := [1, 2, 3, 4, 5, 6, 0, 0, 0, 0], downloaded := 12, requested := 0, backlog := -2 }

/-- A connection on which the peer answers with the handshake of scenario S2
and then with a Bitfield message of one byte. -/
def freshConn : client.Conn :=
  { incoming := handshake.Serialize exampleHandshake ++ [0, 0, 0, 2, 5, 0xFF], sent := [],
    writeOK := [] }

/-- The offset of the piece `index` in the output: `index · nominal`. -/
def pieceBegin (t : download.Torrent) (index : Int) : Nat := (index * t.PieceLength).toNat

/-- The end of the piece `index` in the output: `min((index + 1) · nominal, total)`. -/
def pieceEnd (t : download.Torrent) (index : Int) : Nat :=
  (min ((index + 1) * t.PieceLength) t.Length).toNat

/-- The bytes of the result for the piece `i` among `results`. -/
def pieceOf (results : List download.pieceResult) (i : Nat) : List Byte :=
  ((results.find? (fun r => r.index = (i : Int))).map (fun r => r.buf)).getD []

/-- A torrent record with no piece, nominal piece length 2 and total length −1. -/
def negativeLengthTorrent : download.Torrent :=
  { Peers := [], PeerID := ⟨makeBytes 20, rfl⟩, InfoHash := ⟨makeBytes 20, rfl⟩,
    PieceHashes := [], PieceLength := 2, Length := -1, Name := "negative" }

/-- A torrent of three pieces, nominal piece length 2 and total length 5. -/
def smallTorrent : download.Torrent :=
  { Peers := [], PeerID := ⟨makeBytes 20, rfl⟩, InfoHash := ⟨makeBytes 20, rfl⟩,
    PieceHashes := [⟨makeBytes 20, rfl⟩, ⟨makeBytes 20, rfl⟩, ⟨makeBytes 20, rfl⟩],
    PieceLength := 2, Length := 5, Name := "small" }

/-- The three results for `smallTorrent`, the last piece arriving first. -/
def smallResults : List download.pieceResult :=
  [{ index := 2, buf := [5] }, { index := 0, buf := [1, 2] }, { index := 1, buf := [3, 4] }]

/-- A digest that stands for SHA-1 in the examples: twenty times the sum of
the bytes modulo 256. -/
def sumDigest (b : List Byte) : Hash20 :=
  ⟨List.replicate 20 (byte (b.foldl (fun acc x => acc + x.val) 0)), List.length_replicate _ _⟩

/-- A job for the piece 0, of 2 bytes, whose digest is that of the bytes 1, 2. -/
def twoByteJob : download.pieceWork :=
  { index := 0, hash := sumDigest [1, 2], length := 2 }

/-- A client that is not choked, whose peer has the piece 0 and answers with
the block 1, 2 of the piece 0. -/
def servingClient : client.Client :=
  { Conn := { incoming := [0, 0, 0, 11, 7, 0, 0, 0, 0, 0, 0, 0, 0, 1, 2], sent := [],
              writeOK := [] },
    Choked := false, Bitfield := [0x80],
    InfoHash := ⟨makeBytes 20, rfl⟩, PeerID := ⟨makeBytes 20, rfl⟩ }

/-- What the worker does with `twoByteJob` on `servingClient`: it requests the
block, reads it, sends Have and delivers the piece. -/
def deliveredPass : download.workerPass :=
  { client := { servingClient with
      Conn := { incoming := [],
                sent := [requestFrame 0 0 2, [0, 0, 0, 5, 4, 0, 0, 0, 0]], writeOK := [] } },
    requeued := [], results := [{ index := 0, buf := [1, 2] }], exit := false }

/-! ## The skeleton of `Download` and the inputs of the last claims -/

namespace download

/-- What a call of `Download` does: the jobs it sends on the work queue, the
peers it starts a worker for, and what it returns (`ok buf` stands for the
return `buf, nil`; the source has no other `return`). -/
structure downloadRun where
  queued : List pieceWork
  spawned : List peers.Peer
  result : Except Fault (List Byte)

/-- The method `Torrent.Download`, as a function of the results the channel
`results` delivers: it fills the work queue, starts one worker for each peer,
and collects. -/
def Download (t : Torrent) (results : List pieceResult) : downloadRun :=
  { queued := seedQueue t, spawned := t.Peers, result := collect t results }

end download

/-- The consistency of a torrent record: the nominal piece length is positive
and the number `N` of piece hashes is the number of pieces of that length the
total length needs, `(N − 1) · nominal < total ≤ N · nominal`. -/
def consistent (t : download.Torrent) : Prop :=
  0 < t.PieceLength ∧
    ((t.PieceHashes.length : Int) - 1) * t.PieceLength < t.Length ∧
    t.Length ≤ (t.PieceHashes.length : Int) * t.PieceLength

instance (t : download.Torrent) : Decidable (consistent t) := by
  unfold consistent
  exact inferInstance

/-- A peer address. -/
def examplePeer : peers.Peer := { IP := [127, 0, 0, 1], Port := 6881 }

/-- A record with two piece hashes for a total length of 100 and a nominal
piece length of 4, which needs 25 of them, and one peer. -/
def tooFewHashesTorrent : download.Torrent :=
  { Peers := [examplePeer], PeerID := ⟨makeBytes 20, rfl⟩, InfoHash := ⟨makeBytes 20, rfl⟩,
    PieceHashes := [⟨makeBytes 20, rfl⟩, ⟨makeBytes 20, rfl⟩],
    PieceLength := 4, Length := 100, Name := "short" }

/-- The two results for `tooFewHashesTorrent`. -/
def tooFewHashesResults : List download.pieceResult :=
  [{ index := 0, buf := [1, 2, 3, 4] }, { index := 1, buf := [5, 6, 7, 8] }]

/-- A record with the nominal piece length 0, one piece hash, the total length
5 and one peer. -/
def zeroPieceLengthTorrent : download.Torrent :=
  { Peers := [examplePeer], PeerID := ⟨makeBytes 20, rfl⟩, InfoHash := ⟨makeBytes 20, rfl⟩,
    PieceHashes := [⟨makeBytes 20, rfl⟩], PieceLength := 0, Length := 5, Name := "zero" }

/-- A connection on which the peer answers with the handshake of scenario S2
and then with a Bitfield message whose payload is empty. -/
def emptyBitfieldConn : client.Conn :=
  { incoming := handshake.Serialize exampleHandshake ++ [0, 0, 0, 1, 5], sent := [],
    writeOK := [] }

/-- The client `client.New` returns on `emptyBitfieldConn`: its bitmap is empty. -/
def emptyBitfieldClient : client.Client :=
  { Conn := { incoming := [],
              sent := [handshake.Serialize (handshake.New ⟨List.replicate 20 0xAA, rfl⟩
                ⟨List.replicate 20 0xBB, rfl⟩)],
              writeOK := [] },
    Choked := true, Bitfield := [],
    InfoHash := ⟨List.replicate 20 0xAA, rfl⟩, PeerID := ⟨List.replicate 20 0xBB, rfl⟩ }

/-! ## The inputs of the request sequence of a piece of more than 4 GiB -/

/-- A job for the piece 0, of `2 ^ 32 + 1` bytes. -/
def bigJob : download.pieceWork :=
  { index := 0, hash := ⟨makeBytes 20, rfl⟩, length := 4294967297 }

/-- The frame of a Piece message for the piece 0 that carries 16384 zero bytes
for the offset 0. -/
def zeroBlockFrame : List Byte :=
  PutUint32 16393 ++ (message.MsgPiece :: (makeBytes 8 ++ makeBytes 16384))

/-- The frame of a Piece message for the piece 0 that carries one zero byte for
the offset 0. -/
def oneByteFrame : List Byte := [0, 0, 0, 10, 7, 0, 0, 0, 0, 0, 0, 0, 0, 0]

/-- A choked client whose peer sends `n` times the frame `zeroBlockFrame`
without having been asked for anything, then an Unchoke frame, and then the
frame `oneByteFrame`. -/
def floodingClient (n : Nat) : client.Client :=
  { Conn := { incoming := (List.replicate n zeroBlockFrame).flatten ++
                ([0, 0, 0, 1, 1] ++ oneByteFrame),
              sent := [], writeOK := [] },
    Choked := true, Bitfield := [0xFF],
    InfoHash := ⟨makeBytes 20, rfl⟩, PeerID := ⟨makeBytes 20, rfl⟩ }

/-- The attempt for the job `pw` with the client `floodingClient (m + d)` after
`d` of the frames `zeroBlockFrame` were read: `m` of them are still to come. -/
def floodState (pw : download.pieceWork) (m d : Nat) : download.pieceProgress :=
  { index := pw.index, client := floodingClient m, buf := makeBytes pw.length.toNat,
    downloaded := 16384 * (d : Int), requested := 0, backlog := -(d : Int) }

/-! ## Lemmas on the builtins -/

theorem or_shiftLeft_eq (a b i : Nat) (h : b < 2 ^ i) : b ||| (a <<< i) = a * 2 ^ i + b := by
  rw [Nat.or_comm, Nat.shiftLeft_eq, Nat.mul_comm a, ← Nat.mul_add_lt_is_or h]

theorem Uint32_four (a b c d : Byte) :
    Uint32 [a, b, c, d] = a.val * 16777216 + b.val * 65536 + c.val * 256 + d.val := by
  have ha := a.isLt; have hb := b.isLt; have hc := c.isLt; have hd := d.isLt
  simp only [Uint32, List.getD_cons_zero, List.getD_cons_succ]
  rw [or_shiftLeft_eq c.val d.val 8 (by omega),
    or_shiftLeft_eq b.val _ 16 (by omega), or_shiftLeft_eq a.val _ 24 (by omega)]
  omega

theorem beNat_four (a b c d : Byte) :
    beNat [a, b, c, d] = a.val * 16777216 + b.val * 65536 + c.val * 256 + d.val := by
  simp only [beNat, List.foldl]
  omega

theorem Uint32_PutUint32 (v : Nat) (h : v < 4294967296) : Uint32 (PutUint32 v) = v := by
  rw [PutUint32, Uint32_four]
  simp only [byte, Nat.shiftRight_eq_div_pow]
  omega


theorem copyAt_append (pre mid post src : List Byte) (n : Nat) (hn : n = pre.length)
    (h : mid.length = src.length) :
    copyAt (pre ++ (mid ++ post)) n src = pre ++ (src ++ post) := by
  subst hn
  simp only [copyAt, copy, List.take_left, List.drop_left, List.length_append]
  rw [← h, List.drop_left]
  congr 2
  rw [List.take_of_length_le (by omega)]

theorem makeBytes_add (a b : Nat) : makeBytes (a + b) = makeBytes a ++ makeBytes b := by
  unfold makeBytes
  exact List.replicate_add a b 0

theorem length_makeBytes (n : Nat) : (makeBytes n).length = n := List.length_replicate n 0

theorem length_PutUint32 (v : Nat) : (PutUint32 v).length = 4 := rfl

section
open message

theorem message_Serialize_some (m : Message) (h : m.Payload.length + 5 < 4294967296) :
    Serialize (some m) =
      some (PutUint32 (m.Payload.length + 1) ++ (m.ID :: m.Payload)) := by
  have e1 : (m.Payload.length + 1) % 4294967296 = m.Payload.length + 1 :=
    Nat.mod_eq_of_lt (by omega)
  have e2 : (4 + (m.Payload.length + 1)) % 4294967296 = 4 + (1 + m.Payload.length) := by
    omega
  have c1 : copyAt (makeBytes (4 + (1 + m.Payload.length))) 0 (PutUint32 (m.Payload.length + 1))
      = PutUint32 (m.Payload.length + 1) ++ (makeBytes 1 ++ makeBytes m.Payload.length) := by
    rw [makeBytes_add, makeBytes_add]
    exact copyAt_append [] (makeBytes 4) _ (PutUint32 (m.Payload.length + 1)) 0 rfl rfl
  have c2 : (PutUint32 (m.Payload.length + 1) ++ (makeBytes 1 ++ makeBytes m.Payload.length)).set
      4 m.ID = (PutUint32 (m.Payload.length + 1) ++ [m.ID]) ++ (makeBytes m.Payload.length ++ []) := by
    simp only [PutUint32, makeBytes, List.replicate, List.cons_append, List.nil_append,
      List.set_cons_succ, List.set_cons_zero, List.append_nil]
  have c3 : copyAt ((PutUint32 (m.Payload.length + 1) ++ [m.ID]) ++
      (makeBytes m.Payload.length ++ [])) 5 m.Payload
      = (PutUint32 (m.Payload.length + 1) ++ [m.ID]) ++ (m.Payload ++ []) :=
    copyAt_append _ _ _ _ 5 rfl (length_makeBytes _)
  simp only [Serialize, e1, e2, c1, length_makeBytes]
  rw [if_neg (by omega), if_neg (by simp only [List.length_append, length_PutUint32, length_makeBytes]; omega), c2, c3]
  simp only [List.append_nil, List.append_assoc, List.singleton_append]

end

theorem ReadFull_append (a b : List Byte) (n : Nat) (hn : n = a.length) :
    ReadFull (a ++ b) n = (.ok a, b) := by
  subst hn
  simp only [ReadFull, List.length_append, Nat.le_add_right, if_true, List.take_left,
    List.drop_left]

theorem copyCount_drop (pre mid post src : List Byte) (n : Nat) (hn : n = pre.length)
    (h : mid.length = src.length) :
    copyCount ((pre ++ (mid ++ post)).drop n) src = src.length := by
  subst hn
  simp only [copyCount, List.drop_left, List.length_append, h]
  omega

section
open message

theorem message_Read_frame (bs rest : List Byte) (h0 : 0 < bs.length) (h1 : bs.length < 4294967296) :
    Read (PutUint32 bs.length ++ (bs ++ rest)) =
      (.ok (some { ID := bs.getD 0 0, Payload := bs.drop 1 }), rest) := by
  simp only [Read]
  rw [ReadFull_append (PutUint32 bs.length) (bs ++ rest) 4 rfl]
  simp only [Uint32_PutUint32 _ h1]
  rw [if_neg (by omega), ReadFull_append _ _ _ rfl]

theorem message_Read_Serialize (m : Message) (h : m.Payload.length + 5 < 4294967296) (rest : List Byte) :
    ∃ bs, Serialize (some m) = some bs ∧ Read (bs ++ rest) = (.ok (some m), rest) := by
  refine ⟨_, message_Serialize_some m h, ?_⟩
  have := message_Read_frame (m.ID :: m.Payload) rest (by simp) (by simp only [List.length_cons]; omega)
  simpa using this

theorem message_Serialize_panics (m : Message) (h1 : m.Payload.length + 1 < 4294967296)
    (h2 : 4294967296 ≤ m.Payload.length + 5) : Serialize (some m) = none := by
  simp only [Serialize, length_makeBytes]
  rw [if_pos (by omega)]

theorem maxPayloadMessage_length : maxPayloadMessage.Payload.length = 4294967291 :=
  length_makeBytes 4294967291

theorem message_Serialize_panics_of_length (m : Message) (h : m.Payload.length = 4294967291) :
    m.Payload.length + 1 < 4294967296 ∧ Serialize (some m) = none :=
  ⟨by omega, message_Serialize_panics m (by omega) (by omega)⟩

end

section
open handshake

theorem handshake_Serialize_eq (h : Handshake) :
    Serialize h = byte h.Pstr.length ::
      (h.Pstr ++ (makeBytes 8 ++ (h.Infohash.val ++ h.PeerID.val))) := by
  obtain ⟨p, ⟨ih, hih⟩, ⟨pid, hpid⟩⟩ := h
  have e0 : makeBytes (p.length + 49) =
      makeBytes 1 ++ (makeBytes p.length ++ (makeBytes 8 ++ (makeBytes 20 ++ makeBytes 20))) := by
    rw [← makeBytes_add, ← makeBytes_add, ← makeBytes_add, ← makeBytes_add]
    congr 1
    omega
  have b1 : (makeBytes 1 ++ (makeBytes p.length ++ (makeBytes 8 ++ (makeBytes 20 ++ makeBytes 20)))).set
      0 (byte p.length) =
      [byte p.length] ++ (makeBytes p.length ++ (makeBytes 8 ++ (makeBytes 20 ++ makeBytes 20))) := rfl
  have n1 := copyCount_drop [byte p.length] (makeBytes p.length)
    (makeBytes 8 ++ (makeBytes 20 ++ makeBytes 20)) p 1 rfl (length_makeBytes _)
  have b2 := copyAt_append [byte p.length] (makeBytes p.length)
    (makeBytes 8 ++ (makeBytes 20 ++ makeBytes 20)) p 1 rfl (length_makeBytes _)
  have a2 : [byte p.length] ++ (p ++ (makeBytes 8 ++ (makeBytes 20 ++ makeBytes 20))) =
      ([byte p.length] ++ p) ++ (makeBytes 8 ++ (makeBytes 20 ++ makeBytes 20)) := by
    rw [List.append_assoc]
  have l2 : 1 + p.length = ([byte p.length] ++ p).length := by
    rw [List.length_append, List.length_singleton]
  have n2 := copyCount_drop ([byte p.length] ++ p) (makeBytes 8) (makeBytes 20 ++ makeBytes 20)
    (makeBytes 8) (1 + p.length) l2 rfl
  have b3 := copyAt_append ([byte p.length] ++ p) (makeBytes 8) (makeBytes 20 ++ makeBytes 20)
    (makeBytes 8) (1 + p.length) l2 rfl
  have a3 : ([byte p.length] ++ p) ++ (makeBytes 8 ++ (makeBytes 20 ++ makeBytes 20)) =
      ([byte p.length] ++ p ++ makeBytes 8) ++ (makeBytes 20 ++ (makeBytes 20 ++ [])) := by
    simp only [List.append_nil, List.append_assoc]
  have l3 : 1 + p.length + 8 = ([byte p.length] ++ p ++ makeBytes 8).length := by
    simp only [List.length_append, List.length_singleton, length_makeBytes]
  have n3 := copyCount_drop ([byte p.length] ++ p ++ makeBytes 8) (makeBytes 20)
    (makeBytes 20 ++ []) ih (1 + p.length + 8) l3 (by rw [length_makeBytes, hih])
  have b4 := copyAt_append ([byte p.length] ++ p ++ makeBytes 8) (makeBytes 20)
    (makeBytes 20 ++ []) ih (1 + p.length + 8) l3 (by rw [length_makeBytes, hih])
  have a4 : ([byte p.length] ++ p ++ makeBytes 8) ++ (ih ++ (makeBytes 20 ++ [])) =
      ([byte p.length] ++ p ++ makeBytes 8 ++ ih) ++ (makeBytes 20 ++ []) := by
    simp only [List.append_nil, List.append_assoc]
  have l4 : 1 + p.length + 8 + ih.length = ([byte p.length] ++ p ++ makeBytes 8 ++ ih).length := by
    simp only [List.length_append, List.length_singleton, length_makeBytes]
  have b5 := copyAt_append ([byte p.length] ++ p ++ makeBytes 8 ++ ih) (makeBytes 20) [] pid
    (1 + p.length + 8 + ih.length) l4 (by rw [length_makeBytes, hpid])
  simp only [Serialize]
  have l8 : (makeBytes 8).length = 8 := rfl
  rw [e0, b1, n1, b2, a2, n2, l8, b3, a3, n3, b4, a4, b5]
  simp only [List.append_nil, List.append_assoc, List.singleton_append, List.cons_append,
    List.nil_append]

theorem copy20_val (src : List Byte) (h : src.length = 20) : copy20 src = ⟨src, h⟩ := by
  apply Subtype.ext
  show copy (makeBytes 20) src = src
  rw [copy, length_makeBytes, List.take_of_length_le (by omega), h]
  exact List.append_nil src

theorem handshake_Read_frame (p ih pid rest : List Byte) (b : Byte) (hb : b.val = p.length)
    (h0 : 0 < p.length) (hih : ih.length = 20) (hpid : pid.length = 20) :
    Read (b :: (p ++ (makeBytes 8 ++ (ih ++ pid))) ++ rest) =
      (.ok { Pstr := p, Infohash := ⟨ih, hih⟩, PeerID := ⟨pid, hpid⟩ }, rest) := by
  have r1 : ReadFull (b :: (p ++ (makeBytes 8 ++ (ih ++ pid))) ++ rest) 1 =
      (.ok [b], (p ++ (makeBytes 8 ++ (ih ++ pid))) ++ rest) :=
    ReadFull_append [b] _ 1 rfl
  have r2 : ReadFull ((p ++ (makeBytes 8 ++ (ih ++ pid))) ++ rest) (48 + p.length) =
      (.ok (p ++ (makeBytes 8 ++ (ih ++ pid))), rest) :=
    ReadFull_append _ _ _ (by simp only [List.length_append, length_makeBytes, hih, hpid]; omega)
  have s1 : slice (p ++ (makeBytes 8 ++ (ih ++ pid))) 0 p.length = p := by
    simp only [slice, List.take_left, List.drop_zero]
  have s2 : slice (p ++ (makeBytes 8 ++ (ih ++ pid))) (p.length + 8) (p.length + 8 + 20) = ih := by
    have e : p ++ (makeBytes 8 ++ (ih ++ pid)) = (p ++ makeBytes 8) ++ (ih ++ pid) := by
      rw [List.append_assoc]
    have l : p.length + 8 = (p ++ makeBytes 8).length := by
      rw [List.length_append, length_makeBytes]
    rw [slice, e, l, List.take_append, List.drop_left, ← hih, List.take_left]
  have s3 : (p ++ (makeBytes 8 ++ (ih ++ pid))).drop (p.length + 8 + 20) = pid := by
    have e : p ++ (makeBytes 8 ++ (ih ++ pid)) = (p ++ makeBytes 8 ++ ih) ++ pid := by
      simp only [List.append_assoc]
    have l : p.length + 8 + 20 = (p ++ makeBytes 8 ++ ih).length := by
      simp only [List.length_append, length_makeBytes, hih]
    rw [e, l, List.drop_left]
  simp only [Read]
  rw [r1]
  simp only [List.getD_cons_zero, hb]
  rw [if_neg (by omega), r2]
  simp only [s1, s2, s3, copy20_val _ hih, copy20_val _ hpid]

end



section
open bitfields

theorem shiftRight_and_one (x k : Nat) : ((x >>> k) &&& 1 == 1) = x.testBit k := by
  rw [Nat.testBit, Nat.and_comm 1, Nat.and_one_is_mod]
  rcases Nat.mod_two_eq_zero_or_one (x >>> k) with h | h <;> rw [h] <;> rfl

theorem byte_one_shiftLeft (k : Nat) (hk : k ≤ 7) : (byte (1 <<< k)).val = 2 ^ k := by
  show (1 <<< k) % 256 = 2 ^ k
  rw [Nat.one_shiftLeft]
  apply Nat.mod_eq_of_lt
  calc 2 ^ k ≤ 2 ^ 7 := Nat.pow_le_pow_right (by decide) hk
    _ < 256 := by decide

theorem setBit_val (x : Byte) (k : Nat) (hk : k ≤ 7) :
    (byte (x.val ||| (byte (1 <<< k)).val)).val = x.val ||| 2 ^ k := by
  rw [byte_one_shiftLeft k hk]
  show (x.val ||| 2 ^ k) % 256 = x.val ||| 2 ^ k
  apply Nat.mod_eq_of_lt
  have h1 : x.val < 2 ^ 8 := x.isLt
  have h2 : 2 ^ k < 2 ^ 8 := Nat.pow_lt_pow_right (by decide) (by omega)
  exact Nat.or_lt_two_pow h1 h2

theorem HasPiece_natCast (bf : Bitfield) (n : Nat) (h : n < 8 * bf.length) :
    HasPiece bf (n : Int) = some ((bf.getD (n / 8) 0).val.testBit (7 - n % 8)) := by
  have e1 : Int.tdiv (n : Int) 8 = ((n / 8 : Nat) : Int) := rfl
  have e2 : Int.tmod (n : Int) 8 = ((n % 8 : Nat) : Int) := rfl
  have e3 : ((7 : Int) - ((n % 8 : Nat) : Int)).toNat = 7 - n % 8 := by omega
  simp only [HasPiece, e1, e2, e3, Int.toNat_ofNat, shiftRight_and_one]
  rw [if_pos ⟨by omega, by omega⟩]

theorem SetPiece_natCast (bf : Bitfield) (n : Nat) (h : n < 8 * bf.length) :
    SetPiece bf (n : Int) = some (bf.set (n / 8)
      (byte ((bf.getD (n / 8) 0).val ||| (byte (1 <<< (7 - n % 8))).val))) := by
  have e1 : Int.tdiv (n : Int) 8 = ((n / 8 : Nat) : Int) := rfl
  have e2 : Int.tmod (n : Int) 8 = ((n % 8 : Nat) : Int) := rfl
  have e3 : ((7 : Int) - ((n % 8 : Nat) : Int)).toNat = 7 - n % 8 := by omega
  simp only [SetPiece, e1, e2, e3, Int.toNat_ofNat]
  rw [if_pos ⟨by omega, by omega⟩]

end

theorem copyAt_eq_append (buf : List Byte) (off : Nat) (src : List Byte)
    (h : off + src.length ≤ buf.length) :
    copyAt buf off src = buf.take off ++ (src ++ buf.drop (off + src.length)) := by
  have e1 : src.take (buf.drop off).length = src :=
    List.take_of_length_le (by rw [List.length_drop]; omega)
  rw [copyAt, copy, e1, List.drop_drop]

theorem length_copyAt (buf : List Byte) (off : Nat) (src : List Byte)
    (h : off + src.length ≤ buf.length) : (copyAt buf off src).length = buf.length := by
  rw [copyAt_eq_append buf off src h]
  simp only [List.length_append, List.length_take, List.length_drop]
  omega

theorem slice_copyAt (buf : List Byte) (off : Nat) (src : List Byte)
    (h : off + src.length ≤ buf.length) :
    slice (copyAt buf off src) off (off + src.length) = src := by
  have l : (buf.take off).length = off := by rw [List.length_take]; omega
  rw [copyAt_eq_append buf off src h, slice]
  rw [List.take_append_eq_append_take, List.drop_append_eq_append_drop]
  simp only [l, List.length_take, List.take_append_eq_append_take, Nat.add_sub_cancel_left,
    List.take_of_length_le (Nat.le_refl src.length), Nat.sub_self, List.take_zero,
    List.append_nil]
  rw [List.drop_of_length_le (by rw [List.length_take, List.length_take]; omega)]
  simp

theorem get?_copyAt (buf : List Byte) (off : Nat) (src : List Byte)
    (h : off + src.length ≤ buf.length) (i : Nat) (hi : i < off ∨ off + src.length ≤ i) :
    (copyAt buf off src).get? i = buf.get? i := by
  have l : (buf.take off).length = off := by rw [List.length_take]; omega
  rw [copyAt_eq_append buf off src h]
  simp only [List.get?_eq_getElem?]
  rcases hi with hi | hi
  · rw [List.getElem?_append_left (by omega), List.getElem?_take_of_lt hi]
  · rw [List.getElem?_append_right (by omega), List.getElem?_append_right (by omega),
      List.getElem?_drop, l]
    congr 1
    omega


/-! ## Claims on the wire codec -/

theorem handshake_Read_zero (x : List Byte) :
    handshake.Read ((0 : Byte) :: x) = (.error .pstrLenZero, x) := by
  have r1 : ReadFull ((0 : Byte) :: x) 1 = (.ok [0], x) := ReadFull_append [0] x 1 rfl
  simp only [handshake.Read]
  rw [r1]
  rfl

theorem longPstrHandshake_length : longPstrHandshake.Pstr.length = 256 :=
  length_makeBytes 256

/-- C1, evaluated at the failing input: the Choke message with a payload of
`2 ^ 32 - 5` bytes is a message of the claim (its payload length plus one fits
in 32 bits), and `Serialize` panics on it instead of returning a frame, because
the buffer size `4 + length` wraps around in `uint32`. -/
theorem message_Serialize_panics_at_maxPayload :
    maxPayloadMessage.Payload.length + 1 < 4294967296 ∧
      message.Serialize (some maxPayloadMessage) = none :=
  message_Serialize_panics_of_length maxPayloadMessage maxPayloadMessage_length

/-- C2 as stated fails: the handshake with a protocol string of 256 bytes has
a protocol string of length > 0, yet `Read` on its serialization reports the
error of a zero length byte and returns no handshake. -/
theorem handshake_roundtrip_fails_at_256 :
    0 < longPstrHandshake.Pstr.length ∧
      (handshake.Read (handshake.Serialize longPstrHandshake)).1 = .error .pstrLenZero ∧
      (handshake.Read (handshake.Serialize longPstrHandshake)).1 ≠ .ok longPstrHandshake := by
  have e : handshake.Serialize longPstrHandshake = (0 : Byte) ::
      (longPstrHandshake.Pstr ++ (makeBytes 8 ++
        (longPstrHandshake.Infohash.val ++ longPstrHandshake.PeerID.val))) := by
    rw [handshake_Serialize_eq, longPstrHandshake_length]
    rfl
  rw [e, handshake_Read_zero]
  refine ⟨?_, rfl, ?_⟩
  · rw [longPstrHandshake_length]; decide
  · intro h; cases h

/-- C2, amended: for every handshake `h` whose protocol string has a length
from 1 to 255, `handshake.Read` on a byte stream that starts with
`h.Serialize()` returns, without error, the handshake `h` itself (the same
protocol string, info digest and peer identity) and leaves the rest of the
stream. -/
theorem handshake_roundtrip (h : handshake.Handshake) (h0 : 0 < h.Pstr.length)
    (h1 : h.Pstr.length < 256) (rest : List Byte) :
    handshake.Read (handshake.Serialize h ++ rest) = (.ok h, rest) := by
  rw [handshake_Serialize_eq]
  exact handshake_Read_frame h.Pstr h.Infohash.val h.PeerID.val rest (byte h.Pstr.length)
    (Nat.mod_eq_of_lt h1) h0 h.Infohash.property h.PeerID.property

/-- The handshake of scenario S2 has a protocol string of 19 bytes and is read
back from its serialization. -/
theorem handshake_roundtrip_witness :
    exampleHandshake.Pstr.length = 19 ∧
      handshake.Read (handshake.Serialize exampleHandshake ++ []) = (.ok exampleHandshake, []) :=
  ⟨by decide, handshake_roundtrip exampleHandshake (by decide) (by decide) []⟩

theorem Uint32_eq_beNat (b : List Byte) (h : b.length = 4) : Uint32 b = beNat b := by
  match b, h with
  | [a, b, c, d], _ => rw [Uint32_four, beNat_four]

theorem length_slice (b : List Byte) (lo hi : Nat) (h : hi ≤ b.length) :
    (slice b lo hi).length = hi - lo := by
  rw [slice, List.length_drop, List.length_take, Nat.min_eq_left h]

section
open message

theorem ParsePiece_of_accepted (index : Int) (buf : List Byte) (msg : Message)
    (h : pieceAccepted index buf msg) :
    ParsePiece index buf msg =
      (.ok (Int.ofNat (msg.Payload.drop 8).length),
        copyAt buf (beNat (slice msg.Payload 4 8)) (msg.Payload.drop 8)) := by
  obtain ⟨h1, h2, h3, h4, h5⟩ := h
  have e1 : Uint32 (slice msg.Payload 0 4) = beNat (slice msg.Payload 0 4) :=
    Uint32_eq_beNat _ (by rw [length_slice _ _ _ (by omega)])
  have e2 : Uint32 (slice msg.Payload 4 8) = beNat (slice msg.Payload 4 8) :=
    Uint32_eq_beNat _ (by rw [length_slice _ _ _ (by omega)])
  simp only [ParsePiece, e1, e2]
  rw [if_neg (by intro c; exact c h1), if_neg (by omega),
    if_neg (by intro c; exact c h3), if_neg (by omega), if_neg (by omega)]

theorem ParsePiece_of_not_accepted (index : Int) (buf : List Byte) (msg : Message)
    (h : ¬ pieceAccepted index buf msg) :
    ∃ e, ParsePiece index buf msg = (.error e, buf) := by
  unfold ParsePiece
  by_cases c1 : msg.ID ≠ MsgPiece
  · exact ⟨_, if_pos c1⟩
  rw [if_neg c1]
  by_cases c2 : msg.Payload.length < 8
  · exact ⟨_, if_pos c2⟩
  rw [if_neg c2]
  have e1 : Uint32 (slice msg.Payload 0 4) = beNat (slice msg.Payload 0 4) :=
    Uint32_eq_beNat _ (by rw [length_slice _ _ _ (by omega)])
  have e2 : Uint32 (slice msg.Payload 4 8) = beNat (slice msg.Payload 4 8) :=
    Uint32_eq_beNat _ (by rw [length_slice _ _ _ (by omega)])
  simp only [e1, e2]
  by_cases c3 : Int.ofNat (beNat (slice msg.Payload 0 4)) ≠ index
  · exact ⟨_, if_pos c3⟩
  rw [if_neg c3]
  by_cases c4 : beNat (slice msg.Payload 4 8) ≥ buf.length
  · exact ⟨_, if_pos c4⟩
  rw [if_neg c4]
  by_cases c5 : beNat (slice msg.Payload 4 8) + (msg.Payload.drop 8).length > buf.length
  · exact ⟨_, if_pos c5⟩
  exfalso
  exact h ⟨not_not.mp c1, by omega, not_not.mp c3, by omega, by omega⟩

end

/-- C3: `ParsePiece(I, buf, msg)` succeeds if and only if the message is
accepted by the rule of the specification (ID 7, payload of at least 8 bytes,
big-endian `payload[0:4]` equal to `I`, `begin < len(buf)` and
`begin + len(payload[8:]) ≤ len(buf)`); in every other case it returns an
error and leaves `buf` as it was. -/
theorem ParsePiece_accepts_iff (index : Int) (buf : List Byte) (msg : message.Message) :
    ((∃ n buf', message.ParsePiece index buf msg = (.ok n, buf')) ↔
        pieceAccepted index buf msg) ∧
      (¬ pieceAccepted index buf msg →
        ∃ e, message.ParsePiece index buf msg = (.error e, buf)) := by
  refine ⟨⟨?_, fun h => ⟨_, _, ParsePiece_of_accepted index buf msg h⟩⟩,
    ParsePiece_of_not_accepted index buf msg⟩
  rintro ⟨n, buf', h⟩
  by_contra c
  obtain ⟨e, he⟩ := ParsePiece_of_not_accepted index buf msg c
  rw [he] at h
  cases h

/-- The Piece message of scenario S5 is accepted for index 0 and a buffer of
32 bytes and rejected, with the buffer unchanged, for a buffer of 16 bytes
(`begin = 16 ≥ len(buf)`) and for the expected index 1. -/
theorem ParsePiece_accepts_iff_witness :
    (∃ n buf', message.ParsePiece 0 (makeBytes 32) examplePiece = (.ok n, buf')) ∧
      (∃ e, message.ParsePiece 0 (makeBytes 16) examplePiece = (.error e, makeBytes 16)) ∧
      (∃ e, message.ParsePiece 1 (makeBytes 32) examplePiece = (.error e, makeBytes 32)) :=
  ⟨(ParsePiece_accepts_iff 0 (makeBytes 32) examplePiece).1.2 (by decide),
    (ParsePiece_accepts_iff 0 (makeBytes 16) examplePiece).2 (by decide),
    (ParsePiece_accepts_iff 1 (makeBytes 32) examplePiece).2 (by decide)⟩

/-- C4: whenever `ParsePiece(I, buf, msg)` succeeds it returns `len(data)`
for `data = payload[8:]`, the buffer keeps its length, the bytes
`buf[begin .. begin+len(data))` afterwards are `data`, and every byte of `buf`
outside that range is unchanged. -/
theorem ParsePiece_write_effect (index : Int) (buf : List Byte) (msg : message.Message)
    (n : Int) (buf' : List Byte) (h : message.ParsePiece index buf msg = (.ok n, buf')) :
    n = ((msg.Payload.drop 8).length : Int) ∧ buf'.length = buf.length ∧
      slice buf' (beNat (slice msg.Payload 4 8))
        (beNat (slice msg.Payload 4 8) + (msg.Payload.drop 8).length) = msg.Payload.drop 8 ∧
      ∀ i, i < beNat (slice msg.Payload 4 8) ∨
          beNat (slice msg.Payload 4 8) + (msg.Payload.drop 8).length ≤ i →
        buf'.get? i = buf.get? i := by
  have acc : pieceAccepted index buf msg := by
    by_contra c
    obtain ⟨e, he⟩ := ParsePiece_of_not_accepted index buf msg c
    rw [he] at h
    cases h
  rw [ParsePiece_of_accepted index buf msg acc] at h
  obtain ⟨h1, h2, h3, h4, h5⟩ := acc
  cases h
  exact ⟨rfl, length_copyAt _ _ _ h5, slice_copyAt _ _ _ h5, get?_copyAt _ _ _ h5⟩

/-- Scenario S5: with a 32-byte buffer, `begin = 16` and the 16 data bytes
`exampleBlock`, `ParsePiece` returns 16 and writes the block at offsets
16..32, the first 16 bytes staying zero. -/
theorem ParsePiece_write_effect_witness :
    message.ParsePiece 0 (makeBytes 32) examplePiece = (.ok 16, makeBytes 16 ++ exampleBlock) ∧
      slice (makeBytes 16 ++ exampleBlock) 16 (16 + 16) = exampleBlock :=
  ⟨rfl,
    (ParsePiece_write_effect 0 (makeBytes 32) examplePiece 16 (makeBytes 16 ++ exampleBlock)
      rfl).2.2.1⟩

/-! ## Claims on the piece bitmap -/

theorem getD_set_self (l : List Byte) (k : Nat) (v : Byte) (h : k < l.length) :
    (l.set k v).getD k 0 = v := by
  rw [List.getD_eq_getElem?_getD, List.getElem?_set_self h]
  rfl

theorem getD_set_ne (l : List Byte) (k j : Nat) (v : Byte) (h : k ≠ j) :
    (l.set k v).getD j 0 = l.getD j 0 := by
  rw [List.getD_eq_getElem?_getD, List.getD_eq_getElem?_getD, List.getElem?_set_ne h]

theorem testBit_setBit (x k j : Nat) :
    (x ||| 2 ^ k).testBit j = (decide (j = k) || x.testBit j) := by
  rw [Nat.testBit_or, Nat.testBit_two_pow, Bool.or_comm]
  congr 1
  exact decide_eq_decide.mpr ⟨fun h => h.symm, fun h => h.symm⟩

/-- C5: for every bitmap `b` and index `i` with `0 ≤ i < 8 * len(b)`,
`SetPiece(i)` succeeds and afterwards `HasPiece(i)` is true; the bitmap keeps
its length, every byte other than byte `i / 8` keeps its value, in byte `i / 8`
bit `7 - i % 8` is 1 and every other bit keeps its value, and `HasPiece(j)`
is unchanged for every other index `j` of the bitmap. -/
theorem SetPiece_HasPiece (b : bitfields.Bitfield) (i : Nat) (h : i < 8 * b.length) :
    ∃ b', bitfields.SetPiece b (i : Int) = some b' ∧
      bitfields.HasPiece b' (i : Int) = some true ∧
      b'.length = b.length ∧
      (∀ k, k ≠ i / 8 → b'.get? k = b.get? k) ∧
      (∀ j, (b'.getD (i / 8) 0).val.testBit j =
        (decide (j = 7 - i % 8) || (b.getD (i / 8) 0).val.testBit j)) ∧
      (∀ j : Nat, j < 8 * b.length → j ≠ i →
        bitfields.HasPiece b' (j : Int) = bitfields.HasPiece b (j : Int)) := by
  have hk : i / 8 < b.length := by omega
  have hbit : 7 - i % 8 ≤ 7 := by omega
  refine ⟨_, SetPiece_natCast b i h, ?_, List.length_set _ _ _, ?_, ?_, ?_⟩
  · rw [HasPiece_natCast _ i (by rw [List.length_set]; exact h), getD_set_self _ _ _ hk,
      setBit_val _ _ hbit, testBit_setBit]
    simp
  · intro k hk'
    simp only [List.get?_eq_getElem?]
    exact List.getElem?_set_ne (Ne.symm hk')
  · intro j
    rw [getD_set_self _ _ _ hk, setBit_val _ _ hbit, testBit_setBit]
  · intro j hj hne
    rw [HasPiece_natCast _ j (by rw [List.length_set]; exact hj), HasPiece_natCast _ j hj]
    by_cases c : i / 8 = j / 8
    · rw [← c, getD_set_self _ _ _ hk, setBit_val _ _ hbit, testBit_setBit]
      have : ¬ (7 - j % 8 = 7 - i % 8) := by omega
      simp [this]
    · rw [getD_set_ne _ _ _ _ c]

/-- Scenario S1: on the bitmap `[0b10110100, 0b00000001]`, `SetPiece(4)` gives
byte 0 = `0b10111100` and leaves byte 1, and then `HasPiece(4)` is true. -/
theorem SetPiece_HasPiece_witness :
    bitfields.SetPiece exampleBitfield 4 = some [0b10111100, 0b00000001] ∧
      ∃ b', bitfields.SetPiece exampleBitfield ((4 : Nat) : Int) = some b' ∧
        bitfields.HasPiece b' ((4 : Nat) : Int) = some true :=
  ⟨by decide,
    let ⟨b', h1, h2, _⟩ := SetPiece_HasPiece exampleBitfield 4 (by decide)
    ⟨b', h1, h2⟩⟩

/-- C6: for every bitmap `b` and index `i` with `0 ≤ i < 8 * len(b)`,
`HasPiece(i)` returns whether bit `7 - i % 8` of byte `i / 8` is 1 (the most
significant bit of a byte is its lowest piece index). -/
theorem HasPiece_bit_order (b : bitfields.Bitfield) (i : Nat) (h : i < 8 * b.length) :
    bitfields.HasPiece b (i : Int) = some ((b.getD (i / 8) 0).val.testBit (7 - i % 8)) :=
  HasPiece_natCast b i h

/-- Scenario S1: on the bitmap `[0b10110100, 0b00000001]` the pieces 0, 2, 3,
5 and 15 are present and the pieces 1, 4, 6 and 7 are not. -/
theorem HasPiece_bit_order_witness :
    bitfields.HasPiece exampleBitfield ((15 : Nat) : Int) =
        some ((exampleBitfield.getD (15 / 8) 0).val.testBit (7 - 15 % 8)) ∧
      bitfields.HasPiece exampleBitfield 0 = some true ∧
      bitfields.HasPiece exampleBitfield 1 = some false ∧
      bitfields.HasPiece exampleBitfield 2 = some true ∧
      bitfields.HasPiece exampleBitfield 3 = some true ∧
      bitfields.HasPiece exampleBitfield 4 = some false ∧
      bitfields.HasPiece exampleBitfield 5 = some true ∧
      bitfields.HasPiece exampleBitfield 6 = some false ∧
      bitfields.HasPiece exampleBitfield 7 = some false ∧
      bitfields.HasPiece exampleBitfield 15 = some true :=
  ⟨HasPiece_bit_order exampleBitfield 15 (by decide), by decide, by decide, by decide,
    by decide, by decide, by decide, by decide, by decide, by decide⟩

/-! ## Claims on frames and on Have -/

theorem beNat_PutUint32 (v : Nat) (h : v < 4294967296) : beNat (PutUint32 v) = v := by
  rw [← Uint32_eq_beNat _ (length_PutUint32 v), Uint32_PutUint32 v h]

theorem uint32_natCast (i : Nat) (h : i < 4294967296) : uint32 (i : Int) = i := by
  unfold uint32
  omega

theorem slice_append_mid (a b c : List Byte) (lo hi : Nat) (hlo : lo = a.length)
    (hhi : hi = a.length + b.length) : slice (a ++ (b ++ c)) lo hi = b := by
  subst hlo hhi
  rw [slice, List.take_append, List.take_left, List.drop_left]

theorem makeBytes_four_four_four :
    makeBytes 12 = makeBytes 4 ++ (makeBytes 4 ++ makeBytes 4) := by
  rw [← makeBytes_add, ← makeBytes_add]

theorem FormatRequest_Payload (i b l : Int) :
    (message.FormatRequest i b l).Payload =
      PutUint32 (uint32 i) ++ (PutUint32 (uint32 b) ++ PutUint32 (uint32 l)) := by
  have c1 := copyAt_append [] (makeBytes 4) (makeBytes 4 ++ makeBytes 4)
    (PutUint32 (uint32 i)) 0 rfl rfl
  have c2 := copyAt_append (PutUint32 (uint32 i)) (makeBytes 4) (makeBytes 4)
    (PutUint32 (uint32 b)) 4 rfl rfl
  have c3 := copyAt_append (PutUint32 (uint32 i) ++ PutUint32 (uint32 b)) (makeBytes 4) []
    (PutUint32 (uint32 l)) 8 rfl rfl
  simp only [List.nil_append] at c1
  simp only [List.append_nil, List.append_assoc] at c3
  simp only [message.FormatRequest, makeBytes_four_four_four, c1, c2, c3]

theorem FormatHave_Payload (i : Int) :
    (message.FormatHave i).Payload = PutUint32 (uint32 i) := by
  have c1 := copyAt_append [] (makeBytes 4) [] (PutUint32 (uint32 i)) 0 rfl rfl
  simp only [List.nil_append, List.append_nil] at c1
  simp only [message.FormatHave, c1]

/-- C7: for all `i`, `b`, `l` in `[0, 2 ^ 32)`, `FormatRequest(i, b, l).Serialize()`
returns a frame of exactly 17 bytes: the bytes `00 00 00 0D` (the big-endian
length 13), the ID byte 6, and then three groups of four bytes whose
big-endian values are `i`, `b` and `l`, in that order. -/
theorem FormatRequest_frame (i b l : Nat) (hi : i < 4294967296) (hb : b < 4294967296)
    (hl : l < 4294967296) :
    ∃ s, message.Serialize (some (message.FormatRequest i b l)) = some s ∧
      s.length = 17 ∧ s.take 5 = [0, 0, 0, 13, 6] ∧
      beNat (slice s 5 9) = i ∧ beNat (slice s 9 13) = b ∧ beNat (slice s 13 17) = l := by
  have hlen : (message.FormatRequest i b l).Payload.length = 12 := by
    rw [FormatRequest_Payload]
    simp only [List.length_append, length_PutUint32]
  have hs := message_Serialize_some (message.FormatRequest i b l) (by rw [hlen]; decide)
  have p13 : PutUint32 (12 + 1) = [0, 0, 0, 13] := by decide
  have hid : (message.FormatRequest i b l).ID = 6 := rfl
  rw [hlen, p13, hid, FormatRequest_Payload, uint32_natCast i hi, uint32_natCast b hb,
    uint32_natCast l hl] at hs
  have a1 : [0, 0, 0, 13] ++ (6 : Byte) :: (PutUint32 i ++ (PutUint32 b ++ PutUint32 l)) =
      [0, 0, 0, 13, 6] ++ (PutUint32 i ++ (PutUint32 b ++ PutUint32 l)) := by
    simp only [List.cons_append, List.nil_append]
  have a2 : [0, 0, 0, 13] ++ (6 : Byte) :: (PutUint32 i ++ (PutUint32 b ++ PutUint32 l)) =
      ([0, 0, 0, 13, 6] ++ PutUint32 i) ++ (PutUint32 b ++ PutUint32 l) := by
    simp only [List.cons_append, List.nil_append, List.append_assoc]
  have a3 : [0, 0, 0, 13] ++ (6 : Byte) :: (PutUint32 i ++ (PutUint32 b ++ PutUint32 l)) =
      ([0, 0, 0, 13, 6] ++ PutUint32 i ++ PutUint32 b) ++ (PutUint32 l ++ []) := by
    simp only [List.cons_append, List.nil_append, List.append_assoc, List.append_nil]
  refine ⟨_, hs, ?_, ?_, ?_, ?_, ?_⟩
  · simp only [List.length_append, List.length_cons, length_PutUint32, List.length_nil]
  · rw [a1]
    exact List.take_left' rfl
  · rw [a1, slice_append_mid [0, 0, 0, 13, 6] (PutUint32 i) _ 5 9 rfl rfl]
    exact beNat_PutUint32 i hi
  · rw [a2, slice_append_mid ([0, 0, 0, 13, 6] ++ PutUint32 i) (PutUint32 b) _ 9 13
      (by simp only [List.length_append, List.length_cons, List.length_nil, length_PutUint32])
      (by simp only [List.length_append, List.length_cons, List.length_nil, length_PutUint32])]
    exact beNat_PutUint32 b hb
  · rw [a3, slice_append_mid ([0, 0, 0, 13, 6] ++ PutUint32 i ++ PutUint32 b) (PutUint32 l) _ 13 17
      (by simp only [List.length_append, List.length_cons, List.length_nil, length_PutUint32])
      (by simp only [List.length_append, List.length_cons, List.length_nil, length_PutUint32])]
    exact beNat_PutUint32 l hl

/-- Scenario S3: `FormatRequest(1, 16384, 16384).Serialize()` is
`00 00 00 0D 06 00 00 00 01 00 00 40 00 00 00 40 00`. -/
theorem FormatRequest_frame_witness :
    message.Serialize (some (message.FormatRequest 1 16384 16384)) =
        some [0x00, 0x00, 0x00, 0x0D, 0x06, 0x00, 0x00, 0x00, 0x01, 0x00, 0x00, 0x40, 0x00,
          0x00, 0x00, 0x40, 0x00] ∧
      ∃ s, message.Serialize (some (message.FormatRequest ((1 : Nat) : Int)
          ((16384 : Nat) : Int) ((16384 : Nat) : Int))) = some s ∧
        s.length = 17 ∧ s.take 5 = [0, 0, 0, 13, 6] ∧
        beNat (slice s 5 9) = 1 ∧ beNat (slice s 9 13) = 16384 ∧ beNat (slice s 13 17) = 16384 :=
  ⟨by decide, FormatRequest_frame 1 16384 16384 (by decide) (by decide) (by decide)⟩

theorem handshake_Serialize_length (h : handshake.Handshake) :
    (handshake.Serialize h).length = 49 + h.Pstr.length := by
  rw [handshake_Serialize_eq]
  simp only [List.length_append, List.length_cons, length_makeBytes, h.Infohash.property,
    h.PeerID.property]
  omega

theorem New_Pstr (infoHash peerID : Hash20) :
    (handshake.New infoHash peerID).Pstr =
      [66, 105, 116, 84, 111, 114, 114, 101, 110, 116, 32, 112, 114, 111, 116, 111, 99, 111,
        108] := by
  show bytesOfString "BitTorrent protocol" = _
  decide

/-- C8 as stated fails: for the handshake with a protocol string of 256 bytes,
byte 0 of the serialization is 0 and not the length 256. -/
theorem handshake_layout_fails_at_256 :
    longPstrHandshake.Pstr.length = 256 ∧
      ((handshake.Serialize longPstrHandshake).getD 0 0).val = 0 ∧
      ((handshake.Serialize longPstrHandshake).getD 0 0).val ≠ longPstrHandshake.Pstr.length := by
  have b0 : (byte 256).val = 0 := by decide
  have e : ((handshake.Serialize longPstrHandshake).getD 0 0).val = 0 := by
    rw [handshake_Serialize_eq, longPstrHandshake_length, List.getD_cons_zero, b0]
  rw [e, longPstrHandshake_length]
  exact ⟨rfl, rfl, by decide⟩

/-- C8, amended: for every handshake `h` with a protocol string of length `L`,
`h.Serialize()` has exactly `49 + L` bytes: byte 0 is `L mod 256` (which is `L`
when `L < 256`), bytes `[1, 1+L)` are the protocol string, the next 8 bytes are
zero, the next 20 are the info digest and the last 20 the peer identity; for
`handshake.New(infoHash, peerID)` this is 68 bytes starting with 19 and the
bytes of "BitTorrent protocol". -/
theorem handshake_Serialize_layout (h : handshake.Handshake) (infoHash peerID : Hash20) :
    (handshake.Serialize h).length = 49 + h.Pstr.length ∧
      ((handshake.Serialize h).getD 0 0).val = h.Pstr.length % 256 ∧
      slice (handshake.Serialize h) 1 (1 + h.Pstr.length) = h.Pstr ∧
      slice (handshake.Serialize h) (1 + h.Pstr.length) (9 + h.Pstr.length) =
        [0, 0, 0, 0, 0, 0, 0, 0] ∧
      slice (handshake.Serialize h) (9 + h.Pstr.length) (29 + h.Pstr.length) = h.Infohash.val ∧
      slice (handshake.Serialize h) (29 + h.Pstr.length) (49 + h.Pstr.length) = h.PeerID.val ∧
      (handshake.Serialize (handshake.New infoHash peerID)).length = 68 ∧
      (handshake.Serialize (handshake.New infoHash peerID)).take 20 =
        [19, 66, 105, 116, 84, 111, 114, 114, 101, 110, 116, 32, 112, 114, 111, 116, 111, 99,
          111, 108] := by
  have hi := h.Infohash.property
  have hp := h.PeerID.property
  have e1 : handshake.Serialize h =
      [byte h.Pstr.length] ++ (h.Pstr ++ (makeBytes 8 ++ (h.Infohash.val ++ h.PeerID.val))) :=
    handshake_Serialize_eq h
  have e2 : handshake.Serialize h =
      ([byte h.Pstr.length] ++ h.Pstr) ++ (makeBytes 8 ++ (h.Infohash.val ++ h.PeerID.val)) := by
    rw [e1, List.append_assoc]
  have e3 : handshake.Serialize h =
      ([byte h.Pstr.length] ++ h.Pstr ++ makeBytes 8) ++
        (h.Infohash.val ++ (h.PeerID.val ++ [])) := by
    rw [e1]; simp only [List.append_assoc, List.append_nil]
  have e4 : handshake.Serialize h =
      ([byte h.Pstr.length] ++ h.Pstr ++ makeBytes 8 ++ h.Infohash.val) ++
        (h.PeerID.val ++ []) := by
    rw [e1]; simp only [List.append_assoc, List.append_nil]
  have z8 : makeBytes 8 = [0, 0, 0, 0, 0, 0, 0, 0] := by decide
  refine ⟨handshake_Serialize_length h, ?_, ?_, ?_, ?_, ?_, ?_, ?_⟩
  · rw [e1, List.singleton_append, List.getD_cons_zero]
    rfl
  · rw [e1]
    exact slice_append_mid [byte h.Pstr.length] h.Pstr _ _ _ rfl
      (by rw [List.length_singleton])
  · rw [e2, ← z8]
    exact slice_append_mid ([byte h.Pstr.length] ++ h.Pstr) (makeBytes 8) _ _ _
      (by rw [List.length_append, List.length_singleton])
      (by rw [List.length_append, List.length_singleton, length_makeBytes]; omega)
  · rw [e3]
    exact slice_append_mid ([byte h.Pstr.length] ++ h.Pstr ++ makeBytes 8) h.Infohash.val _ _ _
      (by simp only [List.length_append, List.length_singleton, length_makeBytes]; omega)
      (by simp only [List.length_append, List.length_singleton, length_makeBytes, hi]; omega)
  · rw [e4]
    exact slice_append_mid ([byte h.Pstr.length] ++ h.Pstr ++ makeBytes 8 ++ h.Infohash.val)
      h.PeerID.val _ _ _
      (by simp only [List.length_append, List.length_singleton, length_makeBytes, hi]; omega)
      (by simp only [List.length_append, List.length_singleton, length_makeBytes, hi, hp]; omega)
  · rw [handshake_Serialize_length, New_Pstr]
    rfl
  · have b19 : byte 19 = 19 := by decide
    rw [handshake_Serialize_eq, New_Pstr, List.length_cons, List.length_cons]
    simp only [List.length_cons, List.length_nil, b19, List.cons_append, List.nil_append,
      List.take_succ_cons, List.take_zero, Nat.reduceAdd]

/-- Scenario S2: with an info digest of 20 bytes `0xAA` and a peer identity of
20 bytes `0xBB`, the frame is 19, "BitTorrent protocol", eight zero bytes, the
digest and the identity, 68 bytes in all. -/
theorem handshake_Serialize_layout_witness :
    handshake.Serialize exampleHandshake =
        [19, 66, 105, 116, 84, 111, 114, 114, 101, 110, 116, 32, 112, 114, 111, 116, 111, 99,
          111, 108, 0, 0, 0, 0, 0, 0, 0, 0,
          0xAA, 0xAA, 0xAA, 0xAA, 0xAA, 0xAA, 0xAA, 0xAA, 0xAA, 0xAA,
          0xAA, 0xAA, 0xAA, 0xAA, 0xAA, 0xAA, 0xAA, 0xAA, 0xAA, 0xAA,
          0xBB, 0xBB, 0xBB, 0xBB, 0xBB, 0xBB, 0xBB, 0xBB, 0xBB, 0xBB,
          0xBB, 0xBB, 0xBB, 0xBB, 0xBB, 0xBB, 0xBB, 0xBB, 0xBB, 0xBB] ∧
      (handshake.Serialize exampleHandshake).length = 49 + exampleHandshake.Pstr.length :=
  ⟨by decide, (handshake_Serialize_layout exampleHandshake exampleHandshake.Infohash
    exampleHandshake.PeerID).1⟩

/-- C9: serializing a null message yields exactly the four bytes `00 00 00 00`;
`message.Read` on a stream beginning with `00 00 00 00` returns the keep-alive
outcome (no message, no error) and leaves the stream after those four bytes;
on a stream beginning with the Choke frame `00 00 00 01 00` it returns a
message with ID 0 and an empty payload, and the two outcomes differ. -/
theorem keepalive_framing (rest : List Byte) :
    message.Serialize none = some [0, 0, 0, 0] ∧
      message.Read ([0, 0, 0, 0] ++ rest) = (.ok none, rest) ∧
      message.Read ([0, 0, 0, 1, 0] ++ rest) =
        (.ok (some { ID := message.MsgChoke, Payload := [] }), rest) ∧
      (message.Read ([0, 0, 0, 0] ++ rest)).1 ≠ (message.Read ([0, 0, 0, 1, 0] ++ rest)).1 := by
  have r0 : message.Read ([0, 0, 0, 0] ++ rest) = (.ok none, rest) := by
    have u0 : Uint32 [0, 0, 0, 0] = 0 := by decide
    simp only [message.Read]
    rw [ReadFull_append [0, 0, 0, 0] rest 4 rfl]
    simp only [u0, if_true]
  have r1 : message.Read ([0, 0, 0, 1, 0] ++ rest) =
      (.ok (some { ID := message.MsgChoke, Payload := [] }), rest) :=
    message_Read_frame [0] rest (by decide) (by decide)
  refine ⟨by decide, r0, r1, ?_⟩
  rw [r0, r1]
  intro h
  cases h

section
open message

theorem ParseHave_of_length (msg : Message) (h1 : msg.ID = MsgHave)
    (h2 : msg.Payload.length = 4) : ParseHave msg = .ok (beNat msg.Payload : Nat) := by
  unfold ParseHave
  rw [if_neg (by intro c; exact c h1), if_neg (by intro c; exact c h2),
    Uint32_eq_beNat _ h2]
  rfl

end

/-- C10: `ParseHave(msg)` fails when `msg.ID` is not 4 and fails when the
payload is shorter than 4 bytes; when `msg.ID = 4` and the payload is exactly
4 bytes it returns the payload read as a big-endian unsigned integer (the
payload `00 00 01 00` gives 256), and `ParseHave(FormatHave(i)) = i` for every
`i` in `[0, 2 ^ 32)`. -/
theorem ParseHave_spec (msg : message.Message) :
    (msg.ID ≠ message.MsgHave → ∃ e, message.ParseHave msg = .error e) ∧
      (msg.Payload.length < 4 → ∃ e, message.ParseHave msg = .error e) ∧
      (msg.ID = message.MsgHave → msg.Payload.length = 4 →
        message.ParseHave msg = .ok (beNat msg.Payload : Nat)) ∧
      message.ParseHave { ID := message.MsgHave, Payload := [0, 0, 1, 0] } = .ok 256 ∧
      ∀ i : Nat, i < 4294967296 →
        message.ParseHave (message.FormatHave (i : Int)) = .ok (i : Int) := by
  refine ⟨?_, ?_, ParseHave_of_length msg, ?_, ?_⟩
  · intro h
    exact ⟨_, if_pos h⟩
  · intro h
    unfold message.ParseHave
    by_cases c : msg.ID ≠ message.MsgHave
    · exact ⟨_, if_pos c⟩
    · rw [if_neg c]
      exact ⟨_, if_pos (by omega)⟩
  · exact ParseHave_of_length _ rfl rfl
  · intro i hi
    have hp := FormatHave_Payload (i : Int)
    rw [uint32_natCast i hi] at hp
    rw [ParseHave_of_length _ rfl (by rw [hp]; rfl), hp, beNat_PutUint32 i hi]

/-- Scenario S4: `ParseHave` fails on a message with ID 3 and on a Have with a
payload of two bytes, returns 256 on the payload `00 00 01 00`, and reads back
the index of `FormatHave(7)`. -/
theorem ParseHave_spec_witness :
    (∃ e, message.ParseHave { ID := message.MsgNotInterested, Payload := [0, 0, 1, 0] } =
        .error e) ∧
      (∃ e, message.ParseHave { ID := message.MsgHave, Payload := [0, 0] } = .error e) ∧
      message.ParseHave { ID := message.MsgHave, Payload := [0, 0, 1, 0] } = .ok 256 ∧
      message.ParseHave (message.FormatHave ((7 : Nat) : Int)) = .ok ((7 : Nat) : Int) :=
  ⟨(ParseHave_spec { ID := message.MsgNotInterested, Payload := [0, 0, 1, 0] }).1 (by decide),
    (ParseHave_spec { ID := message.MsgHave, Payload := [0, 0] }).2.1 (by decide),
    (ParseHave_spec { ID := message.MsgHave, Payload := [] }).2.2.2.1,
    (ParseHave_spec { ID := message.MsgHave, Payload := [] }).2.2.2.2 7 (by decide)⟩


/-! ## Claims on the coordinator: the work queue -/

section
open download

theorem seedLoop_length (t : Torrent) (k : Nat) (hs : List Hash20) :
    (seedLoop t k hs).length = hs.length := by
  induction hs generalizing k with
  | nil => rfl
  | cons h rest ih => simp only [seedLoop, List.length_cons, ih]

theorem wrapInt_eq (x : Int) (h1 : -9223372036854775808 ≤ x) (h2 : x < 9223372036854775808) :
    wrapInt x = x := by
  unfold wrapInt
  omega

theorem seedLoop_getElem? (t : Torrent) (k : Nat) (hs : List Hash20) (i : Nat) :
    (seedLoop t k hs)[i]? = hs[i]?.map (fun hash =>
      ({ index := ((k + i : Nat) : Int), hash := hash,
         length := wrapInt ((if wrapInt (wrapInt (((k + i : Nat) : Int) * t.PieceLength) +
               t.PieceLength) > t.Length
           then t.Length
           else wrapInt (wrapInt (((k + i : Nat) : Int) * t.PieceLength) + t.PieceLength)) -
           wrapInt (((k + i : Nat) : Int) * t.PieceLength)) } : pieceWork)) := by
  induction hs generalizing k i with
  | nil => simp only [seedLoop, List.getElem?_nil, Option.map_none']
  | cons h rest ih =>
    cases i with
    | zero => simp only [seedLoop, List.getElem?_cons_zero, Option.map_some', Nat.add_zero]
    | succ j =>
      simp only [seedLoop, List.getElem?_cons_succ]
      rw [ih (k + 1) j]
      have e : k + 1 + j = k + (j + 1) := by omega
      rw [e]

theorem piece_length_eq (n nom total : Int) (i : Nat) (hnom : 0 < nom) (hi : (i : Int) < n)
    (hlo : (n - 1) * nom < total) (hhi : total ≤ n * nom) :
    (if (i : Int) * nom + nom > total then total else (i : Int) * nom + nom) - (i : Int) * nom =
      if (i : Int) + 1 < n then nom else total - (n - 1) * nom := by
  by_cases c : (i : Int) + 1 < n
  · rw [if_pos c]
    have h1 : ((i : Int) + 1) * nom ≤ (n - 1) * nom :=
      Int.mul_le_mul_of_nonneg_right (by omega) (Int.le_of_lt hnom)
    have h2 : ((i : Int) + 1) * nom = (i : Int) * nom + nom := by ring
    rw [if_neg (by omega)]
    omega
  · rw [if_neg c]
    have e : (i : Int) = n - 1 := by omega
    have h2 : n * nom = (n - 1) * nom + nom := by ring
    rw [e]
    by_cases d : (n - 1) * nom + nom > total
    · rw [if_pos d]
    · rw [if_neg d]
      omega

theorem piece_length_wrap (n nom total : Int) (i : Nat) (hnom : 0 < nom) (hi : (i : Int) < n)
    (hlo : (n - 1) * nom < total) (hhi : total ≤ n * nom)
    (hfit : n * nom < 9223372036854775808) :
    wrapInt ((if wrapInt (wrapInt ((i : Int) * nom) + nom) > total then total
        else wrapInt (wrapInt ((i : Int) * nom) + nom)) - wrapInt ((i : Int) * nom)) =
      if (i : Int) + 1 < n then nom else total - (n - 1) * nom := by
  have h0 : 0 ≤ (i : Int) * nom := Int.mul_nonneg (by omega) (Int.le_of_lt hnom)
  have h1 : ((i : Int) + 1) * nom ≤ n * nom :=
    Int.mul_le_mul_of_nonneg_right (by omega) (Int.le_of_lt hnom)
  have h2 : ((i : Int) + 1) * nom = (i : Int) * nom + nom := by ring
  have h3 : n * nom = (n - 1) * nom + nom := by ring
  rw [wrapInt_eq ((i : Int) * nom) (by omega) (by omega),
    wrapInt_eq ((i : Int) * nom + nom) (by omega) (by omega),
    piece_length_eq n nom total i hnom hi hlo hhi]
  by_cases c : (i : Int) + 1 < n
  · rw [if_pos c]
    exact wrapInt_eq nom (by omega) (by omega)
  · rw [if_neg c]
    exact wrapInt_eq _ (by omega) (by omega)

end

/-- C11 as stated fails: the record `hugePieceTorrent` has `N = 2` piece
hashes, the nominal piece length `2 ^ 62 + 1 > 0` and the total length
`2 ^ 62 + 2`, with `(N−1)·nominal < total ≤ N·nominal`, and all three are
values of a 64-bit `int`. For the piece 1, `begin + nominal` is `2 ^ 63 + 2`,
which wraps around to a negative number; it is not above the total length, so
it is not cut down to it, and `end − begin` wraps around to `2 ^ 62 + 1`: the
job 1 is queued with the length `2 ^ 62 + 1`, not `total − (N−1)·nominal = 1`. -/
theorem seedQueue_wraps_on_huge_pieces :
    (0 < hugePieceTorrent.PieceLength ∧
      ((hugePieceTorrent.PieceHashes.length : Int) - 1) * hugePieceTorrent.PieceLength <
        hugePieceTorrent.Length ∧
      hugePieceTorrent.Length ≤
        (hugePieceTorrent.PieceHashes.length : Int) * hugePieceTorrent.PieceLength) ∧
      hugePieceTorrent.Length < 9223372036854775808 ∧
      (download.seedQueue hugePieceTorrent).map (fun pw => (pw.index, pw.length)) =
        [(0, 4611686018427387905), (1, 4611686018427387905)] ∧
      (expectedJob hugePieceTorrent 1 ⟨List.replicate 20 2, rfl⟩).length = 1 ∧
      (download.seedQueue hugePieceTorrent)[1]? ≠
        hugePieceTorrent.PieceHashes[1]?.map (expectedJob hugePieceTorrent 1) := by
  refine ⟨by decide, by decide, by decide, by decide, by decide⟩

/-- C11, amended: for every torrent record with `N` piece hashes, nominal piece
length `> 0`, total length with `(N−1)·nominal < total ≤ N·nominal`, and
`N·nominal < 2 ^ 63` (the offsets of the pieces are values of a 64-bit `int`),
`Download` seeds the work queue with exactly `N` jobs in index order: job `i`
has the index `i`, the hash `piece_hashes[i]`, and the length `nominal` for
`i < N−1` and `total − (N−1)·nominal` for `i = N−1`. -/
theorem seedQueue_jobs (t : download.Torrent) (hnom : 0 < t.PieceLength)
    (hlo : ((t.PieceHashes.length : Int) - 1) * t.PieceLength < t.Length)
    (hhi : t.Length ≤ (t.PieceHashes.length : Int) * t.PieceLength)
    (hfit : (t.PieceHashes.length : Int) * t.PieceLength < 9223372036854775808) :
    (download.seedQueue t).length = t.PieceHashes.length ∧
      ∀ i : Nat, (download.seedQueue t)[i]? = t.PieceHashes[i]?.map (expectedJob t i) := by
  refine ⟨seedLoop_length t 0 t.PieceHashes, ?_⟩
  intro i
  rw [download.seedQueue, seedLoop_getElem?]
  by_cases hi : i < t.PieceHashes.length
  · rw [List.getElem?_eq_getElem hi, Option.map_some', Option.map_some', expectedJob]
    have e := piece_length_wrap (t.PieceHashes.length : Int) t.PieceLength t.Length i hnom
      (by omega) hlo hhi hfit
    have c : ((i : Int) + 1 < (t.PieceHashes.length : Int)) ↔ (i + 1 < t.PieceHashes.length) := by
      omega
    simp only [Nat.zero_add, e, c]
  · rw [List.getElem?_eq_none (by omega), Option.map_none', Option.map_none']

/-- Scenario S6: four pieces, nominal 1024 and total 4000 give the piece
lengths 1024, 1024, 1024 and 928, with the indices 0 to 3. -/
theorem seedQueue_jobs_witness :
    (download.seedQueue exampleTorrent).map (fun pw => (pw.index, pw.length)) =
        [(0, 1024), (1, 1024), (2, 1024), (3, 928)] ∧
      (download.seedQueue exampleTorrent).length = exampleTorrent.PieceHashes.length ∧
      ∀ i : Nat, (download.seedQueue exampleTorrent)[i]? =
        exampleTorrent.PieceHashes[i]?.map (expectedJob exampleTorrent i) :=
  ⟨by decide,
    seedQueue_jobs exampleTorrent (by decide) (by decide) (by decide) (by decide)⟩

/-! ## Claims on the handshake reader -/

theorem ReadFull_short (r : List Byte) (n : Nat) (h : r.length < n) :
    ∃ e, ReadFull r n = (.error e, []) := by
  unfold ReadFull
  rw [if_neg (by omega)]
  by_cases c : r.length = 0
  · exact ⟨_, if_pos c⟩
  · exact ⟨_, if_neg c⟩

theorem ReadFull_enough (r : List Byte) (n : Nat) (h : n ≤ r.length) :
    ReadFull r n = (.ok (r.take n), r.drop n) := by
  unfold ReadFull
  rw [if_pos h]

/-- C12: `handshake.Read` returns an error on the empty stream, on every stream
whose first byte (the protocol-string length `L`) is zero, and on every stream
that ends before `49 + L` bytes; it succeeds on every stream with `L > 0` and
at least `49 + L` bytes. -/
theorem handshake_Read_outcomes (b : Byte) (rest : List Byte) :
    (∃ e r, handshake.Read [] = (.error e, r)) ∧
      (b.val = 0 → ∃ e r, handshake.Read (b :: rest) = (.error e, r)) ∧
      ((b :: rest).length < 49 + b.val → ∃ e r, handshake.Read (b :: rest) = (.error e, r)) ∧
      (0 < b.val → 49 + b.val ≤ (b :: rest).length →
        ∃ h r, handshake.Read (b :: rest) = (.ok h, r)) := by
  have r1 : ReadFull (b :: rest) 1 = (.ok [b], rest) := ReadFull_append [b] rest 1 rfl
  refine ⟨⟨_, _, rfl⟩, ?_, ?_, ?_⟩
  · intro h0
    have e : b = 0 := Fin.ext h0
    rw [e]
    exact ⟨_, _, handshake_Read_zero rest⟩
  · intro hlen
    by_cases h0 : b.val = 0
    · have e : b = 0 := Fin.ext h0
      rw [e]
      exact ⟨_, _, handshake_Read_zero rest⟩
    · obtain ⟨e, he⟩ := ReadFull_short rest (48 + b.val)
        (by rw [List.length_cons] at hlen; omega)
      refine ⟨e, [], ?_⟩
      simp only [handshake.Read]
      rw [r1]
      simp only [List.getD_cons_zero]
      rw [if_neg h0, he]
  · intro h0 hlen
    have he := ReadFull_enough rest (48 + b.val) (by rw [List.length_cons] at hlen; omega)
    simp only [handshake.Read]
    rw [r1]
    simp only [List.getD_cons_zero]
    rw [if_neg (by omega), he]
    exact ⟨_, _, rfl⟩

/-- The serialization of the handshake of scenario S2 is read back, the same
stream cut after 67 bytes gives an error, and so does a stream that starts
with a zero byte. -/
theorem handshake_Read_outcomes_witness :
    (∃ h r, handshake.Read (handshake.Serialize exampleHandshake) = (.ok h, r)) ∧
      (∃ e r, handshake.Read ((handshake.Serialize exampleHandshake).take 67) = (.error e, r)) ∧
      (∃ e r, handshake.Read (0 :: (handshake.Serialize exampleHandshake).drop 1) =
        (.error e, r)) :=
  ⟨(handshake_Read_outcomes 19 ((handshake.Serialize exampleHandshake).drop 1)).2.2.2
      (by decide) (by decide),
    (handshake_Read_outcomes 19 (((handshake.Serialize exampleHandshake).take 67).drop 1)).2.2.1
      (by decide),
    (handshake_Read_outcomes 0 ((handshake.Serialize exampleHandshake).drop 1)).2.1 rfl⟩

/-! ## Claims on the dispatch of one frame -/

section
open download

theorem readMessage_keepalive (s : pieceProgress) (rest : List Byte)
    (h : message.Read s.client.Conn.incoming = (.ok none, rest)) :
    readMessage s = .ok (afterRead s rest) := by
  simp only [readMessage, client.Read, h]
  rfl

theorem readMessage_error (s : pieceProgress) (rest : List Byte) (e : Err)
    (h : message.Read s.client.Conn.incoming = (.error e, rest)) :
    readMessage s = .error (.err e) := by
  simp only [readMessage, client.Read, h]

theorem readMessage_unchoke (s : pieceProgress) (rest : List Byte) (msg : message.Message)
    (h : message.Read s.client.Conn.incoming = (.ok (some msg), rest))
    (hid : msg.ID = message.MsgUnchoke) :
    readMessage s = .ok (withChoked (afterRead s rest) false) := by
  simp only [readMessage, client.Read, h, hid, if_true]
  rfl

theorem readMessage_choke (s : pieceProgress) (rest : List Byte) (msg : message.Message)
    (h : message.Read s.client.Conn.incoming = (.ok (some msg), rest))
    (hid : msg.ID = message.MsgChoke) :
    readMessage s = .ok (withChoked (afterRead s rest) true) := by
  have n1 : ¬ (message.MsgChoke = message.MsgUnchoke) := by decide
  simp only [readMessage, client.Read, h, hid, n1, if_true, if_false]
  rfl

theorem readMessage_have (s : pieceProgress) (rest : List Byte) (msg : message.Message)
    (h : message.Read s.client.Conn.incoming = (.ok (some msg), rest))
    (hid : msg.ID = message.MsgHave) :
    readMessage s =
      match message.ParseHave msg with
      | .error e => .error (.err e)
      | .ok index =>
        match bitfields.SetPiece s.client.Bitfield index with
        | none => .error .panic
        | some bf =>
          .ok { afterRead s rest with
            client := { (afterRead s rest).client with Bitfield := bf } } := by
  have n1 : ¬ (message.MsgHave = message.MsgUnchoke) := by decide
  have n2 : ¬ (message.MsgHave = message.MsgChoke) := by decide
  simp only [readMessage, client.Read, h, hid, n1, n2, if_true, if_false]
  rfl

theorem readMessage_piece (s : pieceProgress) (rest : List Byte) (msg : message.Message)
    (h : message.Read s.client.Conn.incoming = (.ok (some msg), rest))
    (hid : msg.ID = message.MsgPiece) :
    readMessage s =
      match message.ParsePiece s.index s.buf msg with
      | (.error e, _) => .error (.err e)
      | (.ok n, buf) =>
        .ok { afterRead s rest with
          buf := buf, downloaded := s.downloaded + n, backlog := s.backlog - 1 } := by
  have n1 : ¬ (message.MsgPiece = message.MsgUnchoke) := by decide
  have n2 : ¬ (message.MsgPiece = message.MsgChoke) := by decide
  have n3 : ¬ (message.MsgPiece = message.MsgHave) := by decide
  simp only [readMessage, client.Read, h, hid, n1, n2, n3, if_true, if_false]
  rfl

theorem readMessage_other (s : pieceProgress) (rest : List Byte) (msg : message.Message)
    (h : message.Read s.client.Conn.incoming = (.ok (some msg), rest))
    (h0 : msg.ID ≠ message.MsgChoke) (h1 : msg.ID ≠ message.MsgUnchoke)
    (h4 : msg.ID ≠ message.MsgHave) (h7 : msg.ID ≠ message.MsgPiece) :
    readMessage s = .ok (afterRead s rest) := by
  simp only [readMessage, client.Read, h, h0, h1, h4, h7, if_false]
  rfl

end

/-- C19: handling one incoming frame in the per-piece loop, a Choke sets
`choked` to true and an Unchoke sets it to false, and nothing else of the
session and the progress state changes (`downloaded`, `requested`, `backlog`,
the piece buffer and the peer bitmap are as before; the connection has moved
past the frame); a keep-alive and every message whose ID is not 0, 1, 4 or 7
change nothing but the position of the connection, and report no error. -/
theorem readMessage_dispatch (s : download.pieceProgress) (rest : List Byte)
    (msg : message.Message) :
    (message.Read s.client.Conn.incoming = (.ok (some msg), rest) → msg.ID = 0 →
        download.readMessage s = .ok
          { s with client := { s.client with
              Conn := { s.client.Conn with incoming := rest }, Choked := true } }) ∧
      (message.Read s.client.Conn.incoming = (.ok (some msg), rest) → msg.ID = 1 →
        download.readMessage s = .ok
          { s with client := { s.client with
              Conn := { s.client.Conn with incoming := rest }, Choked := false } }) ∧
      (message.Read s.client.Conn.incoming = (.ok none, rest) →
        download.readMessage s = .ok
          { s with client := { s.client with
              Conn := { s.client.Conn with incoming := rest } } }) ∧
      (message.Read s.client.Conn.incoming = (.ok (some msg), rest) →
        msg.ID ≠ 0 → msg.ID ≠ 1 → msg.ID ≠ 4 → msg.ID ≠ 7 →
        download.readMessage s = .ok
          { s with client := { s.client with
              Conn := { s.client.Conn with incoming := rest } } }) :=
  ⟨fun h hid => readMessage_choke s rest msg h hid,
    fun h hid => readMessage_unchoke s rest msg h hid,
    fun h => readMessage_keepalive s rest h,
    fun h h0 h1 h4 h7 => readMessage_other s rest msg h h0 h1 h4 h7⟩

/-- On the session `dispatchExample` the Choke frame sets `choked`, and then
the keep-alive, the Unchoke frame (which clears `choked`) and the Interested
frame are read one after the other without an error; `downloaded`,
`requested`, `backlog`, the buffer and the bitmap stay as they were. -/
theorem readMessage_dispatch_witness :
    download.readMessage dispatchExample =
        .ok (withChoked (afterRead dispatchExample
          [0, 0, 0, 0, 0, 0, 0, 1, 1, 0, 0, 0, 1, 2]) true) ∧
      download.readMessage (withChoked (afterRead dispatchExample
          [0, 0, 0, 0, 0, 0, 0, 1, 1, 0, 0, 0, 1, 2]) true) =
        .ok (withChoked (afterRead dispatchExample [0, 0, 0, 1, 1, 0, 0, 0, 1, 2]) true) ∧
      download.readMessage (withChoked (afterRead dispatchExample
          [0, 0, 0, 1, 1, 0, 0, 0, 1, 2]) true) =
        .ok (withChoked (afterRead dispatchExample [0, 0, 0, 1, 2]) false) ∧
      download.readMessage (withChoked (afterRead dispatchExample [0, 0, 0, 1, 2]) false) =
        .ok (withChoked (afterRead dispatchExample []) false) :=
  ⟨(readMessage_dispatch dispatchExample [0, 0, 0, 0, 0, 0, 0, 1, 1, 0, 0, 0, 1, 2]
      { ID := 0, Payload := [] }).1 rfl rfl,
    (readMessage_dispatch (withChoked (afterRead dispatchExample
      [0, 0, 0, 0, 0, 0, 0, 1, 1, 0, 0, 0, 1, 2]) true) [0, 0, 0, 1, 1, 0, 0, 0, 1, 2]
      { ID := 0, Payload := [] }).2.2.1 rfl,
    (readMessage_dispatch (withChoked (afterRead dispatchExample
      [0, 0, 0, 1, 1, 0, 0, 0, 1, 2]) true) [0, 0, 0, 1, 2]
      { ID := 1, Payload := [] }).2.1 rfl rfl,
    (readMessage_dispatch (withChoked (afterRead dispatchExample [0, 0, 0, 1, 2]) false) []
      { ID := 2, Payload := [] }).2.2.2 rfl (by decide) (by decide) (by decide)
      (by decide)⟩

/-- C20, evaluated at the failing input: the peer of `haveBeyondBitmap` has a
bitmap of one byte and sends a well-formed Have message for the piece 8;
`ParseHave` returns 8, which is not below `8 * len(bitmap)`, `SetPiece` is
called with it all the same and indexes outside the bitmap, so `readMessage`
ends in a run-time panic. -/
theorem readMessage_Have_beyond_bitmap_panics :
    message.Read haveBeyondBitmap.client.Conn.incoming =
        (.ok (some { ID := message.MsgHave, Payload := [0, 0, 0, 8] }), []) ∧
      message.ParseHave { ID := message.MsgHave, Payload := [0, 0, 0, 8] } = .ok 8 ∧
      ¬ ((8 : Int) < 8 * (haveBeyondBitmap.client.Bitfield.length : Int)) ∧
      bitfields.SetPiece haveBeyondBitmap.client.Bitfield 8 = none ∧
      download.readMessage haveBeyondBitmap = .error .panic := by
  refine ⟨rfl, rfl, by decide, by decide, ?_⟩
  rw [readMessage_have haveBeyondBitmap [] { ID := message.MsgHave, Payload := [0, 0, 0, 8] }
    rfl rfl]
  rfl

/-! ## The states of a piece attempt -/

section
open download

theorem send_ok (c c' : client.Client) (msg : message.Message) (u : Unit)
    (h : client.send c msg = (.ok u, c')) :
    c'.Choked = c.Choked ∧ c'.Bitfield = c.Bitfield ∧
      c'.Conn.incoming = c.Conn.incoming ∧
      c'.Conn.sent = c.Conn.sent ++ [(message.Serialize (some msg)).getD []] := by
  unfold client.send at h
  cases hs : message.Serialize (some msg) with
  | none => rw [hs] at h; cases h
  | some b =>
    rw [hs] at h
    simp only [client.Conn.Write] at h
    cases hw : c.Conn.writeOK with
    | nil =>
      rw [hw] at h
      cases h
      exact ⟨rfl, rfl, rfl, rfl⟩
    | cons ok rest =>
      rw [hw] at h
      cases ok with
      | true => cases h; exact ⟨rfl, rfl, rfl, rfl⟩
      | false => cases h

theorem requestStep_ok (pw : pieceWork) (s s' : pieceProgress) (h : requestStep pw s = .ok s') :
    s'.index = s.index ∧ s'.buf = s.buf ∧ s'.downloaded = s.downloaded ∧
      s'.backlog = s.backlog + 1 ∧
      s'.requested = s.requested + min 16384 (pw.length - s.requested) ∧
      s'.client.Choked = s.client.Choked ∧ s'.client.Bitfield = s.client.Bitfield ∧
      s'.client.Conn.incoming = s.client.Conn.incoming ∧
      s'.client.Conn.sent = s.client.Conn.sent ++
        [requestFrame s.index s.requested (min 16384 (pw.length - s.requested))] := by
  have hb : (if pw.length - s.requested < MaxBlockSize then pw.length - s.requested
      else MaxBlockSize) = min 16384 (pw.length - s.requested) := by
    unfold MaxBlockSize
    by_cases c : pw.length - s.requested < 16384
    · rw [if_pos c]; omega
    · rw [if_neg c]; omega
  unfold requestStep at h
  dsimp only at h
  rw [hb] at h
  rcases hr : client.SendRequest s.client s.index s.requested
      (min 16384 (pw.length - s.requested)) with ⟨res, c'⟩
  rw [hr] at h
  cases res with
  | error f => cases h
  | ok u =>
    obtain ⟨h1, h2, h3, h4⟩ := send_ok s.client c' _ u hr
    cases h
    exact ⟨rfl, rfl, rfl, rfl, rfl, h1, h2, h3, h4⟩

end

section
open download

theorem chokedAfter_append (ch : Bool) (hist : List (Option message.Message))
    (m : Option message.Message) :
    chokedAfter ch (hist ++ [m]) = chokedAfter (chokedAfter ch hist) [m] := by
  simp only [chokedAfter, List.foldl_append]

theorem readMessage_ok (s s' : pieceProgress) (h : readMessage s = .ok s') :
    ∃ msg rest, message.Read s.client.Conn.incoming = (.ok msg, rest) ∧
      s'.index = s.index ∧ s'.requested = s.requested ∧
      s'.client.Conn.sent = s.client.Conn.sent ∧ s'.client.Conn.incoming = rest ∧
      s'.backlog ≤ s.backlog ∧ s.downloaded ≤ s'.downloaded ∧
      s'.buf.length = s.buf.length ∧
      s'.client.Choked = chokedAfter s.client.Choked [msg] := by
  rcases hr : message.Read s.client.Conn.incoming with ⟨res, rest⟩
  cases res with
  | error e => rw [readMessage_error s rest e hr] at h; cases h
  | ok m =>
    cases m with
    | none =>
      rw [readMessage_keepalive s rest hr] at h
      cases h
      exact ⟨none, rest, rfl, rfl, rfl, rfl, rfl, Int.le_refl _, Int.le_refl _, rfl, rfl⟩
    | some msg =>
      refine ⟨some msg, rest, rfl, ?_⟩
      by_cases h1 : msg.ID = message.MsgUnchoke
      · rw [readMessage_unchoke s rest msg hr h1] at h
        cases h
        refine ⟨rfl, rfl, rfl, rfl, Int.le_refl _, Int.le_refl _, rfl, ?_⟩
        simp only [chokedAfter, List.foldl, h1, if_true]
        rfl
      by_cases h0 : msg.ID = message.MsgChoke
      · rw [readMessage_choke s rest msg hr h0] at h
        cases h
        refine ⟨rfl, rfl, rfl, rfl, Int.le_refl _, Int.le_refl _, rfl, ?_⟩
        simp only [chokedAfter, List.foldl, h1, h0, if_true, if_false]
        rfl
      have hch : chokedAfter s.client.Choked [some msg] = s.client.Choked := by
        simp only [chokedAfter, List.foldl, h1, h0, if_false]
      by_cases h4 : msg.ID = message.MsgHave
      · rw [readMessage_have s rest msg hr h4] at h
        cases hp : message.ParseHave msg with
        | error e => rw [hp] at h; cases h
        | ok idx =>
          rw [hp] at h
          dsimp only at h
          cases hb : bitfields.SetPiece s.client.Bitfield idx with
          | none => rw [hb] at h; cases h
          | some bf =>
            rw [hb] at h
            dsimp only at h
            cases h
            exact ⟨rfl, rfl, rfl, rfl, Int.le_refl _, Int.le_refl _, rfl, hch.symm⟩
      by_cases h7 : msg.ID = message.MsgPiece
      · rw [readMessage_piece s rest msg hr h7] at h
        by_cases acc : pieceAccepted s.index s.buf msg
        · rw [ParsePiece_of_accepted s.index s.buf msg acc] at h
          cases h
          refine ⟨rfl, rfl, rfl, rfl, ?_, ?_, ?_, hch.symm⟩
          · show s.backlog - 1 ≤ s.backlog
            omega
          · show s.downloaded ≤ s.downloaded + ((msg.Payload.drop 8).length : Int)
            omega
          · exact length_copyAt _ _ _ acc.2.2.2.2
        · obtain ⟨e, he⟩ := ParsePiece_of_not_accepted s.index s.buf msg acc
          rw [he] at h
          cases h
      · rw [readMessage_other s rest msg hr h0 h1 h4 h7] at h
        cases h
        exact ⟨rfl, rfl, rfl, rfl, Int.le_refl _, Int.le_refl _, rfl, hch.symm⟩

theorem Reach_invariant (pw : pieceWork) (c : client.Client)
    (hist : List (Option message.Message)) (s : pieceProgress) (h : Reach pw c hist s) :
    s.index = pw.index ∧ 0 ≤ pw.length ∧ s.buf.length = pw.length.toNat ∧
      s.backlog ≤ MaxBacklog ∧ 0 ≤ s.downloaded ∧
      s.client.Choked = chokedAfter c.Choked hist ∧
      ∃ k : Nat,
        s.client.Conn.sent = c.Conn.sent ++ (List.range k).map (fun j : Nat =>
          requestFrame pw.index (16384 * (j : Int)) (min 16384 (pw.length - 16384 * (j : Int)))) ∧
        s.requested = min (16384 * (k : Int)) pw.length ∧
        ∀ j : Nat, j < k → 16384 * (j : Int) < pw.length := by
  induction h with
  | init h0 =>
    refine ⟨rfl, h0, length_makeBytes _, (by decide : (0 : Int) ≤ 5), Int.le_refl _, rfl,
      0, ?_, ?_, ?_⟩
    · simp only [List.range_zero, List.map_nil, List.append_nil]
      rfl
    · show (0 : Int) = min (16384 * ((0 : Nat) : Int)) pw.length
      omega
    · intro j hj
      omega
  | @request hist s s' _ hd hc hb hr hstep ih =>
    obtain ⟨i1, i2, i3, i4, i5, i6, k, i7, i8, i9⟩ := ih
    obtain ⟨r1, r2, r3, r4, r5, r6, _, _, r9⟩ := requestStep_ok pw s s' hstep
    have hk : s.requested = 16384 * (k : Int) := by omega
    refine ⟨r1.trans i1, i2, by rw [r2]; exact i3, ?_, by rw [r3]; exact i5,
      by rw [r6]; exact i6, k + 1, ?_, ?_, ?_⟩
    · unfold MaxBacklog at hb ⊢
      omega
    · rw [r9, i7, List.range_succ, List.map_append, List.append_assoc, i1, hk]
      rfl
    · rw [r5, hk]
      push_cast
      omega
    · intro j hj
      by_cases e : j < k
      · exact i9 j e
      · have : j = k := by omega
        rw [this]
        omega
  | @read hist s s' msg _ hd hm hstep ih =>
    obtain ⟨i1, i2, i3, i4, i5, i6, k, i7, i8, i9⟩ := ih
    obtain ⟨msg', rest, q0, q1, q2, q3, _, q5, q6, q7, q8⟩ := readMessage_ok s s' hstep
    have em : msg' = msg := by
      have : (client.Read s.client).1 = .ok msg' := by
        simp only [client.Read, q0]
      rw [this] at hm
      cases hm
      rfl
    subst em
    refine ⟨q1.trans i1, i2, q7.trans i3, Int.le_trans q5 i4, Int.le_trans i5 q6, ?_,
      k, by rw [q3]; exact i7, by rw [q2]; exact i8, i9⟩
    rw [q8, i6, chokedAfter_append]

end

section
open download

theorem requestLoop_Reach (pw : pieceWork) (c : client.Client)
    (hist : List (Option message.Message)) :
    ∀ (fuel : Nat) (s s' : pieceProgress), Reach pw c hist s → s.downloaded < pw.length →
      s.client.Choked = false → requestLoop fuel pw s = .ok s' →
      Reach pw c hist s' ∧ s'.downloaded = s.downloaded ∧
        s'.client.Conn.incoming = s.client.Conn.incoming := by
  intro fuel
  induction fuel with
  | zero =>
    intro s s' hr hd hc h
    simp only [requestLoop] at h
    by_cases g : s.backlog < MaxBacklog ∧ s.requested < pw.length
    · rw [if_pos g] at h; cases h
    · rw [if_neg g] at h; cases h; exact ⟨hr, rfl, rfl⟩
  | succ fuel ih =>
    intro s s' hr hd hc h
    simp only [requestLoop] at h
    by_cases g : s.backlog < MaxBacklog ∧ s.requested < pw.length
    · rw [if_pos g] at h
      cases hs : requestStep pw s with
      | error f => rw [hs] at h; cases h
      | ok s1 =>
        rw [hs] at h
        dsimp only at h
        obtain ⟨_, _, r3, _, _, r6, _, r8, _⟩ := requestStep_ok pw s s1 hs
        obtain ⟨a, b, d⟩ := ih s1 s' (Reach.request hr hd hc g.1 g.2 hs) (by rw [r3]; exact hd)
          (by rw [r6]; exact hc) h
        exact ⟨a, b.trans r3, d.trans r8⟩
    · rw [if_neg g] at h; cases h; exact ⟨hr, rfl, rfl⟩

theorem requestPhase_Reach (pw : pieceWork) (c : client.Client)
    (hist : List (Option message.Message)) (s s' : pieceProgress) (hr : Reach pw c hist s)
    (hd : s.downloaded < pw.length) (h : requestPhase pw s = .ok s') :
    Reach pw c hist s' ∧ s'.downloaded = s.downloaded ∧
      s'.client.Conn.incoming = s.client.Conn.incoming := by
  unfold requestPhase at h
  cases hc : s.client.Choked with
  | true =>
    rw [hc] at h
    cases h
    exact ⟨hr, rfl, rfl⟩
  | false =>
    rw [hc] at h
    exact requestLoop_Reach pw c hist _ s s' hr hd hc h

theorem downloadLoop_Reach (pw : pieceWork) (c : client.Client) :
    ∀ (fuel : Nat) (hist : List (Option message.Message)) (s s' : pieceProgress),
      Reach pw c hist s → downloadLoop fuel pw s = .ok s' →
      ∃ hist', Reach pw c hist' s' ∧ pw.length ≤ s'.downloaded := by
  intro fuel
  induction fuel with
  | zero =>
    intro hist s s' hr h
    simp only [downloadLoop] at h
    by_cases g : s.downloaded < pw.length
    · rw [if_pos g] at h; cases h
    · rw [if_neg g] at h; cases h; exact ⟨hist, hr, by omega⟩
  | succ fuel ih =>
    intro hist s s' hr h
    simp only [downloadLoop] at h
    by_cases g : s.downloaded < pw.length
    · rw [if_pos g] at h
      cases hp : requestPhase pw s with
      | error f => rw [hp] at h; cases h
      | ok s1 =>
        rw [hp] at h
        dsimp only at h
        obtain ⟨r1, d1, _⟩ := requestPhase_Reach pw c hist s s1 hr g hp
        cases hm : readMessage s1 with
        | error f => rw [hm] at h; cases h
        | ok s2 =>
          rw [hm] at h
          dsimp only at h
          obtain ⟨msg, rest, q0, _⟩ := readMessage_ok s1 s2 hm
          have hmsg : (client.Read s1.client).1 = .ok msg := by
            simp only [client.Read, q0]
          exact ih _ s2 s' (Reach.read r1 (by rw [d1]; exact g) hmsg hm) h
    · rw [if_neg g] at h; cases h; exact ⟨hist, hr, by omega⟩

theorem tryDownloadPiece_Reach (c : client.Client) (pw : pieceWork) (s : pieceProgress)
    (h : tryDownloadPiece c pw = .ok s) :
    ∃ hist, Reach pw c hist s ∧ pw.length ≤ s.downloaded := by
  unfold tryDownloadPiece at h
  by_cases g : pw.length < 0
  · rw [if_pos g] at h; cases h
  · rw [if_neg g] at h
    exact downloadLoop_Reach pw c _ [] _ s (Reach.init (by omega)) h

theorem message_Read_length (r rest : List Byte) (m : Option message.Message)
    (h : message.Read r = (.ok m, rest)) : rest.length + 4 ≤ r.length := by
  unfold message.Read at h
  by_cases g : 4 ≤ r.length
  · rw [ReadFull_enough r 4 g] at h
    dsimp only at h
    by_cases z : Uint32 (r.take 4) = 0
    · rw [if_pos z] at h
      cases h
      rw [List.length_drop]
      omega
    · rw [if_neg z] at h
      by_cases g2 : Uint32 (r.take 4) ≤ (r.drop 4).length
      · rw [ReadFull_enough _ _ g2] at h
        cases h
        rw [List.length_drop, List.length_drop]
        omega
      · obtain ⟨e, he⟩ := ReadFull_short (r.drop 4) (Uint32 (r.take 4)) (by omega)
        rw [he] at h
        cases h
  · obtain ⟨e, he⟩ := ReadFull_short r 4 (by omega)
    rw [he] at h
    cases h

theorem requestStep_fuel (pw : pieceWork) (s : pieceProgress) :
    requestStep pw s ≠ .error .outOfFuel := by
  unfold requestStep client.SendRequest client.send
  dsimp only
  cases message.Serialize (some (message.FormatRequest s.index s.requested
    (if pw.length - s.requested < MaxBlockSize then pw.length - s.requested
      else MaxBlockSize))) with
  | none => intro h; cases h
  | some b =>
    dsimp only
    rcases client.Conn.Write s.client.Conn b with ⟨ok, conn⟩
    cases ok <;> (intro h; cases h)

theorem requestLoop_fuel (pw : pieceWork) :
    ∀ (fuel : Nat) (s : pieceProgress), (MaxBacklog - s.backlog).toNat ≤ fuel →
      requestLoop fuel pw s ≠ .error .outOfFuel := by
  intro fuel
  induction fuel with
  | zero =>
    intro s hf
    simp only [requestLoop]
    unfold MaxBacklog at hf ⊢
    rw [if_neg (by omega)]
    intro h; cases h
  | succ fuel ih =>
    intro s hf
    simp only [requestLoop]
    by_cases g : s.backlog < MaxBacklog ∧ s.requested < pw.length
    · rw [if_pos g]
      cases hs : requestStep pw s with
      | error f =>
        dsimp only
        intro h
        cases h
        exact requestStep_fuel pw s hs
      | ok s1 =>
        dsimp only
        obtain ⟨_, _, _, r4, _⟩ := requestStep_ok pw s s1 hs
        apply ih
        rw [r4]
        omega
    · rw [if_neg g]
      intro h; cases h

theorem readMessage_fuel (s : pieceProgress) : readMessage s ≠ .error .outOfFuel := by
  intro h
  rcases hr : message.Read s.client.Conn.incoming with ⟨res, rest⟩
  cases res with
  | error e => rw [readMessage_error s rest e hr] at h; cases h
  | ok m =>
    cases m with
    | none => rw [readMessage_keepalive s rest hr] at h; cases h
    | some msg =>
      by_cases h1 : msg.ID = message.MsgUnchoke
      · rw [readMessage_unchoke s rest msg hr h1] at h; cases h
      by_cases h0 : msg.ID = message.MsgChoke
      · rw [readMessage_choke s rest msg hr h0] at h; cases h
      by_cases h4 : msg.ID = message.MsgHave
      · rw [readMessage_have s rest msg hr h4] at h
        cases hp : message.ParseHave msg with
        | error e => rw [hp] at h; cases h
        | ok idx =>
          rw [hp] at h
          dsimp only at h
          cases hb : bitfields.SetPiece s.client.Bitfield idx with
          | none => rw [hb] at h; cases h
          | some bf => rw [hb] at h; cases h
      by_cases h7 : msg.ID = message.MsgPiece
      · rw [readMessage_piece s rest msg hr h7] at h
        rcases hq : message.ParsePiece s.index s.buf msg with ⟨res, buf⟩
        rw [hq] at h
        cases res with
        | error e => cases h
        | ok n => cases h
      · rw [readMessage_other s rest msg hr h0 h1 h4 h7] at h; cases h

theorem requestLoop_ok (pw : pieceWork) :
    ∀ (fuel : Nat) (s s' : pieceProgress), requestLoop fuel pw s = .ok s' →
      s'.client.Conn.incoming = s.client.Conn.incoming ∧ s'.downloaded = s.downloaded ∧
        s'.client.Choked = s.client.Choked ∧ s'.buf = s.buf := by
  intro fuel
  induction fuel with
  | zero =>
    intro s s' h
    simp only [requestLoop] at h
    by_cases g : s.backlog < MaxBacklog ∧ s.requested < pw.length
    · rw [if_pos g] at h; cases h
    · rw [if_neg g] at h; cases h; exact ⟨rfl, rfl, rfl, rfl⟩
  | succ fuel ih =>
    intro s s' h
    simp only [requestLoop] at h
    by_cases g : s.backlog < MaxBacklog ∧ s.requested < pw.length
    · rw [if_pos g] at h
      cases hs : requestStep pw s with
      | error f => rw [hs] at h; cases h
      | ok s1 =>
        rw [hs] at h
        dsimp only at h
        obtain ⟨_, r2, r3, _, _, r6, _, r8, _⟩ := requestStep_ok pw s s1 hs
        obtain ⟨a, b, d, e⟩ := ih s1 s' h
        exact ⟨a.trans r8, b.trans r3, d.trans r6, e.trans r2⟩
    · rw [if_neg g] at h; cases h; exact ⟨rfl, rfl, rfl, rfl⟩

theorem downloadLoop_fuel (pw : pieceWork) :
    ∀ (fuel : Nat) (s : pieceProgress), s.client.Conn.incoming.length + 1 ≤ fuel →
      downloadLoop fuel pw s ≠ .error .outOfFuel := by
  intro fuel
  induction fuel with
  | zero => intro s hf; omega
  | succ fuel ih =>
    intro s hf
    simp only [downloadLoop]
    by_cases g : s.downloaded < pw.length
    · rw [if_pos g]
      cases hp : requestPhase pw s with
      | error f =>
        dsimp only
        intro h
        cases h
        unfold requestPhase at hp
        cases hc : s.client.Choked with
        | true => rw [hc] at hp; cases hp
        | false =>
          rw [hc] at hp
          exact requestLoop_fuel pw _ s (Nat.le_refl _) hp
      | ok s1 =>
        dsimp only
        have hin : s1.client.Conn.incoming = s.client.Conn.incoming := by
          unfold requestPhase at hp
          cases hc : s.client.Choked with
          | true => rw [hc] at hp; cases hp; rfl
          | false =>
            rw [hc] at hp
            exact (requestLoop_ok pw _ s s1 hp).1
        cases hm : readMessage s1 with
        | error f =>
          dsimp only
          intro h
          cases h
          exact readMessage_fuel s1 hm
        | ok s2 =>
          dsimp only
          obtain ⟨msg, rest, q0, _, _, _, q4, _⟩ := readMessage_ok s1 s2 hm
          have := message_Read_length _ _ _ q0
          apply ih
          rw [q4]
          rw [hin] at this
          omega
    · rw [if_neg g]
      intro h; cases h

theorem tryDownloadPiece_fuel (c : client.Client) (pw : pieceWork) :
    tryDownloadPiece c pw ≠ .error .outOfFuel := by
  unfold tryDownloadPiece
  by_cases g : pw.length < 0
  · rw [if_pos g]
    intro h; cases h
  · rw [if_neg g]
    exact downloadLoop_fuel pw _ _ (Nat.le_refl _)

end

section
open download

theorem Reach_afterTwoRequests : Reach exampleJob unchokedClient [] afterTwoRequests :=
  Reach.request (s := afterOneRequest)
    (Reach.request (s := initialProgress unchokedClient exampleJob)
      (Reach.init (by decide)) (by decide) rfl (by decide) (by decide) rfl)
    (by decide) rfl (by decide) (by decide) rfl

theorem Reach_afterOnePiece : Reach tenByteJob chokedClient [some sixBytePiece] afterOnePiece :=
  Reach.read (s := initialProgress chokedClient tenByteJob) (Reach.init (by decide))
    (by decide) rfl rfl

theorem Reach_afterTwoPieces :
    Reach tenByteJob chokedClient [some sixBytePiece, some sixBytePiece] afterTwoPieces :=
  Reach.read (s := afterOnePiece) Reach_afterOnePiece (by decide) rfl rfl

end

/-! ## Claims on the per-piece loop -/

section
open download

theorem requestPhase_choked (pw : pieceWork) (s : pieceProgress)
    (h : s.client.Choked = true) : requestPhase pw s = .ok s := by
  unfold requestPhase
  rw [h]
  rfl

theorem uint32_lt (x : Int) : uint32 x < 4294967296 := by
  unfold uint32
  omega

theorem uint32_of_range (x : Int) (h0 : 0 ≤ x) (h1 : x < 4294967296) : (uint32 x : Int) = x := by
  unfold uint32
  omega

theorem requestFrame_eq (i b l : Int) :
    requestFrame i b l =
      [0, 0, 0, 13, 6] ++
        (PutUint32 (uint32 i) ++ (PutUint32 (uint32 b) ++ (PutUint32 (uint32 l) ++ []))) := by
  have hlen : (message.FormatRequest i b l).Payload.length = 12 := by
    rw [FormatRequest_Payload]
    simp only [List.length_append, length_PutUint32]
  have hs := message_Serialize_some (message.FormatRequest i b l) (by rw [hlen]; decide)
  have p13 : PutUint32 (12 + 1) = [0, 0, 0, 13] := by decide
  have hid : (message.FormatRequest i b l).ID = 6 := rfl
  rw [hlen, p13, hid, FormatRequest_Payload] at hs
  rw [requestFrame, hs, Option.getD_some]
  simp only [List.cons_append, List.nil_append, List.append_nil]

theorem requestFields_requestFrame (i b l : Int) :
    requestFields (requestFrame i b l) =
      some ((uint32 i : Int), (uint32 b : Int), (uint32 l : Int)) := by
  have e := requestFrame_eq i b l
  have hl : (requestFrame i b l).length = 17 := by
    rw [e]
    simp only [List.length_append, List.length_cons, length_PutUint32, List.length_nil]
  have ht : (requestFrame i b l).take 5 = [0, 0, 0, 13, 6] := by
    rw [e]
    exact List.take_left' rfl
  have a2 : requestFrame i b l = ([0, 0, 0, 13, 6] ++ PutUint32 (uint32 i)) ++
      (PutUint32 (uint32 b) ++ (PutUint32 (uint32 l) ++ [])) := by
    rw [e, List.append_assoc]
  have a3 : requestFrame i b l = ([0, 0, 0, 13, 6] ++ PutUint32 (uint32 i) ++ PutUint32 (uint32 b)) ++
      (PutUint32 (uint32 l) ++ []) := by
    rw [e]
    simp only [List.append_assoc]
  have f1 : beNat (slice (requestFrame i b l) 5 9) = uint32 i := by
    rw [e, slice_append_mid [0, 0, 0, 13, 6] (PutUint32 (uint32 i)) _ 5 9 rfl rfl]
    exact beNat_PutUint32 _ (uint32_lt i)
  have f2 : beNat (slice (requestFrame i b l) 9 13) = uint32 b := by
    rw [a2, slice_append_mid ([0, 0, 0, 13, 6] ++ PutUint32 (uint32 i)) (PutUint32 (uint32 b)) _ 9 13
      (by simp only [List.length_append, List.length_cons, List.length_nil, length_PutUint32])
      (by simp only [List.length_append, List.length_cons, List.length_nil, length_PutUint32])]
    exact beNat_PutUint32 _ (uint32_lt b)
  have f3 : beNat (slice (requestFrame i b l) 13 17) = uint32 l := by
    rw [a3, slice_append_mid ([0, 0, 0, 13, 6] ++ PutUint32 (uint32 i) ++ PutUint32 (uint32 b))
      (PutUint32 (uint32 l)) _ 13 17
      (by simp only [List.length_append, List.length_cons, List.length_nil, length_PutUint32])
      (by simp only [List.length_append, List.length_cons, List.length_nil, length_PutUint32])]
    exact beNat_PutUint32 _ (uint32_lt l)
  rw [requestFields, if_pos ⟨hl, ht⟩, f1, f2, f3]

theorem requestFields_of_range (i b l : Int) (hi : 0 ≤ i ∧ i < 4294967296)
    (hb : 0 ≤ b ∧ b < 4294967296) (hl : 0 ≤ l ∧ l < 4294967296) :
    requestFields (requestFrame i b l) = some (i, b, l) := by
  rw [requestFields_requestFrame, uint32_of_range i hi.1 hi.2, uint32_of_range b hb.1 hb.2,
    uint32_of_range l hl.1 hl.2]

theorem copyAt_makeBytes (p n : Nat) (h : n ≤ p) :
    copyAt (makeBytes p) 0 (makeBytes n) = makeBytes p := by
  obtain ⟨r, rfl⟩ := Nat.exists_eq_add_of_le h
  rw [makeBytes_add]
  have := copyAt_append [] (makeBytes n) (makeBytes r) (makeBytes n) 0 rfl rfl
  simpa only [List.nil_append] using this

theorem zero_header_fields (data : List Byte) :
    slice (makeBytes 8 ++ data) 0 4 = makeBytes 4 ∧
      slice (makeBytes 8 ++ data) 4 8 = makeBytes 4 ∧ (makeBytes 8 ++ data).drop 8 = data := by
  have m8 : makeBytes 8 = makeBytes 4 ++ makeBytes 4 := makeBytes_add 4 4
  have p8 : makeBytes 8 ++ data = makeBytes 4 ++ (makeBytes 4 ++ data) := by
    rw [m8, List.append_assoc]
  refine ⟨?_, ?_, List.drop_left' (length_makeBytes 8)⟩
  · rw [p8, slice, List.drop_zero]
    exact List.take_left' (length_makeBytes 4)
  · rw [p8]
    exact slice_append_mid (makeBytes 4) (makeBytes 4) data 4 8 rfl rfl

theorem readMessage_floodState (pw : pieceWork) (m d : Nat) (hidx : pw.index = 0)
    (hlen : 16384 ≤ pw.length) :
    readMessage (floodState pw (m + 1) d) = .ok (floodState pw m (d + 1)) := by
  have hbs : (message.MsgPiece :: (makeBytes 8 ++ makeBytes 16384)).length = 16393 := by
    simp only [List.length_cons, List.length_append, length_makeBytes]
  have hread := message_Read_frame (message.MsgPiece :: (makeBytes 8 ++ makeBytes 16384))
    ((List.replicate m zeroBlockFrame).flatten ++ ([0, 0, 0, 1, 1] ++ oneByteFrame))
    (by rw [hbs]; decide) (by rw [hbs]; decide)
  rw [hbs] at hread
  have hin : (floodState pw (m + 1) d).client.Conn.incoming =
      PutUint32 16393 ++ ((message.MsgPiece :: (makeBytes 8 ++ makeBytes 16384)) ++
        ((List.replicate m zeroBlockFrame).flatten ++ ([0, 0, 0, 1, 1] ++ oneByteFrame))) := by
    show (List.replicate (m + 1) zeroBlockFrame).flatten ++ ([0, 0, 0, 1, 1] ++ oneByteFrame) = _
    rw [List.replicate_succ, List.flatten_cons]
    nth_rewrite 1 [zeroBlockFrame]
    rw [List.append_assoc, List.append_assoc]
  rw [← hin] at hread
  simp only [List.getD_cons_zero, List.drop_succ_cons, List.drop_zero] at hread
  have hp := readMessage_piece (floodState pw (m + 1) d) _ _ hread rfl
  rw [hp]
  obtain ⟨s1, s2, s3⟩ := zero_header_fields (makeBytes 16384)
  have b0 : beNat (makeBytes 4) = 0 := by decide
  have acc : pieceAccepted pw.index (makeBytes pw.length.toNat)
      { ID := message.MsgPiece, Payload := makeBytes 8 ++ makeBytes 16384 } := by
    unfold pieceAccepted
    dsimp only
    rw [s1, s2, s3, b0, List.length_append, length_makeBytes, length_makeBytes, length_makeBytes,
      hidx]
    refine ⟨rfl, by omega, rfl, by omega, by omega⟩
  have hpp := ParsePiece_of_accepted _ _ _ acc
  dsimp only at hpp
  rw [s2, b0, s3, copyAt_makeBytes _ _ (by omega), length_makeBytes] at hpp
  have hidx' : (floodState pw (m + 1) d).index = pw.index := rfl
  have hbuf' : (floodState pw (m + 1) d).buf = makeBytes pw.length.toNat := rfl
  rw [hidx', hbuf', hpp]
  dsimp only
  have e1 : (floodState pw (m + 1) d).downloaded + Int.ofNat 16384 =
      16384 * ((d + 1 : Nat) : Int) := by
    show 16384 * (d : Int) + ((16384 : Nat) : Int) = 16384 * ((d + 1 : Nat) : Int)
    push_cast
    omega
  have e2 : (floodState pw (m + 1) d).backlog - 1 = -((d + 1 : Nat) : Int) := by
    show -(d : Int) - 1 = -((d + 1 : Nat) : Int)
    push_cast
    omega
  rw [e1, e2]
  rfl

theorem downloadLoop_step (fuel : Nat) (pw : pieceWork) (s s1 s2 : pieceProgress)
    (hd : s.downloaded < pw.length) (h1 : requestPhase pw s = .ok s1)
    (h2 : readMessage s1 = .ok s2) :
    downloadLoop (fuel + 1) pw s = downloadLoop fuel pw s2 := by
  simp only [downloadLoop]
  rw [if_pos hd, h1]
  dsimp only
  rw [h2]

theorem downloadLoop_flood (pw : pieceWork) (hidx : pw.index = 0) :
    ∀ (m d fuel : Nat), 16384 * ((d + m : Nat) : Int) < pw.length →
      downloadLoop (fuel + m) pw (floodState pw m d) =
        downloadLoop fuel pw (floodState pw 0 (d + m)) := by
  intro m
  induction m with
  | zero => intro d fuel _; rfl
  | succ m ih =>
    intro d fuel h
    have hd : (floodState pw (m + 1) d).downloaded < pw.length := by
      show 16384 * (d : Int) < pw.length
      push_cast at h
      omega
    have e : fuel + (m + 1) = (fuel + m) + 1 := rfl
    have e2 : d + 1 + m = d + (m + 1) := by omega
    rw [e, downloadLoop_step _ pw _ _ _ hd (requestPhase_choked pw _ rfl)
      (readMessage_floodState pw m d hidx (by push_cast at h; omega)),
      ih (d + 1) fuel (by push_cast at h ⊢; omega), e2]

theorem downloadLoop_done (pw : pieceWork) (fuel : Nat) (s : pieceProgress)
    (h : ¬ s.downloaded < pw.length) : downloadLoop fuel pw s = .ok s := by
  cases fuel with
  | zero => simp only [downloadLoop]; rw [if_neg h]
  | succ fuel => simp only [downloadLoop]; rw [if_neg h]

theorem requestStep_total (pw : pieceWork) (s : pieceProgress)
    (hw : s.client.Conn.writeOK = []) :
    ∃ s', requestStep pw s = .ok s' ∧ s'.client.Conn.writeOK = [] := by
  have hlen : ∀ i b l : Int, (message.FormatRequest i b l).Payload.length + 5 < 4294967296 := by
    intro i b l
    rw [FormatRequest_Payload]
    simp only [List.length_append, length_PutUint32]
    decide
  unfold requestStep client.SendRequest client.send
  dsimp only
  rw [message_Serialize_some _ (hlen _ _ _)]
  dsimp only
  simp only [client.Conn.Write, hw]
  exact ⟨_, rfl, rfl⟩

theorem requestLoop_exhausts (pw : pieceWork) (n : Nat) :
    ∀ (fuel : Nat) (s : pieceProgress), s.client.Conn.writeOK = [] → s.requested ≤ pw.length →
      (s.requested = pw.length ∨ 16384 * (s.backlog + (n : Int)) ≤ s.requested) →
      (MaxBacklog - s.backlog).toNat ≤ fuel →
      ∃ s', requestLoop fuel pw s = .ok s' ∧ s'.requested ≤ pw.length ∧
        (s'.requested = pw.length ∨ 16384 * (s'.backlog + (n : Int)) ≤ s'.requested) ∧
        ¬ (s'.backlog < MaxBacklog ∧ s'.requested < pw.length) ∧ s'.index = s.index := by
  intro fuel
  induction fuel with
  | zero =>
    intro s hw hr hinv hf
    have g : ¬ (s.backlog < MaxBacklog ∧ s.requested < pw.length) := by
      unfold MaxBacklog at hf ⊢
      omega
    refine ⟨s, ?_, hr, hinv, g, rfl⟩
    simp only [requestLoop]
    rw [if_neg g]
  | succ fuel ih =>
    intro s hw hr hinv hf
    by_cases g : s.backlog < MaxBacklog ∧ s.requested < pw.length
    · obtain ⟨s1, hs1, hw1⟩ := requestStep_total pw s hw
      obtain ⟨r1, _, _, r4, r5, _⟩ := requestStep_ok pw s s1 hs1
      obtain ⟨s', h1, h2, h3, h4, h5⟩ := ih s1 hw1 (by rw [r5]; omega)
        (by rw [r4, r5]; omega) (by rw [r4]; unfold MaxBacklog at hf ⊢; omega)
      refine ⟨s', ?_, h2, h3, h4, h5.trans r1⟩
      simp only [requestLoop]
      rw [if_pos g, hs1]
      exact h1
    · refine ⟨s, ?_, hr, hinv, g, rfl⟩
      simp only [requestLoop]
      rw [if_neg g]

theorem length_flatten_replicate (n : Nat) (f : List Byte) :
    (List.replicate n f).flatten.length = n * f.length := by
  induction n with
  | zero => simp only [List.replicate_zero, List.flatten_nil, List.length_nil, Nat.zero_mul]
  | succ n ih =>
    rw [List.replicate_succ, List.flatten_cons, List.length_append, ih, Nat.succ_mul, Nat.add_comm]

theorem length_zeroBlockFrame : zeroBlockFrame.length = 16397 := by
  simp only [zeroBlockFrame, List.length_append, length_PutUint32, List.length_cons,
    length_makeBytes]

theorem tryDownloadPiece_flood (pw : pieceWork) (n : Nat) (hidx : pw.index = 0)
    (hlen : pw.length = 16384 * (n : Int) + 1) :
    ∃ s, tryDownloadPiece (floodingClient n) pw = .ok s ∧ s.requested = pw.length := by
  have hfuel : (floodingClient n).Conn.incoming.length + 1 = (16396 * n + 18 + 1 + 1) + n := by
    show ((List.replicate n zeroBlockFrame).flatten ++ ([0, 0, 0, 1, 1] ++ oneByteFrame)).length + 1
      = _
    rw [List.length_append, length_flatten_replicate, length_zeroBlockFrame]
    have : ([0, 0, 0, 1, 1] ++ oneByteFrame).length = 19 := rfl
    rw [this]
    omega
  have hinit : initialProgress (floodingClient n) pw = floodState pw n 0 := rfl
  unfold tryDownloadPiece
  rw [if_neg (by omega), hfuel, hinit, downloadLoop_flood pw hidx n 0 _ (by omega), Nat.zero_add]
  -- the Unchoke frame
  have hd : (floodState pw 0 n).downloaded < pw.length := by
    show 16384 * (n : Int) < pw.length
    omega
  have hu : message.Read (floodState pw 0 n).client.Conn.incoming =
      (.ok (some { ID := message.MsgUnchoke, Payload := [] }), oneByteFrame) := by
    have hinc : (floodState pw 0 n).client.Conn.incoming = [0, 0, 0, 1, 1] ++ oneByteFrame := rfl
    rw [hinc]
    exact message_Read_frame [1] oneByteFrame (by decide) (by decide)
  rw [downloadLoop_step _ pw _ _ _ hd (requestPhase_choked pw _ rfl)
    (readMessage_unchoke _ _ _ hu rfl)]
  -- the requests
  have hd2 : (withChoked (afterRead (floodState pw 0 n) oneByteFrame) false).downloaded <
      pw.length := hd
  obtain ⟨s1, e1, q1, q2, q3, q4⟩ := requestLoop_exhausts pw n
    (MaxBacklog - (withChoked (afterRead (floodState pw 0 n) oneByteFrame) false).backlog).toNat
    (withChoked (afterRead (floodState pw 0 n) oneByteFrame) false) rfl
    (by show (0 : Int) ≤ pw.length; omega)
    (Or.inr (by show 16384 * (-(n : Int) + (n : Int)) ≤ 0; omega)) (Nat.le_refl _)
  obtain ⟨o1, o2, _, o4⟩ := requestLoop_ok pw _ _ s1 e1
  have hp : requestPhase pw (withChoked (afterRead (floodState pw 0 n) oneByteFrame) false) =
      .ok s1 := by
    unfold requestPhase
    exact e1
  have hreq : s1.requested = pw.length := by
    unfold MaxBacklog at q3
    omega
  -- the last block
  have hin1 : s1.client.Conn.incoming = oneByteFrame := o1
  have hdl1 : s1.downloaded = 16384 * (n : Int) := o2
  have hbuf1 : s1.buf = makeBytes pw.length.toNat := o4
  have hidx1 : s1.index = 0 := q4.trans hidx
  have hr1 : message.Read s1.client.Conn.incoming =
      (.ok (some { ID := message.MsgPiece, Payload := [0, 0, 0, 0, 0, 0, 0, 0, 0] }), []) := by
    rw [hin1]
    exact message_Read_frame [7, 0, 0, 0, 0, 0, 0, 0, 0, 0] [] (by decide) (by decide)
  have b0 : beNat (slice ([0, 0, 0, 0, 0, 0, 0, 0, 0] : List Byte) 0 4) = 0 := by decide
  have b1 : beNat (slice ([0, 0, 0, 0, 0, 0, 0, 0, 0] : List Byte) 4 8) = 0 := by decide
  have acc : pieceAccepted s1.index s1.buf
      { ID := message.MsgPiece, Payload := [0, 0, 0, 0, 0, 0, 0, 0, 0] } := by
    unfold pieceAccepted
    dsimp only
    rw [b0, b1, hidx1, hbuf1, length_makeBytes]
    refine ⟨rfl, by decide, rfl, by omega, ?_⟩
    show 0 + 1 ≤ pw.length.toNat
    omega
  have hm := readMessage_piece s1 _ _ hr1 rfl
  rw [ParsePiece_of_accepted _ _ _ acc] at hm
  dsimp only at hm
  rw [downloadLoop_step _ pw _ _ _ hd2 hp hm]
  refine ⟨_, downloadLoop_done pw _ _ ?_, hreq⟩
  show ¬ (s1.downloaded + Int.ofNat 1 < pw.length)
  rw [hdl1, hlen]
  show ¬ (16384 * (n : Int) + 1 < 16384 * (n : Int) + 1)
  omega

end

/-- C15 as stated fails for a piece of more than `2 ^ 32` bytes. The peer of
`floodingClient 262144` sends 262144 blocks of 16384 bytes for the piece 0
while the client is choked and has asked for nothing; `ParsePiece` accepts
each, which leaves `backlog = −262144` and `downloaded = 2 ^ 32`. After the
Unchoke frame the inner loop of `tryDownloadPiece` sends the requests for the
whole piece of `2 ^ 32 + 1` bytes, and the attempt ends when the last byte
arrives. The request number 0 is the frame `00 00 00 0D 06` `00 00 00 00`
`00 00 00 00` `00 00 40 00`; the request number 262144, for the block at
`262144·16384 = 2 ^ 32`, is `00 00 00 0D 06` `00 00 00 00` `00 00 00 00`
`00 00 00 01`: the field `begin` has four bytes and carries 0 again, not
`262144·16384`, and the begins on the wire do not increase strictly. (By
`Reach_invariant` the frames of the requests do not depend on what the peer
sends: the request number `k` of an attempt is always the frame of
`SendRequest(index, 16384·k, min(16384, P − 16384·k))`.) -/
theorem request_begin_wraps_past_4GiB :
    ∃ s, download.tryDownloadPiece (floodingClient 262144) bigJob = .ok s ∧
      s.requested = bigJob.length ∧
      s.client.Conn.sent[0]? =
        some [0, 0, 0, 13, 6, 0, 0, 0, 0, 0, 0, 0, 0, 0, 0, 0x40, 0] ∧
      s.client.Conn.sent[262144]? =
        some [0, 0, 0, 13, 6, 0, 0, 0, 0, 0, 0, 0, 0, 0, 0, 0, 1] ∧
      requestFields [0, 0, 0, 13, 6, 0, 0, 0, 0, 0, 0, 0, 0, 0, 0, 0x40, 0] =
        some (0, 0, 16384) ∧
      requestFields [0, 0, 0, 13, 6, 0, 0, 0, 0, 0, 0, 0, 0, 0, 0, 0, 1] = some (0, 0, 1) ∧
      (262144 : Int) * 16384 = 4294967296 := by
  obtain ⟨s, hs, hr⟩ := tryDownloadPiece_flood bigJob 262144 rfl (by decide)
  obtain ⟨hist, hreach, _⟩ := tryDownloadPiece_Reach _ _ _ hs
  obtain ⟨_, _, _, _, _, _, k, i7, i8, _⟩ := Reach_invariant _ _ _ _ hreach
  have hs0 : (floodingClient 262144).Conn.sent = [] := rfl
  have hl : bigJob.length = 4294967297 := rfl
  rw [hs0, List.nil_append] at i7
  rw [hr, hl] at i8
  have hk : 262144 < k := by omega
  have f0 : requestFrame bigJob.index (16384 * ((0 : Nat) : Int))
      (min 16384 (bigJob.length - 16384 * ((0 : Nat) : Int))) =
        [0, 0, 0, 13, 6, 0, 0, 0, 0, 0, 0, 0, 0, 0, 0, 0x40, 0] := by decide
  have f1 : requestFrame bigJob.index (16384 * ((262144 : Nat) : Int))
      (min 16384 (bigJob.length - 16384 * ((262144 : Nat) : Int))) =
        [0, 0, 0, 13, 6, 0, 0, 0, 0, 0, 0, 0, 0, 0, 0, 0, 1] := by decide
  refine ⟨s, hs, hr, ?_, ?_, by decide, by decide, by decide⟩
  · rw [i7, List.getElem?_map, List.getElem?_range (by omega), Option.map_some', f0]
  · rw [i7, List.getElem?_map, List.getElem?_range hk, Option.map_some', f1]

/-- C15, amended: within one piece attempt for a job with an index in
`[0, 2 ^ 32)` and a length `P ≤ 2 ^ 32`, there is in every state a number `k`
of requests made so far such that the writes on the connection are those made
before the attempt followed by `k` frames, each a Request frame of 17 bytes,
and the `j`-th of them (`j = 0, …, k−1`) carries the index of the job,
`begin = 16384·j` and `length = min(16384, P − 16384·j)`; `requested` is
`min(16384·k, P)`; every block length is in `[1, 16384]`, no request reaches
past `P`, each block begins where the block before it ends (so the begins
increase strictly), and the last block ends at `requested`: once
`requested = P` the blocks tile `[0, P)` exactly. -/
theorem request_sequence (pw : download.pieceWork) (c : client.Client)
    (hist : List (Option message.Message)) (s : download.pieceProgress)
    (h : Reach pw c hist s) (hidx : 0 ≤ pw.index ∧ pw.index < 4294967296)
    (hlen : pw.length ≤ 4294967296) :
    ∃ (k : Nat) (ws : List (List Byte)),
      s.client.Conn.sent = c.Conn.sent ++ ws ∧
      ws.map requestFields = (List.range k).map (fun j : Nat =>
        some (pw.index, 16384 * (j : Int), min 16384 (pw.length - 16384 * (j : Int)))) ∧
      s.requested = min (16384 * (k : Int)) pw.length ∧
      ∀ j : Nat, j < k →
        1 ≤ min 16384 (pw.length - 16384 * (j : Int)) ∧
        min 16384 (pw.length - 16384 * (j : Int)) ≤ 16384 ∧
        16384 * (j : Int) + min 16384 (pw.length - 16384 * (j : Int)) ≤ pw.length ∧
        (j + 1 < k →
          16384 * (j : Int) < 16384 * ((j + 1 : Nat) : Int) ∧
          16384 * (j : Int) + min 16384 (pw.length - 16384 * (j : Int)) =
            16384 * ((j + 1 : Nat) : Int)) ∧
        (j + 1 = k →
          16384 * (j : Int) + min 16384 (pw.length - 16384 * (j : Int)) = s.requested) := by
  obtain ⟨_, _, _, _, _, _, k, i7, i8, i9⟩ := Reach_invariant pw c hist s h
  refine ⟨k, _, i7, ?_, i8, ?_⟩
  · rw [List.map_map]
    apply List.map_congr_left
    intro j hj
    have hj' := i9 j (List.mem_range.mp hj)
    rw [Function.comp_apply]
    exact requestFields_of_range _ _ _ hidx ⟨by omega, by omega⟩ ⟨by omega, by omega⟩
  · intro j hj
    have hj' := i9 j hj
    refine ⟨by omega, by omega, by omega, ?_, ?_⟩
    · intro hj1
      have := i9 (j + 1) hj1
      push_cast at this ⊢
      omega
    · intro hj1
      rw [i8, ← hj1]
      push_cast
      omega

/-- The attempt for a piece of 20000 bytes after two requests: the two frames
written are Request frames that carry (3, 0, 16384) and (3, 16384, 3616), and
`requested` is 20000. -/
theorem request_sequence_witness :
    afterTwoRequests.client.Conn.sent =
        [[0, 0, 0, 13, 6, 0, 0, 0, 3, 0, 0, 0, 0, 0, 0, 0x40, 0],
          [0, 0, 0, 13, 6, 0, 0, 0, 3, 0, 0, 0x40, 0, 0, 0, 0x0E, 0x20]] ∧
      afterTwoRequests.client.Conn.sent.map requestFields =
        [some (3, 0, 16384), some (3, 16384, 3616)] ∧
      afterTwoRequests.requested = 20000 ∧
      ∃ (k : Nat) (ws : List (List Byte)),
        afterTwoRequests.client.Conn.sent = unchokedClient.Conn.sent ++ ws ∧
        ws.map requestFields = (List.range k).map (fun j : Nat =>
          some (exampleJob.index, 16384 * (j : Int),
            min 16384 (exampleJob.length - 16384 * (j : Int)))) ∧
        afterTwoRequests.requested = min (16384 * (k : Int)) exampleJob.length :=
  ⟨by decide, by decide, rfl,
    let ⟨k, ws, h1, h2, h3, _⟩ := request_sequence exampleJob unchokedClient [] afterTwoRequests
      Reach_afterTwoRequests (by decide) (by decide)
    ⟨k, ws, h1, h2, h3⟩⟩

/-- C16 as stated fails: the peer of `chokedClient` sends the same block of six
bytes twice while nothing was requested; `ParsePiece` accepts both, and the
attempt for the piece of 10 bytes reaches a state with `downloaded = 12`,
`requested = 0`: `downloaded ≤ requested` is false and so is
`downloaded ≤ piece_length`. `tryDownloadPiece` returns in that state. -/
theorem byte_counts_fail_on_unrequested_blocks :
    Reach tenByteJob chokedClient [some sixBytePiece, some sixBytePiece] afterTwoPieces ∧
      download.tryDownloadPiece chokedClient tenByteJob = .ok afterTwoPieces ∧
      ¬ (afterTwoPieces.downloaded ≤ afterTwoPieces.requested) ∧
      ¬ (afterTwoPieces.downloaded ≤ tenByteJob.length) ∧
      ¬ (0 ≤ afterTwoPieces.downloaded ∧ afterTwoPieces.downloaded ≤ afterTwoPieces.requested ∧
        afterTwoPieces.requested ≤ tenByteJob.length) :=
  ⟨Reach_afterTwoPieces, rfl, by decide, by decide, by decide⟩

/-- C16, amended: in every state of a piece attempt, for every sequence of
messages the peer may send, `0 ≤ downloaded` and `0 ≤ requested ≤ piece_length`
hold. (`downloaded` is not bounded by `requested`: Piece messages are not
matched against the requests.) -/
theorem byte_counts (pw : download.pieceWork) (c : client.Client)
    (hist : List (Option message.Message)) (s : download.pieceProgress)
    (h : Reach pw c hist s) :
    0 ≤ s.downloaded ∧ 0 ≤ s.requested ∧ s.requested ≤ pw.length := by
  obtain ⟨_, i2, _, _, i5, _, k, _, i8, _⟩ := Reach_invariant pw c hist s h
  refine ⟨i5, ?_, ?_⟩ <;> omega

/-- The amended invariant in the state after two unrequested blocks. -/
theorem byte_counts_witness :
    0 ≤ afterTwoPieces.downloaded ∧ 0 ≤ afterTwoPieces.requested ∧
      afterTwoPieces.requested ≤ tenByteJob.length :=
  byte_counts tenByteJob chokedClient _ afterTwoPieces Reach_afterTwoPieces

/-- C17: in every state of a piece attempt, for every sequence of messages the
peer may send, `backlog ≤ MaxBacklog` (= 5). -/
theorem backlog_bound (pw : download.pieceWork) (c : client.Client)
    (hist : List (Option message.Message)) (s : download.pieceProgress)
    (h : Reach pw c hist s) :
    s.backlog ≤ download.MaxBacklog ∧ download.MaxBacklog = 5 :=
  ⟨(Reach_invariant pw c hist s h).2.2.2.1, rfl⟩

/-- The backlog after two requests is 2. -/
theorem backlog_bound_witness :
    afterTwoRequests.backlog = 2 ∧ afterTwoRequests.backlog ≤ download.MaxBacklog :=
  ⟨rfl, (backlog_bound exampleJob unchokedClient [] afterTwoRequests Reach_afterTwoRequests).1⟩

section
open download

theorem chokedAfter_no_unchoke (hist : List (Option message.Message))
    (h : ∀ msg, some msg ∈ hist → msg.ID ≠ message.MsgUnchoke) :
    chokedAfter true hist = true := by
  induction hist using List.reverseRecOn with
  | nil => rfl
  | append_singleton l m ih =>
    rw [chokedAfter_append, ih (fun msg hm => h msg (List.mem_append_left _ hm))]
    cases m with
    | none => rfl
    | some msg =>
      have h1 := h msg (List.mem_append_right _ (List.mem_singleton.mpr rfl))
      simp only [chokedAfter, List.foldl, h1, if_false]
      by_cases h0 : msg.ID = message.MsgChoke
      · rw [if_pos h0]
      · rw [if_neg h0]

theorem chokedAfter_cons (ch : Bool) (m : Option message.Message)
    (hist : List (Option message.Message)) :
    chokedAfter ch (m :: hist) = chokedAfter (chokedAfter ch [m]) hist := rfl

theorem chokedAfter_last_choke (ch : Bool) (pre post : List (Option message.Message))
    (msg : message.Message) (hid : msg.ID = message.MsgChoke)
    (h : ∀ m, some m ∈ post → m.ID ≠ message.MsgUnchoke) :
    chokedAfter ch (pre ++ some msg :: post) = true := by
  have n1 : ¬ (message.MsgChoke = message.MsgUnchoke) := by decide
  have e : chokedAfter (chokedAfter ch pre) [some msg] = true := by
    simp only [chokedAfter, List.foldl, hid, n1, if_true, if_false]
  have a : chokedAfter ch (pre ++ some msg :: post) =
      chokedAfter (chokedAfter ch pre) (some msg :: post) := by
    simp only [chokedAfter, List.foldl_append]
  rw [a, chokedAfter_cons, e]
  exact chokedAfter_no_unchoke post h

theorem New_Choked (dial : Option client.Conn) (peerID infoHash : Hash20) (c : client.Client)
    (h : client.New dial peerID infoHash = .ok c) : c.Choked = true := by
  cases dial with
  | none => simp only [client.New] at h; cases h
  | some conn =>
    simp only [client.New] at h
    rcases h1 : client.completeHandshake conn infoHash peerID with ⟨r1, conn1⟩
    rw [h1] at h
    cases r1 with
    | error f => cases h
    | ok hs =>
      dsimp only at h
      rcases h2 : client.getBitfield conn1 with ⟨r2, conn2⟩
      rw [h2] at h
      cases r2 with
      | error f => cases h
      | ok bf => cases h; rfl

end

/-- C18: a session starts with `choked = true` (`client.New`); in every state
of a piece attempt the flag is what the last Choke or Unchoke message read
left it; the request phase of an iteration changes something (writes a
Request) only when `choked` is false; so in a session that started choked and
has read no Unchoke, and in one whose last Choke or Unchoke message was a
Choke, the request phase of the iteration emits nothing. -/
theorem no_request_while_choked (pw : download.pieceWork) (c : client.Client)
    (hist : List (Option message.Message)) (s : download.pieceProgress)
    (h : Reach pw c hist s) :
    (∀ dial peerID infoHash c0, client.New dial peerID infoHash = .ok c0 → c0.Choked = true) ∧
      s.client.Choked = chokedAfter c.Choked hist ∧
      (∀ s', download.requestPhase pw s = .ok s' → s' ≠ s → s.client.Choked = false) ∧
      (c.Choked = true → (∀ msg, some msg ∈ hist → msg.ID ≠ message.MsgUnchoke) →
        download.requestPhase pw s = .ok s) ∧
      (∀ pre post msg, hist = pre ++ some msg :: post → msg.ID = message.MsgChoke →
        (∀ m, some m ∈ post → m.ID ≠ message.MsgUnchoke) →
        download.requestPhase pw s = .ok s) := by
  have hch := (Reach_invariant pw c hist s h).2.2.2.2.2.1
  refine ⟨New_Choked, hch, ?_, ?_, ?_⟩
  · intro s' hp hne
    cases hc : s.client.Choked with
    | false => rfl
    | true =>
      rw [requestPhase_choked pw s hc] at hp
      cases hp
      exact absurd rfl hne
  · intro h0 hno
    apply requestPhase_choked
    rw [hch, h0]
    exact chokedAfter_no_unchoke hist hno
  · intro pre post msg he hid hno
    apply requestPhase_choked
    rw [hch, he]
    exact chokedAfter_last_choke _ pre post msg hid hno

/-- A session created by `client.New` on `freshConn` is choked, and the choked
session that has read two Piece messages and no Unchoke emits no request. -/
theorem no_request_while_choked_witness :
    (∃ c0, client.New (some freshConn) ⟨List.replicate 20 0xBB, rfl⟩
        ⟨List.replicate 20 0xAA, rfl⟩ = .ok c0 ∧ c0.Choked = true) ∧
      download.requestPhase tenByteJob afterTwoPieces = .ok afterTwoPieces ∧
      afterTwoPieces.client.Conn.sent = [] :=
  ⟨⟨_, rfl, rfl⟩,
    (no_request_while_choked tenByteJob chokedClient _ afterTwoPieces
      Reach_afterTwoPieces).2.2.2.1 rfl
      (by
        intro msg hm
        simp only [List.mem_cons, Option.some.injEq, List.mem_singleton, List.mem_nil_iff,
          or_false, or_self] at hm
        rw [hm]
        decide),
    rfl⟩

/-! ## Claims on the coordinator: the collection loop and the integrity gate -/

theorem slice_get? (l : List Byte) (lo hi i : Nat) :
    (slice l lo hi)[i]? = if lo + i < hi then l[lo + i]? else none := by
  rw [slice, List.getElem?_drop, List.getElem?_take]

theorem slice_congr (l₁ l₂ : List Byte) (lo hi : Nat)
    (h : ∀ j, lo ≤ j → j < hi → l₁.get? j = l₂.get? j) : slice l₁ lo hi = slice l₂ lo hi := by
  apply List.ext_getElem?
  intro i
  rw [slice_get?, slice_get?]
  by_cases c : lo + i < hi
  · rw [if_pos c, if_pos c]
    have := h (lo + i) (by omega) c
    simpa only [List.get?_eq_getElem?] using this
  · rw [if_neg c, if_neg c]

theorem take_append_slice (l : List Byte) (lo hi : Nat) (h : lo ≤ hi) :
    l.take lo ++ slice l lo hi = l.take hi := by
  have e : l.take lo = (l.take hi).take lo := by
    rw [List.take_take, Nat.min_eq_left h]
  rw [slice, e, List.take_append_drop]

section
open download

theorem collectStep_eq (t : Torrent) (buf : List Byte) (res : pieceResult)
    (h0 : 0 ≤ res.index * t.PieceLength)
    (hl : (res.buf.length : Int) =
      min (res.index * t.PieceLength + t.PieceLength) t.Length - res.index * t.PieceLength)
    (hE : min (res.index * t.PieceLength + t.PieceLength) t.Length ≤ (buf.length : Int)) :
    collectStep t buf res = some (copyAt buf (res.index * t.PieceLength).toNat res.buf) := by
  have hend : (if res.index * t.PieceLength + t.PieceLength > t.Length then t.Length
      else res.index * t.PieceLength + t.PieceLength) =
      min (res.index * t.PieceLength + t.PieceLength) t.Length := by
    by_cases c : res.index * t.PieceLength + t.PieceLength > t.Length
    · rw [if_pos c]; omega
    · rw [if_neg c]; omega
  have hl' : (min (res.index * t.PieceLength + t.PieceLength) t.Length).toNat =
      (res.index * t.PieceLength).toNat + res.buf.length := by omega
  unfold collectStep
  dsimp only
  rw [hend, if_pos ⟨h0, by omega, hE⟩, hl']
  have hle : (res.index * t.PieceLength).toNat + res.buf.length ≤ buf.length := by omega
  rw [copyAt_eq_append buf _ res.buf hle, List.append_assoc]
  congr 2
  rw [copy, length_slice _ _ _ hle, Nat.add_sub_cancel_left, List.take_of_length_le (Nat.le_refl _),
    List.drop_of_length_le (by rw [length_slice _ _ _ hle]; omega), List.append_nil]

end

section
open download

theorem piece_region (t : Torrent) (i : Int) (hnom : 0 < t.PieceLength)
    (hlo : ((t.PieceHashes.length : Int) - 1) * t.PieceLength < t.Length)
    (h0 : 0 ≤ i) (h1 : i < (t.PieceHashes.length : Int)) :
    0 ≤ i * t.PieceLength ∧ i * t.PieceLength < t.Length := by
  have a : 0 ≤ i * t.PieceLength := Int.mul_nonneg h0 (Int.le_of_lt hnom)
  have b : i * t.PieceLength ≤ ((t.PieceHashes.length : Int) - 1) * t.PieceLength :=
    Int.mul_le_mul_of_nonneg_right (by omega) (Int.le_of_lt hnom)
  exact ⟨a, by omega⟩

theorem piece_regions_ordered (nom i j : Int) (hnom : 0 < nom) (h : i < j) :
    i * nom + nom ≤ j * nom := by
  have a : (i + 1) * nom ≤ j * nom :=
    Int.mul_le_mul_of_nonneg_right (by omega) (Int.le_of_lt hnom)
  rw [Int.add_mul, Int.one_mul] at a
  exact a

theorem collectLoop_spec (t : Torrent) (hnom : 0 < t.PieceLength)
    (hlo : ((t.PieceHashes.length : Int) - 1) * t.PieceLength < t.Length) :
    ∀ (rs : List pieceResult) (buf : List Byte) (done : Nat),
      (buf.length : Int) = t.Length → done + rs.length = t.PieceHashes.length →
      (∀ r ∈ rs, 0 ≤ r.index ∧ r.index < (t.PieceHashes.length : Int) ∧
        (r.buf.length : Int) =
          min (r.index * t.PieceLength + t.PieceLength) t.Length - r.index * t.PieceLength) →
      (rs.map (fun r => r.index)).Nodup →
      ∃ buf', collectLoop t buf done rs = .ok buf' ∧ buf'.length = buf.length ∧
        (∀ r ∈ rs, slice buf' (r.index * t.PieceLength).toNat
          (min (r.index * t.PieceLength + t.PieceLength) t.Length).toNat = r.buf) ∧
        (∀ j, (∀ r ∈ rs, j < (r.index * t.PieceLength).toNat ∨
            (min (r.index * t.PieceLength + t.PieceLength) t.Length).toNat ≤ j) →
          buf'.get? j = buf.get? j) := by
  intro rs
  induction rs with
  | nil =>
    intro buf done hb hd _ _
    refine ⟨buf, ?_, rfl, ?_, fun _ _ => rfl⟩
    · simp only [collectLoop]
      rw [if_neg (by rw [List.length_nil] at hd; omega)]
    · intro r hr
      cases hr
  | cons r rest ih =>
    intro buf done hb hd hfit hnd
    obtain ⟨f0, f1, f2⟩ := hfit r (List.mem_cons_self _ _)
    obtain ⟨g0, g1⟩ := piece_region t r.index hnom hlo f0 f1
    have hstep := collectStep_eq t buf r g0 f2 (by omega)
    have hle : (r.index * t.PieceLength).toNat + r.buf.length ≤ buf.length := by omega
    have hE : (min (r.index * t.PieceLength + t.PieceLength) t.Length).toNat =
        (r.index * t.PieceLength).toNat + r.buf.length := by omega
    rw [List.map_cons, List.nodup_cons] at hnd
    obtain ⟨buf', e1, e2, e3, e4⟩ := ih (copyAt buf (r.index * t.PieceLength).toNat r.buf)
      (done + 1) (by rw [length_copyAt _ _ _ hle]; exact hb)
      (by rw [List.length_cons] at hd; omega)
      (fun r' hr' => hfit r' (List.mem_cons_of_mem _ hr')) hnd.2
    have hdisj : ∀ r' ∈ rest, ∀ j, (r.index * t.PieceLength).toNat ≤ j →
        j < (min (r.index * t.PieceLength + t.PieceLength) t.Length).toNat →
        j < (r'.index * t.PieceLength).toNat ∨
          (min (r'.index * t.PieceLength + t.PieceLength) t.Length).toNat ≤ j := by
      intro r' hr' j hj1 hj2
      have hne : r'.index ≠ r.index := by
        intro e
        exact hnd.1 (List.mem_map.mpr ⟨r', hr', e⟩)
      obtain ⟨f0', f1', _⟩ := hfit r' (List.mem_cons_of_mem _ hr')
      obtain ⟨g0', _⟩ := piece_region t r'.index hnom hlo f0' f1'
      by_cases c : r.index < r'.index
      · have := piece_regions_ordered t.PieceLength r.index r'.index hnom c
        left
        omega
      · have := piece_regions_ordered t.PieceLength r'.index r.index hnom (by omega)
        right
        omega
    refine ⟨buf', ?_, by rw [e2, length_copyAt _ _ _ hle], ?_, ?_⟩
    · simp only [collectLoop]
      rw [if_pos (by rw [List.length_cons] at hd; omega), hstep]
      exact e1
    · intro r' hr'
      rcases List.mem_cons.mp hr' with e | hr'
      · rw [e]
        rw [slice_congr buf' (copyAt buf (r.index * t.PieceLength).toNat r.buf) _ _
          (fun j hj1 hj2 => e4 j (fun r' hr' => hdisj r' hr' j hj1 hj2)), hE]
        exact slice_copyAt _ _ _ hle
      · exact e3 r' hr'
    · intro j hj
      rw [e4 j (fun r' hr' => hj r' (List.mem_cons_of_mem _ hr'))]
      apply get?_copyAt _ _ _ hle
      have := hj r (List.mem_cons_self _ _)
      omega

end

section
open download

theorem pieceOf_of_mem (results : List pieceResult) (i : Nat)
    (h : ∃ r ∈ results, r.index = (i : Int)) :
    ∃ r ∈ results, r.index = (i : Int) ∧ pieceOf results i = r.buf := by
  cases hf : results.find? (fun r => decide (r.index = (i : Int))) with
  | none =>
    obtain ⟨r, hr, hi⟩ := h
    have := List.find?_eq_none.mp hf r hr
    simp only [decide_eq_true_eq] at this
    exact absurd hi this
  | some r =>
    have h1 := List.find?_some hf
    simp only [decide_eq_true_eq] at h1
    refine ⟨r, List.mem_of_find?_eq_some hf, h1, ?_⟩
    simp only [pieceOf, hf, Option.map_some', Option.getD_some]

theorem take_eq_flatten (t : Torrent) (results : List pieceResult) (buf : List Byte)
    (hnom : 0 < t.PieceLength)
    (hlo : ((t.PieceHashes.length : Int) - 1) * t.PieceLength < t.Length)
    (h0 : 0 ≤ t.Length)
    (hmem : ∀ i : Nat, i < t.PieceHashes.length → ∃ r ∈ results, r.index = (i : Int))
    (hs : ∀ r ∈ results, slice buf (pieceBegin t r.index) (pieceEnd t r.index) = r.buf) :
    ∀ m : Nat, m ≤ t.PieceHashes.length →
      buf.take (min ((m : Int) * t.PieceLength) t.Length).toNat =
        ((List.range m).map (pieceOf results)).flatten := by
  intro m
  induction m with
  | zero =>
    intro _
    have e : (min (((0 : Nat) : Int) * t.PieceLength) t.Length).toNat = 0 := by
      rw [Int.ofNat_zero, Int.zero_mul]
      omega
    rw [e]
    rfl
  | succ m ih =>
    intro hm
    obtain ⟨r, hr, hi, hp⟩ := pieceOf_of_mem results m (hmem m (by omega))
    obtain ⟨g0, g1⟩ := piece_region t (m : Int) hnom hlo (by omega) (by omega)
    have hb : (min ((m : Int) * t.PieceLength) t.Length).toNat = pieceBegin t r.index := by
      rw [pieceBegin, hi]
      omega
    have he : (min (((m + 1 : Nat) : Int) * t.PieceLength) t.Length).toNat =
        pieceEnd t r.index := by
      rw [pieceEnd, hi]
      push_cast
      rfl
    have hle : pieceBegin t r.index ≤ pieceEnd t r.index := by
      rw [pieceBegin, pieceEnd, hi, Int.add_mul, Int.one_mul]
      omega
    rw [List.range_succ, List.map_append, List.flatten_append, ← ih (by omega), he,
      ← take_append_slice buf _ _ hle, hs r hr, hb, List.map_singleton, List.flatten_singleton,
      hp]

end

/-- C13 as stated fails: the torrent record with no piece, nominal length 2
and total length −1 is consistent in the sense of the claim
(`(N−1)·nominal < total ≤ N·nominal` for `N = 0`), the empty list holds one
result for every index in `[0, 0)`, and the collection of `Download` panics in
`make([]byte, t.Length)` instead of producing a buffer. -/
theorem collect_fails_on_negative_length :
    0 < negativeLengthTorrent.PieceLength ∧
      ((negativeLengthTorrent.PieceHashes.length : Int) - 1) * negativeLengthTorrent.PieceLength <
        negativeLengthTorrent.Length ∧
      negativeLengthTorrent.Length ≤
        (negativeLengthTorrent.PieceHashes.length : Int) * negativeLengthTorrent.PieceLength ∧
      (([] : List download.pieceResult).map (fun r => r.index)).Perm
        ((List.range negativeLengthTorrent.PieceHashes.length).map (fun i : Nat => (i : Int))) ∧
      download.collect negativeLengthTorrent [] = .error .panic :=
  ⟨by decide, by decide, by decide, List.Perm.nil, rfl⟩

/-- C13, amended: for a consistent torrent (`N` pieces, `nominal > 0`,
`(N−1)·nominal < total ≤ N·nominal`) with `total ≥ 0`, and for every arrival
order of `N` results, one for each index `i` in `[0, N)` with a buffer of that
piece's length, the collection loop of `Download` produces a buffer of length
exactly `total` in which the bytes `[i·nominal, min((i+1)·nominal, total))` are
the bytes of the result `i`, for every `i`: the buffer is the concatenation of
the pieces in index order. -/
theorem collect_order_independent (t : download.Torrent)
    (results : List download.pieceResult) (hnom : 0 < t.PieceLength)
    (hlo : ((t.PieceHashes.length : Int) - 1) * t.PieceLength < t.Length)
    (hhi : t.Length ≤ (t.PieceHashes.length : Int) * t.PieceLength)
    (h0 : 0 ≤ t.Length)
    (hperm : (results.map (fun r => r.index)).Perm
      ((List.range t.PieceHashes.length).map (fun i : Nat => (i : Int))))
    (hlen : ∀ r ∈ results, r.buf.length = pieceEnd t r.index - pieceBegin t r.index) :
    ∃ buf, download.collect t results = .ok buf ∧ (buf.length : Int) = t.Length ∧
      (∀ r ∈ results, slice buf (pieceBegin t r.index) (pieceEnd t r.index) = r.buf) ∧
      buf = ((List.range t.PieceHashes.length).map (pieceOf results)).flatten := by
  have hidx : ∀ r ∈ results, 0 ≤ r.index ∧ r.index < (t.PieceHashes.length : Int) := by
    intro r hr
    have := (hperm.mem_iff (a := r.index)).mp (List.mem_map.mpr ⟨r, hr, rfl⟩)
    obtain ⟨i, hi, e⟩ := List.mem_map.mp this
    rw [List.mem_range] at hi
    omega
  have hmem : ∀ i : Nat, i < t.PieceHashes.length → ∃ r ∈ results, r.index = (i : Int) := by
    intro i hi
    have : (i : Int) ∈ (List.range t.PieceHashes.length).map (fun i : Nat => (i : Int)) :=
      List.mem_map.mpr ⟨i, List.mem_range.mpr hi, rfl⟩
    obtain ⟨r, hr, e⟩ := List.mem_map.mp ((hperm.mem_iff (a := (i : Int))).mpr this)
    exact ⟨r, hr, e⟩
  have hnd : (results.map (fun r => r.index)).Nodup := by
    rw [hperm.nodup_iff]
    exact (List.nodup_range _).map (fun a b e => by simpa using e)
  have hcount : 0 + results.length = t.PieceHashes.length := by
    have := hperm.length_eq
    rw [List.length_map, List.length_map, List.length_range] at this
    omega
  have hregion : ∀ r ∈ results, pieceBegin t r.index = (r.index * t.PieceLength).toNat ∧
      pieceEnd t r.index = (min (r.index * t.PieceLength + t.PieceLength) t.Length).toNat ∧
      r.index * t.PieceLength ≤ min (r.index * t.PieceLength + t.PieceLength) t.Length ∧
      0 ≤ r.index * t.PieceLength := by
    intro r hr
    obtain ⟨a, b⟩ := hidx r hr
    obtain ⟨g0, g1⟩ := piece_region t r.index hnom hlo a b
    refine ⟨rfl, ?_, by omega, g0⟩
    rw [pieceEnd, Int.add_mul, Int.one_mul]
  obtain ⟨buf, e1, e2, e3, _⟩ := collectLoop_spec t hnom hlo results
    (makeBytes t.Length.toNat) 0 (by rw [length_makeBytes]; omega) hcount
    (fun r hr => by
      obtain ⟨a, b⟩ := hidx r hr
      obtain ⟨r1, r2, r3, r4⟩ := hregion r hr
      have := hlen r hr
      rw [r1, r2] at this
      exact ⟨a, b, by omega⟩)
    hnd
  have hslice : ∀ r ∈ results,
      slice buf (pieceBegin t r.index) (pieceEnd t r.index) = r.buf := by
    intro r hr
    obtain ⟨r1, r2, _, _⟩ := hregion r hr
    rw [r1, r2]
    exact e3 r hr
  have hlenb : (buf.length : Int) = t.Length := by
    rw [e2, length_makeBytes]
    omega
  refine ⟨buf, ?_, hlenb, hslice, ?_⟩
  · unfold download.collect
    rw [if_neg (by omega)]
    exact e1
  · have := take_eq_flatten t results buf hnom hlo h0 hmem hslice t.PieceHashes.length
      (Nat.le_refl _)
    rw [← this, List.take_of_length_le]
    omega

/-- Scenario S6 in small: three pieces of nominal length 2 and total length 5,
the last piece arriving first, are assembled to the bytes 1 to 5. -/
theorem collect_order_independent_witness :
    download.collect smallTorrent smallResults = .ok [1, 2, 3, 4, 5] ∧
      ∃ buf, download.collect smallTorrent smallResults = .ok buf ∧
        (buf.length : Int) = smallTorrent.Length ∧
        buf = ((List.range smallTorrent.PieceHashes.length).map
          (pieceOf smallResults)).flatten :=
  ⟨rfl,
    let ⟨buf, h1, h2, _, h4⟩ := collect_order_independent smallTorrent smallResults
      (by decide) (by decide) (by decide) (by decide) (by decide) (by decide)
    ⟨buf, h1, h2, h4⟩⟩

section
open download

theorem checkIntegrity_ok_iff (sha1 : List Byte → Hash20) (pw : pieceWork) (buf : List Byte) :
    checkIntegrity sha1 pw buf = .ok () ↔ (sha1 buf).val = pw.hash.val := by
  unfold checkIntegrity
  by_cases c : sha1 buf = pw.hash
  · rw [if_neg (by intro n; exact n c)]
    exact ⟨fun _ => congrArg Subtype.val c, fun _ => rfl⟩
  · rw [if_pos c]
    constructor
    · intro h; cases h
    · intro h; exact absurd (Subtype.ext h) c

theorem tryDownloadPiece_buf_length (c : client.Client) (pw : pieceWork) (s : pieceProgress)
    (h : tryDownloadPiece c pw = .ok s) : (s.buf.length : Int) = pw.length := by
  obtain ⟨hist, hr, _⟩ := tryDownloadPiece_Reach c pw s h
  obtain ⟨_, i2, i3, _⟩ := Reach_invariant pw c hist s hr
  omega

theorem workerBody_results (sha1 : List Byte → Hash20) (c : client.Client) (pw : pieceWork)
    (pass : workerPass) (h : workerBody sha1 c pw = .ok pass) :
    pass.results = [] ∨
      ∃ s, tryDownloadPiece c pw = .ok s ∧ checkIntegrity sha1 pw s.buf = .ok () ∧
        pass.results = [{ index := pw.index, buf := s.buf }] := by
  unfold workerBody at h
  cases hh : bitfields.HasPiece c.Bitfield pw.index with
  | none => rw [hh] at h; cases h
  | some b =>
    rw [hh] at h
    cases b with
    | false => cases h; exact Or.inl rfl
    | true =>
      dsimp only at h
      cases ht : tryDownloadPiece c pw with
      | error f =>
        rw [ht] at h
        cases f <;> first | (cases h; exact Or.inl rfl) | cases h
      | ok s =>
        rw [ht] at h
        dsimp only at h
        cases hc : checkIntegrity sha1 pw s.buf with
        | error f => rw [hc] at h; cases h; exact Or.inl rfl
        | ok u =>
          rw [hc] at h
          dsimp only at h
          rcases hs : client.SendHave s.client pw.index with ⟨res, c'⟩
          rw [hs] at h
          cases res with
          | error f =>
            cases f <;> first | (cases h; exact Or.inr ⟨s, rfl, hc, rfl⟩) | cases h
          | ok u' => cases h; exact Or.inr ⟨s, rfl, hc, rfl⟩

end

/-- C14: `checkIntegrity(pw, buf)` returns no error if and only if the SHA-1
digest of `buf` is byte-equal to `pw.hash`; and whenever the body of the
worker loop, run on a job `pw`, sends results, it sends exactly one, which
carries `pw.index` and a buffer of exactly `pw.length` bytes that passes
`checkIntegrity`, so that its digest is the digest the job expects. Here
`sha1` stands for `crypto/sha1.Sum`. -/
theorem integrity_gate (sha1 : List Byte → Hash20) (c : client.Client)
    (pw : download.pieceWork) (pass : download.workerPass)
    (h : download.workerBody sha1 c pw = .ok pass) :
    (∀ buf, download.checkIntegrity sha1 pw buf = .ok () ↔ (sha1 buf).val = pw.hash.val) ∧
      pass.results.length ≤ 1 ∧
      ∀ r ∈ pass.results, r.index = pw.index ∧ (r.buf.length : Int) = pw.length ∧
        download.checkIntegrity sha1 pw r.buf = .ok () ∧ (sha1 r.buf).val = pw.hash.val := by
  refine ⟨checkIntegrity_ok_iff sha1 pw, ?_, ?_⟩
  · rcases workerBody_results sha1 c pw pass h with e | ⟨s, _, _, e⟩ <;> rw [e]
    · exact Nat.zero_le _
    · exact Nat.le_refl _
  · intro r hr
    rcases workerBody_results sha1 c pw pass h with e | ⟨s, h1, h2, e⟩
    · rw [e] at hr; cases hr
    · rw [e, List.mem_singleton] at hr
      rw [hr]
      exact ⟨rfl, tryDownloadPiece_buf_length c pw s h1, h2,
        (checkIntegrity_ok_iff sha1 pw s.buf).mp h2⟩

/-- The worker on `servingClient` and `twoByteJob`, with `sumDigest` for the
digest: it delivers the piece 0 with the two bytes 1, 2, whose digest is the
expected one. -/
theorem integrity_gate_witness :
    download.workerBody sumDigest servingClient twoByteJob = .ok deliveredPass ∧
      deliveredPass.results = [{ index := 0, buf := [1, 2] }] ∧
      ∀ r ∈ deliveredPass.results, r.index = twoByteJob.index ∧
        (r.buf.length : Int) = twoByteJob.length ∧
        download.checkIntegrity sumDigest twoByteJob r.buf = .ok () ∧
        (sumDigest r.buf).val = twoByteJob.hash.val :=
  ⟨rfl, rfl, (integrity_gate sumDigest servingClient twoByteJob deliveredPass rfl).2.2⟩

/-! ## Claims on the worker's bookkeeping and on the validation of the input -/

section
open download

theorem workerBody_exactly_one (sha1 : List Byte → Hash20) (c : client.Client)
    (pw : pieceWork) (pass : workerPass) (h : workerBody sha1 c pw = .ok pass) :
    (pass.requeued = [pw] ∧ pass.results = []) ∨
      (pass.requeued = [] ∧ ∃ buf, pass.results = [{ index := pw.index, buf := buf }]) := by
  unfold workerBody at h
  cases hh : bitfields.HasPiece c.Bitfield pw.index with
  | none => rw [hh] at h; cases h
  | some b =>
    rw [hh] at h
    cases b with
    | false => cases h; exact Or.inl ⟨rfl, rfl⟩
    | true =>
      dsimp only at h
      cases ht : tryDownloadPiece c pw with
      | error f =>
        rw [ht] at h
        cases f <;> first | (cases h; exact Or.inl ⟨rfl, rfl⟩) | cases h
      | ok s =>
        rw [ht] at h
        dsimp only at h
        cases hc : checkIntegrity sha1 pw s.buf with
        | error f => rw [hc] at h; cases h; exact Or.inl ⟨rfl, rfl⟩
        | ok u =>
          rw [hc] at h
          dsimp only at h
          rcases hs : client.SendHave s.client pw.index with ⟨res, c'⟩
          rw [hs] at h
          cases res with
          | error f =>
            cases f <;> first | (cases h; exact Or.inr ⟨rfl, s.buf, rfl⟩) | cases h
          | ok u' => cases h; exact Or.inr ⟨rfl, s.buf, rfl⟩

theorem workerBody_fault (sha1 : List Byte → Hash20) (c : client.Client)
    (pw : pieceWork) (f : Fault) (h : workerBody sha1 c pw = .error f) : f = .panic := by
  unfold workerBody at h
  cases hh : bitfields.HasPiece c.Bitfield pw.index with
  | none => rw [hh] at h; cases h; rfl
  | some b =>
    rw [hh] at h
    cases b with
    | false => cases h
    | true =>
      dsimp only at h
      cases ht : tryDownloadPiece c pw with
      | error g =>
        rw [ht] at h
        cases g <;> first | (cases h; rfl) | cases h
        exact absurd ht (tryDownloadPiece_fuel c pw)
      | ok s =>
        rw [ht] at h
        dsimp only at h
        cases hc : checkIntegrity sha1 pw s.buf with
        | error g => rw [hc] at h; cases h
        | ok u =>
          rw [hc] at h
          dsimp only at h
          rcases hs : client.SendHave s.client pw.index with ⟨res, c'⟩
          rw [hs] at h
          cases res with
          | error g => cases g <;> first | (cases h; rfl) | cases h
          | ok u' => cases h

end

/-- C21, evaluated at the failing input: the peer of `emptyBitfieldConn`
answers the handshake and sends a Bitfield message with an empty payload, so
`client.New` returns a client with an empty bitmap; when the worker takes the
job for the piece 0, `HasPiece` indexes outside the bitmap and the worker
panics: there is no pass, the job is neither sent back on the work queue nor
delivered. The same happens when the peer sends a Have message beyond the
bitmap during the attempt (`haveBeyondBitmap`). -/
theorem workerBody_panics_on_empty_bitmap :
    client.New (some emptyBitfieldConn) ⟨List.replicate 20 0xBB, rfl⟩
        ⟨List.replicate 20 0xAA, rfl⟩ = .ok emptyBitfieldClient ∧
      bitfields.HasPiece emptyBitfieldClient.Bitfield tenByteJob.index = none ∧
      (∀ sha1, download.workerBody sha1 emptyBitfieldClient tenByteJob = .error .panic) ∧
      (∀ sha1, download.workerBody sha1 haveBeyondBitmap.client tenByteJob = .error .panic) :=
  ⟨rfl, rfl, fun _ => rfl, fun _ => rfl⟩

section
open download

theorem length_copy (dst src : List Byte) : (copy dst src).length = dst.length := by
  rw [copy, List.length_append, List.length_take, List.length_drop]
  omega

theorem collectStep_length (t : Torrent) (buf buf' : List Byte) (res : pieceResult)
    (h : collectStep t buf res = some buf') : buf'.length = buf.length := by
  have hend : (if res.index * t.PieceLength + t.PieceLength > t.Length then t.Length
      else res.index * t.PieceLength + t.PieceLength) =
      min (res.index * t.PieceLength + t.PieceLength) t.Length := by
    by_cases c : res.index * t.PieceLength + t.PieceLength > t.Length
    · rw [if_pos c]; omega
    · rw [if_neg c]; omega
  unfold collectStep at h
  dsimp only at h
  rw [hend] at h
  by_cases c : 0 ≤ res.index * t.PieceLength ∧
      res.index * t.PieceLength ≤ min (res.index * t.PieceLength + t.PieceLength) t.Length ∧
      min (res.index * t.PieceLength + t.PieceLength) t.Length ≤ (buf.length : Int)
  · rw [if_pos c] at h
    cases h
    rw [List.length_append, List.length_append, length_copy, List.length_take,
      List.length_drop, length_slice _ _ _ (by omega)]
    omega
  · rw [if_neg c] at h
    cases h

theorem collectLoop_outcomes (t : Torrent) :
    ∀ (rs : List pieceResult) (buf : List Byte) (done : Nat),
      (∃ buf', collectLoop t buf done rs = .ok buf' ∧ buf'.length = buf.length) ∨
        collectLoop t buf done rs = .error .panic ∨
        collectLoop t buf done rs = .error .blocked := by
  intro rs
  induction rs with
  | nil =>
    intro buf done
    simp only [collectLoop]
    by_cases c : done < t.PieceHashes.length
    · rw [if_pos c]; exact Or.inr (Or.inr rfl)
    · rw [if_neg c]; exact Or.inl ⟨buf, rfl, rfl⟩
  | cons r rest ih =>
    intro buf done
    simp only [collectLoop]
    by_cases c : done < t.PieceHashes.length
    · rw [if_pos c]
      cases hs : collectStep t buf r with
      | none => exact Or.inr (Or.inl rfl)
      | some buf1 =>
        dsimp only
        rcases ih buf1 (done + 1) with ⟨buf', e1, e2⟩ | e | e
        · exact Or.inl ⟨buf', e1, e2.trans (collectStep_length t buf buf1 r hs)⟩
        · exact Or.inr (Or.inl e)
        · exact Or.inr (Or.inr e)
    · rw [if_neg c]; exact Or.inl ⟨buf, rfl, rfl⟩

theorem collect_outcomes (t : Torrent) (results : List pieceResult) :
    (∃ buf, collect t results = .ok buf ∧ (buf.length : Int) = t.Length) ∨
      collect t results = .error .panic ∨ collect t results = .error .blocked := by
  unfold collect
  by_cases c : t.Length < 0
  · rw [if_pos c]; exact Or.inr (Or.inl rfl)
  · rw [if_neg c]
    rcases collectLoop_outcomes t results (makeBytes t.Length.toNat) 0 with ⟨buf, e1, e2⟩ | e | e
    · refine Or.inl ⟨buf, e1, ?_⟩
      rw [e2, length_makeBytes]
      omega
    · exact Or.inr (Or.inl e)
    · exact Or.inr (Or.inr e)

end

end GoTorrent
